import Mathlib

/-! Noodles: random matchings and loop counting.

A shallow embedding of `main.go`: the random perfect matching of `2N` noodle
ends stored in a compressed-sparse-row adjacency matrix (`randomMatching`),
the breadth-first loop counter (`countLoops`), one trial (`noodling`) and the
sampling loop of `main`.

Conventions of the embedding.

* Go `int` values that occur here (node labels, counts, indices) are natural
  numbers far below any machine bound; the matrix entries are `float64`
  values holding the small integers `0, 1, 2`, embedded as `Nat`.
* A run that ends in a Go panic (index out of range, matrix access outside the
  dimensions) is `none`; the breadth-first loop carries a fuel argument and
  running out of fuel is `none` as well, so that every statement
  `... = some x` says that the code returns and returns `x`.
* `rand.Shuffle` is a parameter: the function applied to the `ends` slice.
  What the claims assume of it is that it rearranges the slice.
* The matrix library `github.com/james-bowman/sparse` is not part of the
  source. Its matrix is modelled by the stored entries of every row; the
  results on `countLoops` hold for every storage order of the entries.
-/

namespace Noodles

/-! ## The sparse matrix of `github.com/james-bowman/sparse` -/

/-- Modelled from the spec: the type `sparse.CSR` of the imported library is
not part of the source; it is the `N × N` matrix of non-negative integers of
the specification, kept row by row as the stored `(column, value)` entries in
storage order (the slices `ind` and `data` between `indptr[i]` and
`indptr[i+1]`). The number of rows is the length of `rows`. -/
structure CSR where
  cols : Nat
  rows : List (List (Nat × Nat))
deriving DecidableEq

/-- Modelled from the spec: the lookup inside the library method `At`. The
value stored for column `n` in one row: the first stored entry of that column,
and zero when there is none. -/
def rowAt : List (Nat × Nat) → Nat → Nat
  | [], _ => 0
  | (c, x) :: es, n => if c = n then x else rowAt es n

/-- Modelled from the spec: the update inside the library method `Set`.
Overwrite the first stored entry of column `n` of a row, or insert a new entry
at the end of the row. -/
def rowSet : List (Nat × Nat) → Nat → Nat → List (Nat × Nat)
  | [], n, v => [(n, v)]
  | (c, x) :: es, n, v => if c = n then (c, v) :: es else (c, x) :: rowSet es n v

/-- Modelled from the spec: the library method `At(i, j)`, the entry
`A[i][j]`; it panics outside the dimensions. -/
def CSR.At (m : CSR) (i j : Nat) : Option Nat :=
  match m.rows[i]? with
  | none => none
  | some row => if j < m.cols then some (rowAt row j) else none

/-- Modelled from the spec: the library method `Set(i, j, v)`, the
assignment `A[i][j] = v`; it panics outside the dimensions, stores no zero,
and otherwise updates or inserts the entry. -/
def CSR.Set (m : CSR) (i j v : Nat) : Option CSR :=
  match m.rows[i]? with
  | none => none
  | some row =>
    if j < m.cols then
      if v = 0 then some m
      else some { m with rows := m.rows.set i (rowSet row j v) }
    else none

/-- Modelled from the spec: the library method `RowView(u)`, the stored
(non-zero) entries of row `u`, which `DoNonZero` then walks in storage
order. -/
def CSR.RowView (m : CSR) (u : Nat) : Option (List (Nat × Nat)) :=
  m.rows[u]?

/-- The entry `A[i][j]` as a number, zero outside the dimensions. -/
def CSR.entry (m : CSR) (i j : Nat) : Nat :=
  (m.At i j).getD 0

/-! ## `initialization` and `randomMatching` -/

/-- The function `initialization`: the `N × N` matrix without stored entries. -/
def initialization (N : Nat) : CSR :=
  { cols := N, rows := List.replicate N [] }

/-- The first loop of `randomMatching`: `ends = [0,0,1,1,...,N-1,N-1]`. -/
def buildEnds : Nat → List Nat
  | 0 => []
  | n + 1 => buildEnds n ++ [n, n]

/-- The pairing loop of `randomMatching` (`for k := 0; k < len(ends); k += 2`),
run over what is left of `ends` from position `k` on. -/
def pairLoop : List Nat → CSR → Option CSR
  | [], matrix => some matrix
  | [_], _ => none
  | u :: v :: rest, matrix =>
    if u = v then
      (matrix.Set u u 1).bind (pairLoop rest)
    else
      (matrix.At u v).bind fun a =>
      (matrix.Set u v (a + 1)).bind fun m1 =>
      (m1.At v u).bind fun b =>
      (m1.Set v u (b + 1)).bind (pairLoop rest)

/-- The function `randomMatching`; `shuffle` is the effect of `rand.Shuffle`
on the slice `ends`. -/
def randomMatching (shuffle : List Nat → List Nat) (noodles : Nat) : Option CSR :=
  let matrix := initialization noodles
  let ends := buildEnds noodles
  let ends := shuffle ends
  pairLoop ends matrix

/-! ## `countLoops` and `noodling` -/

/-- The callback given to `row.DoNonZero` in `countLoops`, run over the
stored entries of the row of `u`: every unvisited column other than `u` is
marked and appended to the queue. -/
def visitRow (u : Nat) : List (Nat × Nat) → List Bool → List Nat → Option (List Bool × List Nat)
  | [], visited, queue => some (visited, queue)
  | (j, _) :: es, visited, queue =>
    if j = u then visitRow u es visited queue
    else
      match visited[j]? with
      | none => none
      | some true => visitRow u es visited queue
      | some false => visitRow u es (visited.set j true) (queue ++ [j])

/-- The loop `for head < len(queue)` of `countLoops`; `fuel` bounds the
number of iterations. The result is the slice `visited` on exit. -/
def bfsLoop (matrix : CSR) : Nat → Nat → List Nat → List Bool → Option (List Bool)
  | fuel, head, queue, visited =>
    match queue[head]? with
    | none => some visited
    | some u =>
      match fuel with
      | 0 => none
      | fuel + 1 =>
        match matrix.RowView u with
        | none => none
        | some row =>
          match visitRow u row visited queue with
          | none => none
          | some (visited1, queue1) => bfsLoop matrix fuel (head + 1) queue1 visited1

/-- The loop `for i := 0; i < noodles; i++` of `countLoops`, run over the
indices still to come, on the state `(visited, count)`. -/
def outerLoop (noodles : Nat) (matrix : CSR) : List Nat → List Bool → Nat → Option (List Bool × Nat)
  | [], visited, count => some (visited, count)
  | i :: is, visited, count =>
    match visited[i]? with
    | none => none
    | some true => outerLoop noodles matrix is visited count
    | some false =>
      match matrix.At i i with
      | none => none
      | some d =>
        if d > 0 then
          outerLoop noodles matrix is (visited.set i true) (count + 1)
        else
          match bfsLoop matrix noodles 0 [i] (visited.set i true) with
          | none => none
          | some visited1 => outerLoop noodles matrix is visited1 (count + 1)

/-- The function `countLoops`. -/
def countLoops (noodles : Nat) (matrix : CSR) : Option Nat :=
  (outerLoop noodles matrix (List.range noodles) (List.replicate noodles false) 0).map Prod.snd

/-- The function `noodling`: one trial. -/
def noodling (shuffle : List Nat → List Nat) (noodles : Nat) : Option Nat :=
  (randomMatching shuffle noodles).bind (countLoops noodles)

/-! ## Predicates used by the statements -/

/-- The matrix has `N` rows and `N` columns. -/
def CSR.Square (N : Nat) (m : CSR) : Prop :=
  m.cols = N ∧ m.rows.length = N

instance (N : Nat) (m : CSR) : Decidable (m.Square N) := by
  unfold CSR.Square; infer_instance

/-- The pair count of the specification: the number of pairs `k` (the even
positions `2k` of `ends`) whose two labels are `i` and `j` in either order;
for `i = j` the number of pairs with both labels equal to `i`. -/
def pairCount (ends : List Nat) (i j : Nat) : Nat :=
  (List.range (ends.length / 2)).countP fun k =>
    decide ((ends[2 * k]? = some i ∧ ends[2 * k + 1]? = some j) ∨
      (ends[2 * k]? = some j ∧ ends[2 * k + 1]? = some i))

/-- The pairing step in the words of the specification: a pair `(u, u)`
increments `A[u][u]` by one, any other pair increments `A[u][v]` and
`A[v][u]` by one. -/
def specPairLoop : List Nat → CSR → Option CSR
  | [], matrix => some matrix
  | [_], _ => none
  | u :: v :: rest, matrix =>
    if u = v then
      (matrix.At u u).bind fun a =>
      (matrix.Set u u (a + 1)).bind (specPairLoop rest)
    else
      (matrix.At u v).bind fun a =>
      (matrix.Set u v (a + 1)).bind fun m1 =>
      (m1.At v u).bind fun b =>
      (m1.Set v u (b + 1)).bind (specPairLoop rest)

/-- The matching generator in the words of the specification. -/
def specRandomMatching (shuffle : List Nat → List Nat) (N : Nat) : Option CSR :=
  specPairLoop (shuffle (buildEnds N)) (initialization N)

/-- The degree of node `i` in the matrix `A` over `N` nodes: twice the
diagonal entry plus the other entries of row `i`. -/
def degree (N : Nat) (A : CSR) (i : Nat) : Nat :=
  2 * A.entry i i + ∑ j ∈ (Finset.range N).filter (fun j => j ≠ i), A.entry i j

/-- An `N × N` matrix as the library builds it: `N` rows, `N` columns, and
every stored entry lies in one of the `N` columns. -/
def CSR.InRange (N : Nat) (m : CSR) : Prop :=
  m.Square N ∧ ∀ row ∈ m.rows, ∀ e ∈ row, e.1 < N

instance (N : Nat) (m : CSR) : Decidable (m.InRange N) := by
  unfold CSR.InRange; infer_instance

/-- Node `j` is marked in the slice `visited`. -/
def vis (visited : List Bool) (j : Nat) : Prop :=
  visited[j]? = some true

instance (visited : List Bool) (j : Nat) : Decidable (vis visited j) := by
  unfold vis; infer_instance

/-- The traversal steps from `u` to `j`: column `j ≠ u` has a stored entry in
row `u`. -/
def Edge (m : CSR) (u j : Nat) : Prop :=
  j ≠ u ∧ ∃ row, m.rows[u]? = some row ∧ ∃ x, (j, x) ∈ row

/-- Node `j` is reached from `s` along steps of the traversal that enter
only nodes not marked in `V0`. -/
def ReachAvoid (m : CSR) (V0 : List Bool) (s j : Nat) : Prop :=
  Relation.ReflTransGen (fun a b => Edge m a b ∧ ¬ vis V0 b) s j

/-- The invariant of the loop `for head < len(queue)` started at node `s`
with the marks `V0`. -/
structure BfsInv (m : CSR) (N : Nat) (V0 : List Bool) (s head : Nat) (queue : List Nat)
    (visited : List Bool) : Prop where
  len : visited.length = N
  lt : ∀ x ∈ queue, x < N
  head_le : head ≤ queue.length
  start : s ∈ queue
  marks : ∀ j, vis visited j ↔ vis V0 j ∨ j ∈ queue
  done : ∀ x ∈ queue.take head, ∀ j, Edge m x j → vis visited j
  reach : ∀ x ∈ queue, ReachAvoid m V0 s x

/-- An `N × N` matrix as `Set` builds it: in range, and no stored entry is an
explicit zero. -/
def CSR.Canonical (N : Nat) (m : CSR) : Prop :=
  m.InRange N ∧ ∀ row ∈ m.rows, ∀ e ∈ row, 0 < e.2

instance (N : Nat) (m : CSR) : Decidable (m.Canonical N) := by
  unfold CSR.Canonical; infer_instance

/-- The matrix is symmetric on the `N` nodes. -/
def CSR.Symmetric (N : Nat) (A : CSR) : Prop :=
  ∀ i, i < N → ∀ j, j < N → A.entry i j = A.entry j i

instance (N : Nat) (A : CSR) : Decidable (A.Symmetric N) := by
  unfold CSR.Symmetric; infer_instance

/-- A Matching over `N` nodes: an `N × N` matrix that satisfies the symmetry
and the degree invariant of the specification. -/
def CSR.IsMatching (N : Nat) (A : CSR) : Prop :=
  A.Canonical N ∧ A.Symmetric N ∧ ∀ i, i < N → degree N A i = 2

instance (N : Nat) (A : CSR) : Decidable (A.IsMatching N) := by
  unfold CSR.IsMatching; infer_instance

/-- The undirected graph on the nodes `0..N-1` whose edges are the pairs
`i ≠ j` with `A[i][j] > 0` (in either order). -/
def loopGraph (N : Nat) (A : CSR) : SimpleGraph (Fin N) :=
  SimpleGraph.fromRel fun i j => 0 < A.entry i j

/-- The marked nodes are a union of connected components of the graph `G`:
marks pass along every edge. -/
def Closed {N : Nat} (G : SimpleGraph (Fin N)) (visited : List Bool) : Prop :=
  ∀ a b : Fin N, G.Adj a b → vis visited a → vis visited b

/-- The connected components of `G` that hold a marked node. -/
def markedComponents {N : Nat} (G : SimpleGraph (Fin N)) (visited : List Bool) :
    Set G.ConnectedComponent :=
  G.connectedComponentMk '' {a : Fin N | vis visited a}

/-- A shuffle outcome that moves the first end to the back: from
`[0,0,1,1,...,N-1,N-1]` it leaves `[0,1,1,2,...,N-1,N-1,0]`. -/
def rotateOne (ends : List Nat) : List Nat :=
  ends.rotate 1

/-- The matrix restricted to the nodes `1..N-1`, rows and columns re-indexed
by subtracting one. -/
def restrict (A : CSR) : CSR :=
  { cols := A.cols - 1
    rows := A.rows.tail.map fun row =>
      (row.filter fun e => decide (e.1 ≠ 0)).map fun e => (e.1 - 1, e.2) }

/-- The marks `V` over the nodes `0..n` extend the marks `W` over the nodes
`1..n` re-indexed to `0..n-1`, with node `0` marked. -/
def ShiftedMarks (V W : List Bool) : Prop :=
  vis V 0 ∧ ∀ j, vis V (j + 1) ↔ vis W j

/-! ## The sampling loop of `main` -/

/-- The loop `for i := 0; i < numSamples; i++` of `main`, run over the
indices still to come, on the state `(counts, countsList)`; `shuffles i` is
the effect of `rand.Shuffle` in trial `i`. -/
def sampleLoop (shuffles : Nat → List Nat → List Nat) (numSamples noodles : Nat) :
    List Nat → Nat → List Nat → Option (Nat × List Nat)
  | [], counts, countsList => some (counts, countsList)
  | i :: is, counts, countsList =>
    match noodling (shuffles i) noodles with
    | none => none
    | some count =>
      sampleLoop shuffles numSamples noodles is (counts + count)
        (countsList.set i (count / numSamples))

/-- The body of `main` up to the end of the sampling loop, for the constants
`numSamples` and `noodles`: the final `(counts, countsList)`. -/
def mainSamples (shuffles : Nat → List Nat → List Nat) (numSamples noodles : Nat) :
    Option (Nat × List Nat) :=
  sampleLoop shuffles numSamples noodles (List.range numSamples) 0 (List.replicate numSamples 0)

/-- The sampling loop of `main` as written, with `numSamples = 1000000` and
`noodles = 100`. -/
def main (shuffles : Nat → List Nat → List Nat) : Option (Nat × List Nat) :=
  mainSamples shuffles 1000000 100

/-! ## The shuffle as a permutation of the endpoint tokens

The `2N` endpoint tokens are the numbers below `2N`; the tokens `2i` and
`2i+1` belong to node `i`. A shuffle outcome is a permutation `σ`: position
`p` of the slice holds the token `σ p`, and the slice `ends` of the code
holds its label. -/

/-- The pairs formed by consuming a sequence two elements at a time, as the
loop `for k := 0; k < len(ends); k += 2` of `randomMatching` does. -/
def twoAtATime {α : Type} : List α → List (α × α)
  | a :: b :: rest => (a, b) :: twoAtATime rest
  | _ => []

/-- The token sequence left by the shuffle `σ`. -/
def tokenSeq {N : Nat} (σ : Equiv.Perm (Fin (2 * N))) : List (Fin (2 * N)) :=
  List.ofFn σ

/-- The slice `ends` left by the shuffle `σ`: the owners of the tokens. -/
def tokenLabels {N : Nat} (σ : Equiv.Perm (Fin (2 * N))) : List Nat :=
  (tokenSeq σ).map fun t => t.val / 2

/-- A perfect matching of the `2N` endpoints, given by the partner `m t` of
every token `t`: the partner of the partner is the token itself, and no token
is its own partner. -/
def IsPerfectMatching {N : Nat} (m : Equiv.Perm (Fin (2 * N))) : Prop :=
  (∀ t, m (m t) = t) ∧ ∀ t, m t ≠ t

instance {N : Nat} (m : Equiv.Perm (Fin (2 * N))) : Decidable (IsPerfectMatching m) := by
  unfold IsPerfectMatching; infer_instance

/-- The shuffle outcome `σ` produces the perfect matching `m`: the two tokens
of every pair consumed are partners. -/
def Produces {N : Nat} (σ m : Equiv.Perm (Fin (2 * N))) : Prop :=
  ∀ ab ∈ twoAtATime (tokenSeq σ), m ab.1 = ab.2

instance {N : Nat} (σ m : Equiv.Perm (Fin (2 * N))) : Decidable (Produces σ m) := by
  unfold Produces; infer_instance

/-- Position `2k` or `2k+1` of the slice, named by the pair `k` it is
consumed in and by whether it is the second element of that pair. -/
def slot {N : Nat} : Fin N × Bool ≃ Fin (2 * N) where
  toFun x := ⟨2 * x.1.val + (if x.2 then 1 else 0), by
    have := x.1.isLt
    split_ifs <;> omega⟩
  invFun p := (⟨p.val / 2, by have := p.isLt; omega⟩, decide (p.val % 2 = 1))
  left_inv x := by
    obtain ⟨k, b⟩ := x
    cases b
    · ext
      · simp
      · simp
    · ext
      · simp; omega
      · simp; omega
  right_inv p := by
    ext
    simp only
    by_cases h : p.val % 2 = 1
    · simp [h]; omega
    · simp [h]; omega

/-- The other position of the same pair. -/
def flipSlot {N : Nat} : Equiv.Perm (Fin N × Bool) where
  toFun x := (x.1, !x.2)
  invFun x := (x.1, !x.2)
  left_inv x := by simp
  right_inv x := by simp

/-- The permutation of the positions by pairs that sends pair `k` to pair
`π k`, exchanging the two elements of pair `k` when `f k` holds. -/
def blockPerm {N : Nat} (π : Equiv.Perm (Fin N)) (f : Fin N → Bool) :
    Equiv.Perm (Fin N × Bool) where
  toFun x := (π x.1, xor (f x.1) x.2)
  invFun x := (π.symm x.1, xor (f (π.symm x.1)) x.2)
  left_inv x := by simp
  right_inv x := by simp

/-- The number of tokens of node `i` whose partner under `m` belongs to node
`j`. -/
def linkCount {N : Nat} (m : Equiv.Perm (Fin (2 * N))) (i j : Nat) : Nat :=
  (Finset.univ.filter fun t : Fin (2 * N) => t.val / 2 = i ∧ (m t).val / 2 = j).card

/-! ## Node counts given as a Go `int` -/

/-- The function `randomMatching` for a Go `int` argument, which may be
negative: `make([]int, N+1)` in `initialization` panics when `N + 1 < 0`,
and `make([]int, 0, 2*noodles)` panics when the capacity `2*noodles` is
negative; otherwise the run is the one of `randomMatching` on the natural
number. -/
def randomMatchingInt (shuffle : List Nat → List Nat) (noodles : Int) : Option CSR :=
  if noodles + 1 < 0 then none
  else if 2 * noodles < 0 then none
  else randomMatching shuffle noodles.toNat

/-- The function `countLoops` for a Go `int` argument: `make([]bool, noodles)`
panics when `noodles` is negative. -/
def countLoopsInt (noodles : Int) (matrix : CSR) : Option Nat :=
  if noodles < 0 then none else countLoops noodles.toNat matrix

/-- The function `noodling` for a Go `int` argument. -/
def noodlingInt (shuffle : List Nat → List Nat) (noodles : Int) : Option Nat :=
  (randomMatchingInt shuffle noodles).bind (countLoopsInt noodles)

/-! ## `countLoops` without the self-loop short-circuit -/

/-- The outer loop of `countLoops` with the branch `if matrix.At(i, i) > 0`
removed: every unmarked node starts a traversal. -/
def outerLoopPlain (noodles : Nat) (matrix : CSR) :
    List Nat → List Bool → Nat → Option (List Bool × Nat)
  | [], visited, count => some (visited, count)
  | i :: is, visited, count =>
    match visited[i]? with
    | none => none
    | some true => outerLoopPlain noodles matrix is visited count
    | some false =>
      match bfsLoop matrix noodles 0 [i] (visited.set i true) with
      | none => none
      | some visited1 => outerLoopPlain noodles matrix is visited1 (count + 1)

/-- The function `countLoops` with the self-loop short-circuit removed: plain
breadth-first component counting. -/
def countLoopsPlain (noodles : Nat) (matrix : CSR) : Option Nat :=
  (outerLoopPlain noodles matrix (List.range noodles) (List.replicate noodles false) 0).map
    Prod.snd

/-- The undirected graph among the nodes that are not self-paired: the pairs
`i ≠ j` with `A[i][j] > 0` and `A[i][i] = A[j][j] = 0`. A self-paired node
has no edge in it. -/
def restGraph (N : Nat) (A : CSR) : SimpleGraph (Fin N) :=
  SimpleGraph.fromRel fun i j => 0 < A.entry i j ∧ A.entry i i = 0 ∧ A.entry j j = 0

/-- No self-paired node has an edge to a node that is not self-paired. -/
def CSR.SelfPairedApart (N : Nat) (A : CSR) : Prop :=
  ∀ i, i < N → ∀ j, j < N → 0 < A.entry i i → A.entry j j = 0 → A.entry i j = 0

instance (N : Nat) (A : CSR) : Decidable (A.SelfPairedApart N) := by
  unfold CSR.SelfPairedApart; infer_instance

/-! ## `countLoops` with the marked nodes recorded -/

/-- The loop `for head < len(queue)` of `countLoops`, returning the queue on
exit together with the slice `visited`. -/
def bfsLoopQueue (matrix : CSR) : Nat → Nat → List Nat → List Bool →
    Option (List Bool × List Nat)
  | fuel, head, queue, visited =>
    match queue[head]? with
    | none => some (visited, queue)
    | some u =>
      match fuel with
      | 0 => none
      | fuel + 1 =>
        match matrix.RowView u with
        | none => none
        | some row =>
          match visitRow u row visited queue with
          | none => none
          | some (visited1, queue1) => bfsLoopQueue matrix fuel (head + 1) queue1 visited1

/-- The outer loop of `countLoops`, recording for every loop counted the
nodes it marks: the node itself for a self-paired node, the final queue for a
traversal. -/
def outerLoopGroups (noodles : Nat) (matrix : CSR) :
    List Nat → List Bool → Nat → List (List Nat) → Option (List Bool × Nat × List (List Nat))
  | [], visited, count, groups => some (visited, count, groups)
  | i :: is, visited, count, groups =>
    match visited[i]? with
    | none => none
    | some true => outerLoopGroups noodles matrix is visited count groups
    | some false =>
      match matrix.At i i with
      | none => none
      | some d =>
        if d > 0 then
          outerLoopGroups noodles matrix is (visited.set i true) (count + 1) (groups ++ [[i]])
        else
          match bfsLoopQueue matrix noodles 0 [i] (visited.set i true) with
          | none => none
          | some (visited1, queue1) =>
            outerLoopGroups noodles matrix is visited1 (count + 1) (groups ++ [queue1])

/-! ## `plotHistogram` and `makeXLabels`

The entries of `data` are the stored quotients, non-negative Go `int`s. The
map `freq` is kept as the list of its `(key, count)` entries; the order in
which `range freq` visits them is a parameter. The calls into the plotting
library (`plot.New`, `plotter.NewBarChart`, `p.Add`, `p.NominalX`, `p.Save`)
only consume the values computed here and are taken to succeed. -/

/-- The read `freq[k]` of the Go map: the count stored for key `k`, zero for
a missing key. -/
def mapGet (freq : List (Nat × Nat)) (k : Nat) : Nat :=
  rowAt freq k

/-- The statement `freq[v]++` on the Go map. -/
def mapIncr (freq : List (Nat × Nat)) (v : Nat) : List (Nat × Nat) :=
  rowSet freq v (mapGet freq v + 1)

/-- The loop `for _, v := range data` of `plotHistogram`, on the state
`(freq, maxVal)`. -/
def countFreq : List Nat → List (Nat × Nat) → Nat → List (Nat × Nat) × Nat
  | [], freq, maxVal => (freq, maxVal)
  | v :: data, freq, maxVal =>
    if v = 0 then countFreq data freq maxVal
    else countFreq data (mapIncr freq v) (if v > maxVal then v else maxVal)

/-- The loop `for k, v := range freq { hist[k] = float64(v) }`, run over the
entries of the map in the order given; an index outside `hist` panics. -/
def fillHist : List (Nat × Nat) → List Nat → Option (List Nat)
  | [], hist => some hist
  | (k, v) :: es, hist => if k < hist.length then fillHist es (hist.set k v) else none

/-- The frequency table `hist` built by `plotHistogram`; `order` is the
order in which `range freq` visits the entries of the map. -/
def histogram (order : List (Nat × Nat) → List (Nat × Nat)) (data : List Nat) :
    Option (List Nat) :=
  let freq := (countFreq data [] 0).1
  let maxVal := (countFreq data [] 0).2
  fillHist (order freq) (List.replicate (maxVal + 1) 0)

/-- The slice expression `s[1:]`, which panics on an empty slice. -/
def sliceFromOne {α : Type} (s : List α) : Option (List α) :=
  if 1 ≤ s.length then some (s.drop 1) else none

/-- The loop `for i := range labels` of `makeXLabels`, with
`labels[i] = fmt.Sprintf("%d", i)`. -/
def labelLoop : List Nat → List String → List String
  | [], labels => labels
  | i :: is, labels => labelLoop is (labels.set i (Nat.repr i))

/-- The function `makeXLabels`. -/
def makeXLabels (n : Nat) : List String :=
  labelLoop (List.range n) (List.replicate n "")

/-- The function `plotHistogram` up to the values it hands to the plotting
library: the table `hist`, the bar values `hist[1:]` and the labels
`makeXLabels(len(hist) - 1)[1:]`. -/
def plotHistogram (order : List (Nat × Nat) → List (Nat × Nat)) (data : List Nat) :
    Option (List Nat × List Nat × List String) :=
  (histogram order data).bind fun hist =>
  (sliceFromOne hist).bind fun bars =>
  (sliceFromOne (makeXLabels (hist.length - 1))).bind fun labels =>
  some (hist, bars, labels)

/-! ## The chains formed while the pairs are consumed -/

/-- One pair `(a, b)` consumed: when `b` is the other free end of the chain
of `a` the chain closes and the free ends of the other chains stay as they
are; otherwise the two chains are joined and their remaining free ends become
each other's. -/
def chainStep {α : Type} [DecidableEq α] (e : α → α) (a b : α) : α → α :=
  if e a = b then e else Function.update (Function.update e (e a) (e b)) (e b) (e a)


/-- The node that owns a token: tokens `2i` and `2i+1` belong to node `i`. -/
def tokenNode {N : Nat} (t : Fin (2 * N)) : Fin N :=
  (slot.symm t).1

/-- The other end of the same noodle. -/
def otherEnd {N : Nat} : Equiv.Perm (Fin (2 * N)) :=
  slot.permCongr flipSlot

/-- The number of the pair in which the shuffle outcome `σ` consumes the
token `t`. -/
def pairIndex {N : Nat} (σ : Equiv.Perm (Fin (2 * N))) (t : Fin (2 * N)) : Nat :=
  (slot.symm (σ.symm t)).1.val

/-- The free ends of the chains after the first `k` pairs of the shuffle
outcome `σ` have been consumed: a token still unused is sent to the other
free end of its chain. -/
def chainEnds {N : Nat} (σ : Equiv.Perm (Fin (2 * N))) : Nat → Fin (2 * N) → Fin (2 * N)
  | 0 => otherEnd
  | k + 1 =>
    if h : k < N then
      chainStep (chainEnds σ k) (σ (slot (⟨k, h⟩, false))) (σ (slot (⟨k, h⟩, true)))
    else chainEnds σ k

/-- Pair `k` of the shuffle outcome `σ` joins the two free ends of one chain
and so closes a loop. -/
def Closes {N : Nat} (σ : Equiv.Perm (Fin (2 * N))) (k : Fin N) : Prop :=
  chainEnds σ k.val (σ (slot (k, false))) = σ (slot (k, true))

instance {N : Nat} (σ : Equiv.Perm (Fin (2 * N))) (k : Fin N) : Decidable (Closes σ k) := by
  unfold Closes; infer_instance

/-- The graph on the nodes whose edges are the first `k` pairs consumed. -/
def pairGraph {N : Nat} (σ : Equiv.Perm (Fin (2 * N))) (k : Nat) : SimpleGraph (Fin N) :=
  SimpleGraph.fromRel fun i j =>
    ∃ k1 : Fin N, k1.val < k ∧ tokenNode (σ (slot (k1, false))) = i ∧
      tokenNode (σ (slot (k1, true))) = j

/-- The loop count of the trial whose shuffle leaves the tokens in the order
`σ`. -/
def loopsOf {N : Nat} (σ : Equiv.Perm (Fin (2 * N))) : Nat :=
  (noodling (fun _ => tokenLabels σ) N).getD 0

/-! ## Reading and writing entries -/

theorem rowAt_rowSet (row : List (Nat × Nat)) (n v k : Nat) :
    rowAt (rowSet row n v) k = if k = n then v else rowAt row k := by
  induction row with
  | nil => simp only [rowSet, rowAt]; split_ifs <;> simp_all
  | cons e es ih =>
    obtain ⟨c, x⟩ := e
    by_cases hc : c = n
    · subst hc
      simp only [rowSet, if_true, rowAt]
      by_cases hk : c = k
      · subst hk; simp
      · have : ¬ k = c := fun h => hk h.symm
        simp [hk, this]
    · simp only [rowSet, hc, if_false, rowAt, ih]
      by_cases hk : c = k
      · have : ¬ k = n := fun h => hc (hk.trans h)
        simp [hk, this]
      · simp [hk]

theorem initialization_square (N : Nat) : (initialization N).Square N := by
  simp [initialization, CSR.Square]

theorem initialization_entry (N i j : Nat) : (initialization N).entry i j = 0 := by
  unfold CSR.entry CSR.At initialization
  by_cases hi : i < N
  · simp only [List.getElem?_replicate, hi, if_true]
    split_ifs <;> simp [rowAt]
  · simp [List.getElem?_replicate, hi]

theorem At_of_square {N : Nat} {m : CSR} (hm : m.Square N) {i j : Nat} (hi : i < N)
    (hj : j < N) : m.At i j = some (m.entry i j) := by
  obtain ⟨hc, hr⟩ := hm
  have hi2 : i < m.rows.length := by omega
  unfold CSR.entry CSR.At
  simp [List.getElem?_eq_getElem hi2, hc, hj]

theorem Set_of_square {N : Nat} {m : CSR} (hm : m.Square N) {i j v : Nat} (hi : i < N)
    (hj : j < N) (hv : v ≠ 0) :
    ∃ m1, m.Set i j v = some m1 ∧ m1.Square N ∧
      ∀ a b, m1.entry a b = if a = i ∧ b = j then v else m.entry a b := by
  obtain ⟨hc, hr⟩ := hm
  have hi2 : i < m.rows.length := by omega
  refine ⟨{ m with rows := m.rows.set i (rowSet m.rows[i] j v) }, ?_, ?_, ?_⟩
  · unfold CSR.Set
    simp [List.getElem?_eq_getElem hi2, hc, hj, hv]
  · simp [CSR.Square, hc, hr]
  · intro a b
    unfold CSR.entry CSR.At
    simp only [List.getElem?_set]
    by_cases ha : i = a
    · subst ha
      simp only [if_true, hi2, true_and, List.getElem?_eq_getElem hi2]
      by_cases hb : b < m.cols
      · simp only [hb, if_true, Option.getD_some, rowAt_rowSet]
      · have : ¬ b = j := by omega
        simp [hb, this]
    · have : ¬ a = i := fun h => ha h.symm
      simp [ha, this]

/-! ## The pairing loop -/

theorem pairCount_cons_cons (u v : Nat) (rest : List Nat) (i j : Nat) :
    pairCount (u :: v :: rest) i j =
      (if (u = i ∧ v = j) ∨ (u = j ∧ v = i) then 1 else 0) + pairCount rest i j := by
  unfold pairCount
  have hlen : (u :: v :: rest).length / 2 = rest.length / 2 + 1 := by
    simp only [List.length_cons]; omega
  rw [hlen, List.range_succ_eq_map, List.countP_cons, List.countP_map, Nat.add_comm]
  congr 1
  · simp
  · apply List.countP_congr
    intro k _
    have h1 : 2 * (k + 1) = 2 * k + 1 + 1 := by ring
    simp [Function.comp, h1]

theorem pairCount_nil (i j : Nat) : pairCount [] i j = 0 := by
  simp [pairCount]

theorem pairLoop_spec (N : Nat) : ∀ (l : List Nat) (m : CSR), m.Square N →
    (∀ x ∈ l, x < N) → Even l.length →
    ∃ m1, pairLoop l m = some m1 ∧ m1.Square N ∧
      ∀ i j, i < N → j < N → m1.entry i j =
        if i = j then (if 0 < pairCount l i i then 1 else m.entry i i)
        else m.entry i j + pairCount l i j
  | [], m, hm, _, _ => by
    refine ⟨m, rfl, hm, ?_⟩
    intro i j _ _
    by_cases hij : i = j
    · subst hij; simp [pairCount_nil]
    · simp [pairCount_nil, hij]
  | [x], m, _, _, he => by
    simp at he
  | u :: v :: rest, m, hm, hl, he => by
    have hu : u < N := hl u (by simp)
    have hv : v < N := hl v (by simp)
    have hrest : ∀ x ∈ rest, x < N := fun x hx => hl x (by simp [hx])
    have herest : Even rest.length := by
      simp only [List.length_cons] at he
      rcases he with ⟨r, hr⟩
      exact ⟨r - 1, by omega⟩
    by_cases huv : u = v
    · subst huv
      obtain ⟨m1, h1, hs1, he1⟩ := Set_of_square hm hu hu (Nat.one_ne_zero)
      obtain ⟨m2, h2, hs2, he2⟩ := pairLoop_spec N rest m1 hs1 hrest herest
      refine ⟨m2, ?_, hs2, ?_⟩
      · simp [pairLoop, h1, h2]
      · intro i j hi hj
        rw [he2 i j hi hj, pairCount_cons_cons, pairCount_cons_cons, he1, he1]
        by_cases hij : i = j
        · subst hij
          by_cases hiu : i = u
          · subst hiu; simp
          · have : ¬ u = i := fun h => hiu h.symm
            simp [hiu, this]
        · have h3 : ¬ ((u = i ∧ u = j) ∨ (u = j ∧ u = i)) := by
            rintro (⟨a, b⟩ | ⟨a, b⟩) <;> exact hij (by omega)
          have h4 : ¬ (i = u ∧ j = u) := by
            rintro ⟨a, b⟩; exact hij (by omega)
          simp [hij, h3, h4]
    · obtain ⟨m1, h1, hs1, he1⟩ := Set_of_square hm hu hv (Nat.succ_ne_zero (m.entry u v))
      obtain ⟨m2, h2, hs2, he2⟩ := Set_of_square hs1 hv hu (Nat.succ_ne_zero (m1.entry v u))
      obtain ⟨m3, h3, hs3, he3⟩ := pairLoop_spec N rest m2 hs2 hrest herest
      refine ⟨m3, ?_, hs3, ?_⟩
      · simp [pairLoop, huv, At_of_square hm hu hv, h1, At_of_square hs1 hv hu, h2, h3]
      · intro i j hi hj
        rw [he3 i j hi hj, pairCount_cons_cons, pairCount_cons_cons, he2, he2, he1, he1, he1]
        have hvu : ¬ v = u := fun h => huv h.symm
        by_cases hij : i = j
        · subst hij
          have h5 : ¬ ((u = i ∧ v = i) ∨ (v = i ∧ u = i)) := by
            rintro (⟨a, b⟩ | ⟨a, b⟩) <;> exact huv (by omega)
          have h6 : ¬ (i = v ∧ i = u) := by
            rintro ⟨a, b⟩; exact huv (by omega)
          have h7 : ¬ (i = u ∧ i = v) := by
            rintro ⟨a, b⟩; exact huv (by omega)
          have h9 : ¬ (u = i ∧ v = i) := by
            rintro ⟨a, b⟩; exact huv (by omega)
          simp [h5, h6, h7, h9]
        · simp only [hij, if_false]
          by_cases ha : i = u ∧ j = v
          · obtain ⟨rfl, rfl⟩ := ha
            simp [huv, hvu]; ring
          · by_cases hb : i = v ∧ j = u
            · obtain ⟨rfl, rfl⟩ := hb
              simp [huv, hvu]; ring
            · have h8 : ¬ ((u = i ∧ v = j) ∨ (u = j ∧ v = i)) := by
                rintro (⟨a, b⟩ | ⟨a, b⟩)
                · exact ha ⟨a.symm, b.symm⟩
                · exact hb ⟨b.symm, a.symm⟩
              simp [ha, hb, h8]
theorem pairLoop_eq_specPairLoop (N : Nat) : ∀ (l : List Nat) (m : CSR), m.Square N →
    (∀ x ∈ l, x < N) →
    (∀ i, i < N → pairCount l i i ≤ 1 ∧ (0 < pairCount l i i → m.entry i i = 0)) →
    pairLoop l m = specPairLoop l m
  | [], m, _, _, _ => rfl
  | [x], m, _, _, _ => rfl
  | u :: v :: rest, m, hm, hl, hp => by
    have hu : u < N := hl u (by simp)
    have hv : v < N := hl v (by simp)
    have hrest : ∀ x ∈ rest, x < N := fun x hx => hl x (by simp [hx])
    by_cases huv : u = v
    · subst huv
      have h0 : m.entry u u = 0 := by
        apply (hp u hu).2
        rw [pairCount_cons_cons]; simp
      obtain ⟨m1, h1, hs1, he1⟩ := Set_of_square hm hu hu (Nat.one_ne_zero)
      have ih := pairLoop_eq_specPairLoop N rest m1 hs1 hrest (by
        intro i hi
        have hpi := hp i hi
        rw [pairCount_cons_cons] at hpi
        by_cases hiu : u = i
        · subst hiu
          simp only [and_self, or_self, if_true] at hpi
          exact ⟨by omega, fun h => by omega⟩
        · have hiu2 : ¬ i = u := fun h => hiu h.symm
          simp only [hiu, and_self, or_self, if_false, Nat.zero_add] at hpi
          refine ⟨hpi.1, fun h => ?_⟩
          rw [he1]; simp only [hiu2, and_self, if_false]
          exact hpi.2 h)
      simp [pairLoop, specPairLoop, At_of_square hm hu hu, h0, h1, ih]
    · obtain ⟨m1, h1, hs1, he1⟩ := Set_of_square hm hu hv (Nat.succ_ne_zero (m.entry u v))
      obtain ⟨m2, h2, hs2, he2⟩ := Set_of_square hs1 hv hu (Nat.succ_ne_zero (m1.entry v u))
      have ih := pairLoop_eq_specPairLoop N rest m2 hs2 hrest (by
        intro i hi
        have hpi := hp i hi
        rw [pairCount_cons_cons] at hpi
        have h5 : ¬ ((u = i ∧ v = i) ∨ (u = i ∧ v = i)) := by
          rintro (⟨a, b⟩ | ⟨a, b⟩) <;> exact huv (by omega)
        have h6 : ¬ (i = v ∧ i = u) := by
          rintro ⟨a, b⟩; exact huv (by omega)
        have h7 : ¬ (i = u ∧ i = v) := by
          rintro ⟨a, b⟩; exact huv (by omega)
        simp only [h5, if_false, Nat.zero_add] at hpi
        refine ⟨hpi.1, fun h => ?_⟩
        rw [he2]; simp only [h6, if_false]
        rw [he1]; simp only [h7, if_false]
        exact hpi.2 h)
      simp [pairLoop, specPairLoop, huv, At_of_square hm hu hv, h1, At_of_square hs1 hv hu,
        h2, ih]

/-! ## The label sequence and its rearrangements -/

theorem buildEnds_length (N : Nat) : (buildEnds N).length = 2 * N := by
  induction N with
  | zero => rfl
  | succ n ih => simp [buildEnds, ih]; ring

theorem buildEnds_lt (N : Nat) : ∀ x ∈ buildEnds N, x < N := by
  induction N with
  | zero => simp [buildEnds]
  | succ n ih =>
    intro x hx
    simp only [buildEnds, List.mem_append, List.mem_cons, List.mem_singleton,
      List.not_mem_nil, or_false, or_self] at hx
    rcases hx with h | h
    · exact Nat.lt_succ_of_lt (ih x h)
    · omega

theorem buildEnds_count (N i : Nat) : (buildEnds N).count i = if i < N then 2 else 0 := by
  induction N with
  | zero => simp [buildEnds]
  | succ n ih =>
    simp only [buildEnds, List.count_append, ih, List.count_cons, List.count_nil]
    by_cases h1 : i < n
    · have : ¬ (n = i) := by omega
      have h2 : i < n + 1 := by omega
      simp [h1, this, h2]
    · by_cases h2 : n = i
      · subst h2; simp
      · have h3 : ¬ i < n + 1 := by omega
        simp [h1, h2, h3]

/-- Every pair consumes the two occurrences of its labels: twice the number
of self pairs of `i` plus the pairs of `i` with another label is the number
of occurrences of `i`. -/
theorem pairCount_degree (N i : Nat) (hi : i < N) : ∀ (l : List Nat), (∀ x ∈ l, x < N) →
    Even l.length →
    2 * pairCount l i i + ∑ j ∈ (Finset.range N).filter (fun j => j ≠ i), pairCount l i j
      = l.count i
  | [], _, _ => by simp [pairCount_nil]
  | [x], _, he => by simp at he
  | u :: v :: rest, hl, he => by
    have hu : u < N := hl u (by simp)
    have hv : v < N := hl v (by simp)
    have hrest : ∀ x ∈ rest, x < N := fun x hx => hl x (by simp [hx])
    have herest : Even rest.length := by
      simp only [List.length_cons] at he
      rcases he with ⟨r, hr⟩
      exact ⟨r - 1, by omega⟩
    have ih := pairCount_degree N i hi rest hrest herest
    simp only [pairCount_cons_cons, Finset.sum_add_distrib, List.count_cons, ← ih]
    have key : 2 * (if (u = i ∧ v = i) ∨ (u = i ∧ v = i) then 1 else 0) +
        ∑ j ∈ (Finset.range N).filter (fun j => j ≠ i),
          (if (u = i ∧ v = j) ∨ (u = j ∧ v = i) then 1 else 0)
        = (if v = i then 1 else 0) + (if u = i then 1 else 0) := by
      by_cases h1 : u = i
      · by_cases h2 : v = i
        · subst h1; subst h2
          have : ∀ j ∈ (Finset.range N).filter (fun j => j ≠ v),
              (if (v = v ∧ v = j) ∨ (v = j ∧ v = v) then 1 else 0) = 0 := by
            intro j hj
            have hj2 := (Finset.mem_filter.mp hj).2
            have : ¬ v = j := fun h => hj2 h.symm
            simp [this]
          rw [Finset.sum_eq_zero this]; simp
        · subst h1
          have : ∀ j ∈ (Finset.range N).filter (fun j => j ≠ u),
              (if (u = u ∧ v = j) ∨ (u = j ∧ v = u) then 1 else 0) = if v = j then 1 else 0 := by
            intro j hj
            simp [h2]
          rw [Finset.sum_congr rfl this, Finset.sum_ite_eq]
          simp [h2, hv]
      · by_cases h2 : v = i
        · subst h2
          have : ∀ j ∈ (Finset.range N).filter (fun j => j ≠ v),
              (if (u = v ∧ v = j) ∨ (u = j ∧ v = v) then 1 else 0) = if u = j then 1 else 0 := by
            intro j hj
            simp [h1]
          rw [Finset.sum_congr rfl this, Finset.sum_ite_eq]
          simp [h1, hu]
        · have : ∀ j ∈ (Finset.range N).filter (fun j => j ≠ i),
              (if (u = i ∧ v = j) ∨ (u = j ∧ v = i) then 1 else 0) = 0 := by
            intro j hj
            simp [h1, h2]
          rw [Finset.sum_eq_zero this]; simp [h1, h2]
    simp only [or_self, beq_iff_eq] at key ⊢
    omega

/-- What is needed of a rearrangement of the label sequence. -/
theorem perm_buildEnds_facts {N : Nat} {ends : List Nat} (hs : ends.Perm (buildEnds N)) :
    (∀ x ∈ ends, x < N) ∧ Even ends.length ∧ ∀ i, i < N → ends.count i = 2 := by
  refine ⟨fun x hx => buildEnds_lt N x (hs.mem_iff.mp hx), ?_, ?_⟩
  · rw [hs.length_eq, buildEnds_length]; exact even_two_mul N
  · intro i hi
    rw [hs.count_eq, buildEnds_count]; simp [hi]

theorem pairCount_self_le_one {N : Nat} {ends : List Nat} (hs : ends.Perm (buildEnds N))
    (i : Nat) (hi : i < N) : pairCount ends i i ≤ 1 := by
  obtain ⟨h1, h2, h3⟩ := perm_buildEnds_facts hs
  have := pairCount_degree N i hi ends h1 h2
  rw [h3 i hi] at this
  omega

/-- The matrix built by the pairing loop from a rearrangement of the label
sequence: it exists, it is `N × N`, and its entries are the pair counts. -/
theorem pairLoop_perm {N : Nat} {ends : List Nat} (hs : ends.Perm (buildEnds N)) :
    ∃ A, pairLoop ends (initialization N) = some A ∧ A.Square N ∧
      ∀ i j, i < N → j < N → A.entry i j = pairCount ends i j := by
  obtain ⟨h1, h2, _⟩ := perm_buildEnds_facts hs
  obtain ⟨A, hA, hsq, he⟩ := pairLoop_spec N ends (initialization N) (initialization_square N) h1 h2
  refine ⟨A, hA, hsq, ?_⟩
  intro i j hi hj
  rw [he i j hi hj]
  by_cases hij : i = j
  · subst hij
    have := pairCount_self_le_one hs i hi
    simp only [if_true, initialization_entry]
    split_ifs <;> omega
  · simp [hij, initialization_entry]

theorem pairCount_comm (ends : List Nat) (i j : Nat) : pairCount ends i j = pairCount ends j i := by
  unfold pairCount
  apply List.countP_congr
  intro k _
  simp only [decide_eq_true_eq]
  exact or_comm

theorem randomMatching_perm {shuffle : List Nat → List Nat} {N : Nat}
    (hs : (shuffle (buildEnds N)).Perm (buildEnds N)) :
    ∃ A, randomMatching shuffle N = some A ∧ A.Square N ∧
      ∀ i j, i < N → j < N → A.entry i j = pairCount (shuffle (buildEnds N)) i j :=
  pairLoop_perm hs

theorem specRandomMatching_eq {shuffle : List Nat → List Nat} {N : Nat}
    (hs : (shuffle (buildEnds N)).Perm (buildEnds N)) :
    specRandomMatching shuffle N = randomMatching shuffle N := by
  obtain ⟨h1, _, _⟩ := perm_buildEnds_facts hs
  unfold specRandomMatching randomMatching
  symm
  apply pairLoop_eq_specPairLoop N _ _ (initialization_square N) h1
  intro i hi
  exact ⟨pairCount_self_le_one hs i hi, fun _ => initialization_entry N i i⟩

theorem degree_of_pairCount {N : Nat} {ends : List Nat} (hs : ends.Perm (buildEnds N))
    {A : CSR} (he : ∀ i j, i < N → j < N → A.entry i j = pairCount ends i j)
    (i : Nat) (hi : i < N) : degree N A i = 2 := by
  obtain ⟨h1, h2, h3⟩ := perm_buildEnds_facts hs
  have hsum : ∑ j ∈ (Finset.range N).filter (fun j => j ≠ i), A.entry i j
      = ∑ j ∈ (Finset.range N).filter (fun j => j ≠ i), pairCount ends i j := by
    apply Finset.sum_congr rfl
    intro j hj
    exact he i j hi (Finset.mem_range.mp (Finset.mem_filter.mp hj).1)
  unfold degree
  rw [he i i hi hi, hsum, pairCount_degree N i hi ends h1 h2, h3 i hi]

/-! ## The traversal: marking and the queue -/

theorem count_false_set {v : List Bool} {j : Nat} (h : v[j]? = some false) :
    (v.set j true).count false + 1 = v.count false := by
  induction v generalizing j with
  | nil => simp at h
  | cons b bs ih =>
    cases j with
    | zero =>
      simp only [List.getElem?_cons_zero, Option.some.injEq] at h
      subst h
      simp
    | succ k =>
      simp only [List.getElem?_cons_succ] at h
      have := ih h
      simp only [List.set_cons_succ, List.count_cons]
      omega

theorem vis_set (v : List Bool) (j k : Nat) (hj : j < v.length) :
    vis (v.set j true) k ↔ vis v k ∨ k = j := by
  unfold vis
  rw [List.getElem?_set]
  by_cases h : j = k
  · subst h; simp [hj]
  · have : ¬ k = j := fun e => h e.symm
    simp [h, this]

theorem vis_lt {v : List Bool} {j : Nat} (h : vis v j) : j < v.length := by
  unfold vis at h
  by_contra hn
  rw [List.getElem?_eq_none (by omega)] at h
  simp at h

theorem visitRow_spec (N u : Nat) : ∀ (row : List (Nat × Nat)) (visited : List Bool)
    (queue : List Nat), visited.length = N → (∀ e ∈ row, e.1 < N) →
    ∃ added visited1, visitRow u row visited queue = some (visited1, queue ++ added) ∧
      visited1.length = N ∧
      (∀ j, vis visited1 j ↔ vis visited j ∨ j ∈ added) ∧
      (∀ j ∈ added, ¬ vis visited j ∧ j ≠ u ∧ j < N ∧ ∃ x, (j, x) ∈ row) ∧
      (∀ e ∈ row, e.1 ≠ u → vis visited1 e.1) ∧
      visited1.count false + added.length = visited.count false
  | [], visited, queue, hlen, _ => by
    refine ⟨[], visited, by simp [visitRow], hlen, by simp, by simp, by simp, by simp⟩
  | (j, x) :: es, visited, queue, hlen, hrow => by
    have hes : ∀ e ∈ es, e.1 < N := fun e he => hrow e (by simp [he])
    have hj : j < N := hrow (j, x) (by simp)
    by_cases hju : j = u
    · obtain ⟨added, v1, h1, h2, h3, h4, h5, h6⟩ := visitRow_spec N u es visited queue hlen hes
      refine ⟨added, v1, by simp [visitRow, hju, h1], h2, h3, ?_, ?_, h6⟩
      · intro k hk
        obtain ⟨a, b, c, y, hy⟩ := h4 k hk
        exact ⟨a, b, c, y, by simp [hy]⟩
      · intro e he hne
        simp only [List.mem_cons] at he
        rcases he with rfl | he
        · exact absurd hju hne
        · exact h5 e he hne
    · have hjl : j < visited.length := by omega
      cases hb : visited[j] with
      | true =>
        have hb2 : visited[j]? = some true := by rw [List.getElem?_eq_getElem hjl, hb]
        obtain ⟨added, v1, h1, h2, h3, h4, h5, h6⟩ := visitRow_spec N u es visited queue hlen hes
        refine ⟨added, v1, by simp [visitRow, hju, hb2, h1], h2, h3, ?_, ?_, h6⟩
        · intro k hk
          obtain ⟨a, b, c, y, hy⟩ := h4 k hk
          exact ⟨a, b, c, y, by simp [hy]⟩
        · intro e he hne
          simp only [List.mem_cons] at he
          rcases he with rfl | he
          · exact (h3 j).mpr (Or.inl hb2)
          · exact h5 e he hne
      | false =>
        have hb2 : visited[j]? = some false := by rw [List.getElem?_eq_getElem hjl, hb]
        obtain ⟨added, v1, h1, h2, h3, h4, h5, h6⟩ :=
          visitRow_spec N u es (visited.set j true) (queue ++ [j]) (by simp [hlen]) hes
        refine ⟨j :: added, v1, ?_, h2, ?_, ?_, ?_, ?_⟩
        · simp [visitRow, hju, hb2, h1]
        · intro k
          rw [h3 k, vis_set _ _ _ hjl, List.mem_cons]
          tauto
        · intro k hk
          simp only [List.mem_cons] at hk
          rcases hk with rfl | hk
          · refine ⟨?_, hju, hj, x, by simp⟩
            unfold vis; rw [hb2]; simp
          · obtain ⟨a, b, c, y, hy⟩ := h4 k hk
            refine ⟨fun hv => a ((vis_set _ _ _ hjl).mpr (Or.inl hv)), b, c, y, by simp [hy]⟩
        · intro e he hne
          simp only [List.mem_cons] at he
          rcases he with rfl | he
          · exact (h3 j).mpr (Or.inl ((vis_set _ _ _ hjl).mpr (Or.inr rfl)))
          · exact h5 e he hne
        · have := count_false_set hb2
          simp only [List.length_cons]
          omega

theorem bfsLoop_spec {m : CSR} {N : Nat} (hm : m.InRange N) (V0 : List Bool) (s : Nat) :
    ∀ (fuel head : Nat) (queue : List Nat) (visited : List Bool),
    BfsInv m N V0 s head queue visited →
    queue.length - head + visited.count false ≤ fuel →
    ∃ visited1 queue1, bfsLoop m fuel head queue visited = some visited1 ∧
      BfsInv m N V0 s queue1.length queue1 visited1 := by
  intro fuel
  induction fuel with
  | zero =>
    intro head queue visited inv hf
    have hh : head = queue.length := by have := inv.head_le; omega
    refine ⟨visited, queue, ?_, hh ▸ inv⟩
    unfold bfsLoop
    rw [List.getElem?_eq_none (by omega)]
  | succ fuel ih =>
    intro head queue visited inv hf
    by_cases hh : head < queue.length
    · have hu : queue[head]? = some queue[head] := List.getElem?_eq_getElem hh
      have humem : queue[head] ∈ queue := List.getElem_mem hh
      have huN : queue[head] < N := inv.lt _ humem
      have hrl : queue[head] < m.rows.length := by rw [hm.1.2]; exact huN
      have hrow : m.rows[queue[head]]? = some m.rows[queue[head]] := List.getElem?_eq_getElem hrl
      have hrowmem : m.rows[queue[head]] ∈ m.rows := List.getElem_mem hrl
      obtain ⟨added, v1, h1, h2, h3, h4, h5, h6⟩ :=
        visitRow_spec N queue[head] m.rows[queue[head]] visited queue inv.len (hm.2 _ hrowmem)
      have inv1 : BfsInv m N V0 s (head + 1) (queue ++ added) v1 := by
        refine ⟨h2, ?_, ?_, ?_, ?_, ?_, ?_⟩
        · intro x hx
          rcases List.mem_append.mp hx with hx | hx
          · exact inv.lt x hx
          · exact (h4 x hx).2.2.1
        · simp only [List.length_append]; omega
        · exact List.mem_append.mpr (Or.inl inv.start)
        · intro j
          rw [h3 j, inv.marks j, List.mem_append]
          tauto
        · intro x hx j hE
          have ht : (queue ++ added).take (head + 1) = queue.take head ++ [queue[head]] := by
            rw [List.take_append_of_le_length (by omega), List.take_succ, hu]
            rfl
          rw [ht] at hx
          rcases List.mem_append.mp hx with hx | hx
          · exact (h3 j).mpr (Or.inl (inv.done x hx j hE))
          · simp only [List.mem_singleton] at hx
            subst hx
            obtain ⟨hne, row, hr, y, hy⟩ := hE
            rw [hrow] at hr
            cases hr
            exact h5 (j, y) hy hne
        · intro x hx
          rcases List.mem_append.mp hx with hx | hx
          · exact inv.reach x hx
          · obtain ⟨hnv, hne, _, y, hy⟩ := h4 x hx
            refine Relation.ReflTransGen.tail (inv.reach _ humem) ⟨⟨hne, _, hrow, y, hy⟩, ?_⟩
            intro hv
            exact hnv ((inv.marks x).mpr (Or.inl hv))
      obtain ⟨v2, q2, hb, inv2⟩ := ih (head + 1) (queue ++ added) v1 inv1 (by
        simp only [List.length_append]; omega)
      refine ⟨v2, q2, ?_, inv2⟩
      rw [bfsLoop]
      simp only [hu, CSR.RowView, hrow, h1, hb]
    · have hh2 : head = queue.length := by have := inv.head_le; omega
      refine ⟨visited, queue, ?_, hh2 ▸ inv⟩
      unfold bfsLoop
      rw [List.getElem?_eq_none (by omega)]

/-- The result of one traversal, started at an unmarked node `s` below `N`:
the loop returns, and the marked nodes are the ones marked before together
with the nodes reached from `s` through unmarked nodes. -/
theorem bfsLoop_start {m : CSR} {N : Nat} (hm : m.InRange N) (V0 : List Bool) (s : Nat)
    (hlen : V0.length = N) (hs : V0[s]? = some false) :
    ∃ visited1, bfsLoop m N 0 [s] (V0.set s true) = some visited1 ∧ visited1.length = N ∧
      ∀ j, vis visited1 j ↔ vis V0 j ∨ ReachAvoid m V0 s j := by
  have hsN : s < N := by
    by_contra hn
    rw [List.getElem?_eq_none (by omega)] at hs
    simp at hs
  have hsl : s < V0.length := by omega
  have inv0 : BfsInv m N V0 s 0 [s] (V0.set s true) := by
    refine ⟨by simp [hlen], by simp [hsN], by simp, by simp, ?_, by simp, ?_⟩
    · intro j
      rw [vis_set _ _ _ hsl]; simp
    · intro x hx
      simp only [List.mem_singleton] at hx
      subst hx
      exact Relation.ReflTransGen.refl
  have hc := count_false_set hs
  have hcl : V0.count false ≤ N := hlen ▸ List.count_le_length _ _
  obtain ⟨v1, q1, hb, inv1⟩ := bfsLoop_spec hm V0 s N 0 [s] (V0.set s true) inv0 (by
    simp only [List.length_singleton]; omega)
  refine ⟨v1, hb, inv1.len, fun j => ?_⟩
  rw [inv1.marks j]
  constructor
  · rintro (h | h)
    · exact Or.inl h
    · exact Or.inr (inv1.reach j h)
  · rintro (h | h)
    · exact Or.inl h
    · right
      induction h with
      | refl => exact inv1.start
      | @tail b c _ hbc ih2 =>
        have := inv1.done b (by rw [List.take_length]; exact ih2) c hbc.1
        exact ((inv1.marks c).mp this).resolve_left hbc.2

/-! ## The outer loop of `countLoops` -/

theorem replicate_not_vis (N j : Nat) : ¬ vis (List.replicate N false) j := by
  unfold vis
  rw [List.getElem?_replicate]
  split_ifs <;> simp

/-- One iteration of the outer loop at a node `i < N`: a marked node is
skipped; an unmarked node raises the count by one and marks itself alone when
its diagonal entry is positive, and otherwise marks what the traversal
reaches from it. -/
theorem outerLoop_step {m : CSR} {N : Nat} (hm : m.InRange N) (visited : List Bool)
    (hlen : visited.length = N) (i : Nat) (hi : i < N) (is : List Nat) (count : Nat) :
    (vis visited i ∧
      outerLoop N m (i :: is) visited count = outerLoop N m is visited count) ∨
    (¬ vis visited i ∧ ∃ visited1, visited1.length = N ∧
      (∀ j, vis visited1 j ↔
        vis visited j ∨ if 0 < m.entry i i then j = i else ReachAvoid m visited i j) ∧
      outerLoop N m (i :: is) visited count = outerLoop N m is visited1 (count + 1)) := by
  have hil : i < visited.length := by omega
  have hAt := At_of_square hm.1 hi hi
  cases hb : visited[i] with
  | true =>
    have hb2 : visited[i]? = some true := by rw [List.getElem?_eq_getElem hil, hb]
    left
    exact ⟨hb2, by simp [outerLoop, hb2]⟩
  | false =>
    have hb2 : visited[i]? = some false := by rw [List.getElem?_eq_getElem hil, hb]
    right
    refine ⟨by unfold vis; rw [hb2]; simp, ?_⟩
    by_cases hd : 0 < m.entry i i
    · refine ⟨visited.set i true, by simp [hlen], ?_, ?_⟩
      · intro j
        rw [vis_set _ _ _ hil]; simp [hd]
      · simp [outerLoop, hb2, hAt, hd]
    · obtain ⟨v1, h1, h2, h3⟩ := bfsLoop_start hm visited i hlen hb2
      refine ⟨v1, h2, ?_, ?_⟩
      · intro j
        rw [h3 j]; simp [hd]
      · simp [outerLoop, hb2, hAt, hd, h1]

theorem outerLoop_bounds {m : CSR} {N : Nat} (hm : m.InRange N) :
    ∀ (is : List Nat), (∀ i ∈ is, i < N) → ∀ (visited : List Bool) (count : Nat),
    visited.length = N →
    ∃ v c, outerLoop N m is visited count = some (v, c) ∧ v.length = N ∧
      count ≤ c ∧ c ≤ count + is.length ∧ (∀ j, vis visited j → vis v j) ∧
      (∀ i ∈ is, vis v i)
  | [], _, visited, count, hlen => by
    exact ⟨visited, count, by simp [outerLoop], hlen, le_refl _, by simp, fun _ h => h, by simp⟩
  | i :: is, his, visited, count, hlen => by
    have hi : i < N := his i (by simp)
    have his2 : ∀ k ∈ is, k < N := fun k hk => his k (by simp [hk])
    rcases outerLoop_step hm visited hlen i hi is count with ⟨hv, heq⟩ | ⟨_, v1, hl1, hm1, heq⟩
    · obtain ⟨v, c, h1, h2, h3, h4, h5, h6⟩ := outerLoop_bounds hm is his2 visited count hlen
      refine ⟨v, c, by rw [heq, h1], h2, h3, by simp only [List.length_cons]; omega, h5, ?_⟩
      intro k hk
      simp only [List.mem_cons] at hk
      rcases hk with rfl | hk
      · exact h5 _ hv
      · exact h6 k hk
    · obtain ⟨v, c, h1, h2, h3, h4, h5, h6⟩ := outerLoop_bounds hm is his2 v1 (count + 1) hl1
      have hvi : vis v1 i := by
        rw [hm1 i]
        right
        split_ifs
        · rfl
        · exact Relation.ReflTransGen.refl
      refine ⟨v, c, by rw [heq, h1], h2, by omega, by simp only [List.length_cons]; omega, ?_, ?_⟩
      · intro j hj
        exact h5 j ((hm1 j).mpr (Or.inl hj))
      · intro k hk
        simp only [List.mem_cons] at hk
        rcases hk with rfl | hk
        · exact h5 _ hvi
        · exact h6 k hk

theorem countLoops_returns_bounded {m : CSR} {N : Nat} (hN : 1 ≤ N) (hm : m.InRange N) :
    ∃ c, countLoops N m = some c ∧ 1 ≤ c ∧ c ≤ N := by
  obtain ⟨n, rfl⟩ : ∃ n, N = n + 1 := ⟨N - 1, by omega⟩
  unfold countLoops
  have hr : List.range (n + 1) = 0 :: List.map Nat.succ (List.range n) :=
    List.range_succ_eq_map n
  have his : ∀ k ∈ List.map Nat.succ (List.range n), k < n + 1 := by
    intro k hk
    simp only [List.mem_map, List.mem_range] at hk
    obtain ⟨a, ha, rfl⟩ := hk
    omega
  rw [hr]
  rcases outerLoop_step hm (List.replicate (n + 1) false) (by simp) 0 (by omega)
    (List.map Nat.succ (List.range n)) 0 with ⟨hv, _⟩ | ⟨_, v1, hl1, _, heq⟩
  · exact absurd hv (replicate_not_vis _ _)
  · obtain ⟨v, c, h1, _, h3, h4, _, _⟩ := outerLoop_bounds hm _ his v1 (0 + 1) hl1
    refine ⟨c, by rw [heq, h1]; rfl, by omega, ?_⟩
    simp only [List.length_map, List.length_range] at h4
    omega

/-! ## The matrix of `randomMatching` is canonical -/

theorem mem_rowSet {row : List (Nat × Nat)} {n v : Nat} {e : Nat × Nat}
    (h : e ∈ rowSet row n v) : e = (n, v) ∨ e ∈ row := by
  induction row with
  | nil => simp only [rowSet, List.mem_singleton] at h; exact Or.inl h
  | cons a es ih =>
    obtain ⟨c, x⟩ := a
    by_cases hc : c = n
    · simp only [rowSet, hc, if_true, List.mem_cons] at h
      rcases h with h | h
      · exact Or.inl h
      · exact Or.inr (by simp [h])
    · simp only [rowSet, hc, if_false, List.mem_cons] at h
      rcases h with h | h
      · exact Or.inr (by simp [h])
      · rcases ih h with h | h
        · exact Or.inl h
        · exact Or.inr (by simp [h])

theorem Set_canonical {N : Nat} {m : CSR} (hm : m.Canonical N) {i j v : Nat} (hj : j < N)
    (hv : 0 < v) {m1 : CSR} (h : m.Set i j v = some m1) : m1.Canonical N := by
  unfold CSR.Set at h
  cases hr : m.rows[i]? with
  | none => simp [hr] at h
  | some row =>
    have hjc : j < m.cols := by rw [hm.1.1.1]; exact hj
    have hv0 : ¬ v = 0 := by omega
    simp only [hr, hjc, if_true, hv0, if_false, Option.some.injEq] at h
    subst h
    have hrow : row ∈ m.rows := List.getElem?_mem hr
    have key : ∀ r ∈ m.rows.set i (rowSet row j v), ∀ e ∈ r, e.1 < N ∧ 0 < e.2 := by
      intro r hr2 e he
      rcases List.mem_or_eq_of_mem_set hr2 with h1 | h1
      · exact ⟨hm.1.2 r h1 e he, hm.2 r h1 e he⟩
      · subst h1
        rcases mem_rowSet he with h2 | h2
        · subst h2; exact ⟨hj, hv⟩
        · exact ⟨hm.1.2 row hrow e h2, hm.2 row hrow e h2⟩
    refine ⟨⟨⟨hm.1.1.1, ?_⟩, fun r hr2 e he => (key r hr2 e he).1⟩,
      fun r hr2 e he => (key r hr2 e he).2⟩
    simp [hm.1.1.2]

theorem initialization_canonical (N : Nat) : (initialization N).Canonical N := by
  refine ⟨⟨initialization_square N, ?_⟩, ?_⟩ <;>
  · intro row hrow e he
    simp only [initialization, List.mem_replicate] at hrow
    rw [hrow.2] at he
    simp at he

theorem pairLoop_canonical (N : Nat) : ∀ (l : List Nat) (m : CSR), m.Canonical N →
    (∀ x ∈ l, x < N) → ∀ m1, pairLoop l m = some m1 → m1.Canonical N
  | [], m, hm, _, m1, h => by
    simp only [pairLoop, Option.some.injEq] at h
    exact h ▸ hm
  | [x], m, _, _, m1, h => by simp [pairLoop] at h
  | u :: v :: rest, m, hm, hl, m1, h => by
    have hu : u < N := hl u (by simp)
    have hv : v < N := hl v (by simp)
    have hrest : ∀ x ∈ rest, x < N := fun x hx => hl x (by simp [hx])
    by_cases huv : u = v
    · subst huv
      simp only [pairLoop, if_true] at h
      cases h1 : m.Set u u 1 with
      | none => simp [h1] at h
      | some m2 =>
        simp only [h1, Option.some_bind] at h
        exact pairLoop_canonical N rest m2 (Set_canonical hm hu Nat.one_pos h1) hrest m1 h
    · simp only [pairLoop, huv, if_false] at h
      cases ha : m.At u v with
      | none => simp [ha] at h
      | some a =>
        simp only [ha, Option.some_bind] at h
        cases h1 : m.Set u v (a + 1) with
        | none => simp [h1] at h
        | some m2 =>
          simp only [h1, Option.some_bind] at h
          cases hb : m2.At v u with
          | none => simp [hb] at h
          | some b =>
            simp only [hb, Option.some_bind] at h
            cases h2 : m2.Set v u (b + 1) with
            | none => simp [h2] at h
            | some m3 =>
              simp only [h2, Option.some_bind] at h
              exact pairLoop_canonical N rest m3
                (Set_canonical (Set_canonical hm hv (Nat.succ_pos a) h1) hu (Nat.succ_pos b) h2)
                hrest m1 h

theorem randomMatching_canonical {shuffle : List Nat → List Nat} {N : Nat}
    (hs : (shuffle (buildEnds N)).Perm (buildEnds N)) {A : CSR}
    (hA : randomMatching shuffle N = some A) : A.Canonical N :=
  pairLoop_canonical N _ _ (initialization_canonical N) (perm_buildEnds_facts hs).1 A hA

/-! ## Stored entries and positive entries -/

theorem rowAt_pos_iff {row : List (Nat × Nat)} (hp : ∀ e ∈ row, 0 < e.2) (j : Nat) :
    0 < rowAt row j ↔ ∃ x, (j, x) ∈ row := by
  induction row with
  | nil => simp [rowAt]
  | cons e es ih =>
    obtain ⟨c, x⟩ := e
    have ih2 := ih (fun e he => hp e (by simp [he]))
    have hx : 0 < x := hp (c, x) (by simp)
    by_cases hc : c = j
    · subst hc
      simp only [rowAt, if_true, hx, true_iff]
      exact ⟨x, by simp⟩
    · have hjc : ¬ j = c := fun h => hc h.symm
      simp only [rowAt, hc, if_false, ih2, List.mem_cons, Prod.mk.injEq, hjc, false_and, false_or]

theorem entry_eq_rowAt {N : Nat} {m : CSR} (hm : m.Square N) {u j : Nat} (hu : u < N)
    (hj : j < N) : ∃ row, m.rows[u]? = some row ∧ m.entry u j = rowAt row j := by
  have hu2 : u < m.rows.length := by rw [hm.2]; exact hu
  refine ⟨m.rows[u], List.getElem?_eq_getElem hu2, ?_⟩
  unfold CSR.entry CSR.At
  simp [List.getElem?_eq_getElem hu2, hm.1, hj]

theorem edge_iff {N : Nat} {m : CSR} (hm : m.Canonical N) {u : Nat} (hu : u < N) (j : Nat) :
    Edge m u j ↔ j ≠ u ∧ j < N ∧ 0 < m.entry u j := by
  constructor
  · rintro ⟨hne, row, hr, x, hx⟩
    have hrow : row ∈ m.rows := List.getElem?_mem hr
    have hj : j < N := hm.1.2 row hrow (j, x) hx
    obtain ⟨row2, hr2, he⟩ := entry_eq_rowAt hm.1.1 hu hj
    rw [hr] at hr2
    cases hr2
    rw [he, rowAt_pos_iff (hm.2 row hrow)]
    exact ⟨hne, hj, x, hx⟩
  · rintro ⟨hne, hj, hpos⟩
    obtain ⟨row, hr, he⟩ := entry_eq_rowAt hm.1.1 hu hj
    have hrow : row ∈ m.rows := List.getElem?_mem hr
    rw [he, rowAt_pos_iff (hm.2 row hrow)] at hpos
    exact ⟨hne, row, hr, hpos⟩

theorem edge_lt {m : CSR} {u j : Nat} (h : Edge m u j) : u < m.rows.length := by
  obtain ⟨_, row, hr, _⟩ := h
  by_contra hn
  rw [List.getElem?_eq_none (by omega)] at hr
  cases hr

theorem adj_iff_edge {N : Nat} {A : CSR} (hA : A.IsMatching N) (a b : Fin N) :
    (loopGraph N A).Adj a b ↔ Edge A a b := by
  rw [edge_iff hA.1 a.isLt, loopGraph, SimpleGraph.fromRel_adj]
  have hs := hA.2.1 a a.isLt b b.isLt
  constructor
  · rintro ⟨hne, h | h⟩
    · exact ⟨fun e => hne (Fin.ext e.symm), b.isLt, h⟩
    · exact ⟨fun e => hne (Fin.ext e.symm), b.isLt, by rw [hs]; exact h⟩
  · rintro ⟨hne, _, h⟩
    exact ⟨fun e => hne (by rw [e]), Or.inl h⟩

/-- Under the degree invariant a self-paired node has no other edge. -/
theorem selfPaired_isolated {N : Nat} {A : CSR} (hA : A.IsMatching N) {i : Nat} (hi : i < N)
    (hd : 0 < A.entry i i) (j : Nat) : ¬ Edge A i j ∧ ¬ Edge A j i := by
  have hdeg := hA.2.2 i hi
  unfold degree at hdeg
  have hsum : ∑ j ∈ (Finset.range N).filter (fun j => j ≠ i), A.entry i j = 0 := by omega
  rw [Finset.sum_eq_zero_iff] at hsum
  have hz : ∀ k, k < N → k ≠ i → A.entry i k = 0 := fun k hk hne =>
    hsum k (Finset.mem_filter.mpr ⟨Finset.mem_range.mpr hk, hne⟩)
  constructor
  · intro hE
    obtain ⟨hne, hj, hpos⟩ := (edge_iff hA.1 hi j).mp hE
    have := hz j hj hne
    omega
  · intro hE
    have hj : j < N := by have := edge_lt hE; rw [hA.1.1.1.2] at this; exact this
    obtain ⟨hne, _, hpos⟩ := (edge_iff hA.1 hj i).mp hE
    have := hz j hj (fun e => hne e.symm)
    rw [hA.2.1 j hj i hi] at hpos
    omega

/-! ## Counting connected components -/

theorem closed_reachable {N : Nat} {G : SimpleGraph (Fin N)} {v : List Bool} (hc : Closed G v)
    {a b : Fin N} (h : G.Reachable a b) (ha : vis v a) : vis v b := by
  rw [SimpleGraph.reachable_iff_reflTransGen] at h
  induction h with
  | refl => exact ha
  | tail _ hbc ih => exact hc _ _ hbc ih

/-- Marking the whole component of an unmarked node `i` keeps the marks
closed and adds exactly one marked component. -/
theorem markedComponents_step {N : Nat} {G : SimpleGraph (Fin N)} {v v1 : List Bool}
    (hc : Closed G v) (i : Fin N) (hi : ¬ vis v i)
    (h1 : ∀ a : Fin N, vis v1 a ↔ vis v a ∨ G.Reachable i a) :
    Closed G v1 ∧ (markedComponents G v1).ncard = (markedComponents G v).ncard + 1 := by
  constructor
  · intro a b hab ha
    rw [h1] at ha ⊢
    rcases ha with ha | ha
    · exact Or.inl (hc a b hab ha)
    · exact Or.inr (ha.trans hab.reachable)
  · have hins : markedComponents G v1 =
        insert (G.connectedComponentMk i) (markedComponents G v) := by
      ext c
      simp only [markedComponents, Set.mem_image, Set.mem_setOf_eq, Set.mem_insert_iff]
      constructor
      · rintro ⟨a, ha, rfl⟩
        rcases (h1 a).mp ha with h | h
        · exact Or.inr ⟨a, h, rfl⟩
        · exact Or.inl (SimpleGraph.ConnectedComponent.eq.mpr h.symm)
      · rintro (h | ⟨a, ha, rfl⟩)
        · exact ⟨i, (h1 i).mpr (Or.inr (SimpleGraph.Reachable.refl i)), h.symm⟩
        · exact ⟨a, (h1 a).mpr (Or.inl ha), rfl⟩
    have hnot : G.connectedComponentMk i ∉ markedComponents G v := by
      rintro ⟨a, ha, he⟩
      exact hi (closed_reachable hc (SimpleGraph.ConnectedComponent.eq.mp he) ha)
    rw [hins, Set.ncard_insert_of_not_mem hnot (Set.toFinite _)]

theorem reachAvoid_reachable {N : Nat} {A : CSR} (hA : A.IsMatching N) (v : List Bool)
    (i : Fin N) {j : Nat} (h : ReachAvoid A v i j) :
    ∃ hj : j < N, (loopGraph N A).Reachable i ⟨j, hj⟩ := by
  induction h with
  | refl => exact ⟨i.isLt, SimpleGraph.Reachable.refl _⟩
  | @tail b c _ hbc ih =>
    obtain ⟨hb, hr⟩ := ih
    have hcN : c < N := ((edge_iff hA.1 hb c).mp hbc.1).2.1
    refine ⟨hcN, hr.trans (SimpleGraph.Adj.reachable ?_)⟩
    exact (adj_iff_edge hA ⟨b, hb⟩ ⟨c, hcN⟩).mpr hbc.1

theorem reachable_reachAvoid {N : Nat} {A : CSR} (hA : A.IsMatching N) {v : List Bool}
    (hc : Closed (loopGraph N A) v) (i : Fin N) (hi : ¬ vis v i) {a : Fin N}
    (h : (loopGraph N A).Reachable i a) : ReachAvoid A v i a := by
  have h0 := h
  rw [SimpleGraph.reachable_iff_reflTransGen] at h
  induction h with
  | refl => exact Relation.ReflTransGen.refl
  | @tail b c hib hbc ih =>
    have hrb : (loopGraph N A).Reachable i b :=
      (SimpleGraph.reachable_iff_reflTransGen _ _).mpr hib
    refine Relation.ReflTransGen.tail (ih hrb) ⟨(adj_iff_edge hA b c).mp hbc, ?_⟩
    intro hvc
    exact hi (closed_reachable hc (hrb.trans hbc.reachable).symm hvc)

theorem isolated_reachable {N : Nat} {A : CSR} (hA : A.IsMatching N) (i : Fin N)
    (hd : 0 < A.entry i i) (a : Fin N) : (loopGraph N A).Reachable i a ↔ a = i := by
  constructor
  · intro h
    rw [SimpleGraph.reachable_iff_reflTransGen] at h
    rcases Relation.ReflTransGen.cases_head h with h | ⟨c, hic, _⟩
    · exact h.symm
    · exact absurd ((adj_iff_edge hA i c).mp hic) (selfPaired_isolated hA i.isLt hd c).1
  · rintro rfl
    exact SimpleGraph.Reachable.refl _

/-- The outer loop on a Matching: it returns, every node of the list is
marked afterwards, the marks stay closed, and the count grows by the number
of newly marked components. -/
theorem outerLoop_components {N : Nat} {A : CSR} (hA : A.IsMatching N) :
    ∀ (is : List Nat), (∀ i ∈ is, i < N) → ∀ (visited : List Bool) (count : Nat),
    visited.length = N → Closed (loopGraph N A) visited →
    count = (markedComponents (loopGraph N A) visited).ncard →
    ∃ v c, outerLoop N A is visited count = some (v, c) ∧ v.length = N ∧
      Closed (loopGraph N A) v ∧ c = (markedComponents (loopGraph N A) v).ncard ∧
      (∀ j, vis visited j → vis v j) ∧ (∀ i ∈ is, vis v i)
  | [], _, visited, count, hlen, hc, hn => by
    exact ⟨visited, count, by simp [outerLoop], hlen, hc, hn, fun _ h => h, by simp⟩
  | i :: is, his, visited, count, hlen, hc, hn => by
    have hi : i < N := his i (by simp)
    have his2 : ∀ k ∈ is, k < N := fun k hk => his k (by simp [hk])
    rcases outerLoop_step hA.1.1 visited hlen i hi is count with
      ⟨hv, heq⟩ | ⟨hnv, v1, hl1, hm1, heq⟩
    · obtain ⟨v, c, h1, h2, h3, h4, h5, h6⟩ :=
        outerLoop_components hA is his2 visited count hlen hc hn
      refine ⟨v, c, by rw [heq, h1], h2, h3, h4, h5, ?_⟩
      intro k hk
      simp only [List.mem_cons] at hk
      rcases hk with rfl | hk
      · exact h5 _ hv
      · exact h6 k hk
    · have hchar : ∀ a : Fin N, vis v1 a ↔
          vis visited a ∨ (loopGraph N A).Reachable ⟨i, hi⟩ a := by
        intro a
        rw [hm1 a]
        by_cases hd : 0 < A.entry i i
        · simp only [hd, if_true]
          rw [isolated_reachable hA ⟨i, hi⟩ hd a, Fin.ext_iff]
        · simp only [hd, if_false]
          constructor
          · rintro (h | h)
            · exact Or.inl h
            · obtain ⟨_, hr⟩ := reachAvoid_reachable hA visited ⟨i, hi⟩ h
              exact Or.inr hr
          · rintro (h | h)
            · exact Or.inl h
            · exact Or.inr (reachable_reachAvoid hA hc ⟨i, hi⟩ hnv h)
      obtain ⟨hc1, hn1⟩ := markedComponents_step hc ⟨i, hi⟩ hnv hchar
      obtain ⟨v, c, h1, h2, h3, h4, h5, h6⟩ :=
        outerLoop_components hA is his2 v1 (count + 1) hl1 hc1 (by rw [hn1, hn])
      have hvi : vis v1 i := (hchar ⟨i, hi⟩).mpr (Or.inr (SimpleGraph.Reachable.refl _))
      refine ⟨v, c, by rw [heq, h1], h2, h3, h4, ?_, ?_⟩
      · intro j hj
        exact h5 j ((hm1 j).mpr (Or.inl hj))
      · intro k hk
        simp only [List.mem_cons] at hk
        rcases hk with rfl | hk
        · exact h5 _ hvi
        · exact h6 k hk

/-- On a Matching `countLoops` returns the number of connected components. -/
theorem countLoops_components {N : Nat} {A : CSR} (hA : A.IsMatching N) :
    countLoops N A = some (Nat.card (loopGraph N A).ConnectedComponent) := by
  have h0 : markedComponents (loopGraph N A) (List.replicate N false) = ∅ := by
    ext c
    simp only [markedComponents, Set.mem_image, Set.mem_setOf_eq, Set.mem_empty_iff_false,
      iff_false]
    rintro ⟨a, ha, _⟩
    exact replicate_not_vis _ _ ha
  obtain ⟨v, c, h1, _, _, h4, _, h6⟩ := outerLoop_components hA (List.range N)
    (fun i hi => List.mem_range.mp hi) (List.replicate N false) 0 (by simp)
    (fun a b _ ha => absurd ha (replicate_not_vis _ _)) (by rw [h0]; simp)
  have huniv : markedComponents (loopGraph N A) v = Set.univ := by
    ext c
    simp only [markedComponents, Set.mem_image, Set.mem_setOf_eq, Set.mem_univ, iff_true]
    induction c using SimpleGraph.ConnectedComponent.ind with
    | _ a => exact ⟨a, h6 a (List.mem_range.mpr a.isLt), rfl⟩
  rw [huniv, Set.ncard_univ] at h4
  simp [countLoops, h1, h4]

/-! ## The two extreme matchings -/

theorem randomMatching_isMatching {shuffle : List Nat → List Nat} {N : Nat}
    (hs : (shuffle (buildEnds N)).Perm (buildEnds N)) {A : CSR}
    (hA : randomMatching shuffle N = some A) : A.IsMatching N := by
  obtain ⟨B, hB, _, he⟩ := randomMatching_perm hs
  rw [hA] at hB
  cases hB
  refine ⟨randomMatching_canonical hs hA, ?_, fun i hi => degree_of_pairCount hs he i hi⟩
  intro i hi j hj
  rw [he i j hi hj, he j i hj hi, pairCount_comm]

theorem pairCount_append (i j : Nat) (l2 : List Nat) : ∀ (l : List Nat), Even l.length →
    pairCount (l ++ l2) i j = pairCount l i j + pairCount l2 i j
  | [], _ => by simp [pairCount_nil]
  | [x], he => by simp at he
  | u :: v :: rest, he => by
    have herest : Even rest.length := by
      simp only [List.length_cons] at he
      rcases he with ⟨r, hr⟩
      exact ⟨r - 1, by omega⟩
    simp only [List.cons_append, pairCount_cons_cons, pairCount_append i j l2 rest herest]
    omega

theorem pairCount_buildEnds_self (N i : Nat) (hi : i < N) : pairCount (buildEnds N) i i = 1 := by
  induction N with
  | zero => omega
  | succ n ih =>
    have he : Even (buildEnds n).length := by rw [buildEnds_length]; exact even_two_mul n
    rw [buildEnds, pairCount_append i i _ _ he, pairCount_cons_cons, pairCount_nil]
    by_cases h : i < n
    · have : ¬ n = i := by omega
      simp [ih h, this]
    · have h2 : n = i := by omega
      subst h2
      have h3 := pairCount_degree (n + 1) n (by omega) (buildEnds n)
        (fun x hx => Nat.lt_succ_of_lt (buildEnds_lt n x hx)) he
      rw [buildEnds_count] at h3
      simp only [lt_irrefl, if_false] at h3
      have : pairCount (buildEnds n) n n = 0 := by omega
      simp [this]

/-- When every node is self-paired, every iteration of the outer loop counts
its node. -/
theorem outerLoop_selfPaired {m : CSR} {N : Nat} (hm : m.InRange N)
    (hd : ∀ i, i < N → 0 < m.entry i i) :
    ∀ (is : List Nat), (∀ i ∈ is, i < N) → is.Nodup → ∀ (visited : List Bool) (count : Nat),
    visited.length = N → (∀ i ∈ is, ¬ vis visited i) →
    ∃ v, outerLoop N m is visited count = some (v, count + is.length)
  | [], _, _, visited, count, _, _ => ⟨visited, by simp [outerLoop]⟩
  | i :: is, his, hnd, visited, count, hlen, hnv => by
    have hi : i < N := his i (by simp)
    have his2 : ∀ k ∈ is, k < N := fun k hk => his k (by simp [hk])
    rcases outerLoop_step hm visited hlen i hi is count with ⟨hv, _⟩ | ⟨_, v1, hl1, hm1, heq⟩
    · exact absurd hv (hnv i (by simp))
    · have hnv1 : ∀ k ∈ is, ¬ vis v1 k := by
        intro k hk hvk
        rw [hm1 k] at hvk
        simp only [hd i hi, if_true] at hvk
        rcases hvk with h | h
        · exact hnv k (by simp [hk]) h
        · subst h
          exact (List.nodup_cons.mp hnd).1 hk
      obtain ⟨v, hv⟩ := outerLoop_selfPaired hm hd is his2 (List.nodup_cons.mp hnd).2 v1
        (count + 1) hl1 hnv1
      refine ⟨v, ?_⟩
      rw [heq, hv]
      simp only [List.length_cons]
      congr 2
      omega

theorem countLoops_unshuffled (N : Nat) :
    ∃ A, randomMatching id N = some A ∧ countLoops N A = some N := by
  have hs : (id (buildEnds N)).Perm (buildEnds N) := List.Perm.refl _
  obtain ⟨A, hA, _, he⟩ := randomMatching_perm hs
  refine ⟨A, hA, ?_⟩
  have hd : ∀ i, i < N → 0 < A.entry i i := by
    intro i hi
    rw [he i i hi hi]
    simp only [id]
    rw [pairCount_buildEnds_self N i hi]
    exact Nat.one_pos
  obtain ⟨v, hv⟩ := outerLoop_selfPaired (randomMatching_canonical hs hA).1 hd (List.range N)
    (fun i hi => List.mem_range.mp hi) (List.nodup_range N) (List.replicate N false) 0
    (by simp) (fun i _ => replicate_not_vis N i)
  simp [countLoops, hv]

theorem buildEnds_getElem? (N p : Nat) (hp : p < 2 * N) : (buildEnds N)[p]? = some (p / 2) := by
  induction N with
  | zero => omega
  | succ n ih =>
    have hl := buildEnds_length n
    by_cases h : p < 2 * n
    · rw [buildEnds, List.getElem?_append_left (by omega), ih h]
    · rw [buildEnds, List.getElem?_append_right (by omega), hl]
      have h2 : p - 2 * n = 0 ∨ p - 2 * n = 1 := by omega
      rcases h2 with h2 | h2
      · rw [h2]
        have : p / 2 = n := by omega
        simp [this]
      · rw [h2]
        have : p / 2 = n := by omega
        simp [this]

/-- In the sequence `[0,1,1,2,2,...,N-1,N-1,0]` the pair number `k` joins
the labels `k` and `k+1`. -/
theorem pairCount_rotate (N k : Nat) (hk : k + 1 < N) :
    0 < pairCount ((buildEnds N).rotate 1) k (k + 1) := by
  have hl := buildEnds_length N
  unfold pairCount
  rw [List.countP_pos_iff]
  refine ⟨k, ?_, ?_⟩
  · rw [List.mem_range, List.length_rotate, hl]; omega
  · have h1 : ((buildEnds N).rotate 1)[2 * k]? = some k := by
      rw [List.getElem?_rotate (by omega), hl, Nat.mod_eq_of_lt (by omega),
        buildEnds_getElem? N _ (by omega)]
      congr 1; omega
    have h2 : ((buildEnds N).rotate 1)[2 * k + 1]? = some (k + 1) := by
      rw [List.getElem?_rotate (by omega), hl, Nat.mod_eq_of_lt (by omega),
        buildEnds_getElem? N _ (by omega)]
      congr 1; omega
    simp [h1, h2]

theorem countLoops_chain (N : Nat) (hN : 1 ≤ N) :
    (rotateOne (buildEnds N)).Perm (buildEnds N) ∧
    ∃ A, randomMatching rotateOne N = some A ∧ countLoops N A = some 1 := by
  have hs : (rotateOne (buildEnds N)).Perm (buildEnds N) := List.rotate_perm _ _
  refine ⟨hs, ?_⟩
  obtain ⟨A, hA, _, he⟩ := randomMatching_perm hs
  refine ⟨A, hA, ?_⟩
  rw [countLoops_components (randomMatching_isMatching hs hA)]
  congr 1
  have hreach : ∀ k (hk : k < N), (loopGraph N A).Reachable ⟨0, by omega⟩ ⟨k, hk⟩ := by
    intro k
    induction k with
    | zero => intro _; exact SimpleGraph.Reachable.refl _
    | succ n ih =>
      intro hk
      refine (ih (by omega)).trans (SimpleGraph.Adj.reachable ?_)
      rw [loopGraph, SimpleGraph.fromRel_adj]
      refine ⟨fun h => by simp [Fin.ext_iff] at h, Or.inl ?_⟩
      show 0 < A.entry n (n + 1)
      rw [he n (n + 1) (by omega) hk]
      exact pairCount_rotate N n hk
  rw [Nat.card_eq_one_iff_unique]
  refine ⟨⟨fun c d => ?_⟩, ⟨(loopGraph N A).connectedComponentMk ⟨0, by omega⟩⟩⟩
  induction c using SimpleGraph.ConnectedComponent.ind with
  | _ a =>
    induction d using SimpleGraph.ConnectedComponent.ind with
    | _ b =>
      exact SimpleGraph.ConnectedComponent.eq.mpr
        ((hreach a.val a.isLt).symm.trans (hreach b.val b.isLt))

/-! ## Removing an isolated self-paired node `0` -/

section Restrict

variable {n : Nat} {A B : CSR}

theorem edge_shift (hA : A.Canonical (n + 1)) (hB : B.Canonical n)
    (hr : ∀ a b, a < n → b < n → B.entry a b = A.entry (a + 1) (b + 1))
    {a : Nat} (ha : a < n) (b : Nat) : Edge B a b ↔ Edge A (a + 1) (b + 1) := by
  rw [edge_iff hB ha, edge_iff hA (by omega : a + 1 < n + 1)]
  constructor
  · rintro ⟨h1, h2, h3⟩
    exact ⟨by omega, by omega, by rw [← hr a b ha h2]; exact h3⟩
  · rintro ⟨h1, h2, h3⟩
    exact ⟨by omega, by omega, by rw [hr a b ha (by omega)]; exact h3⟩

theorem reachAvoid_lt {N : Nat} {m : CSR} (hm : m.Canonical N) {V : List Bool} {s j : Nat}
    (hs : s < N) (h : ReachAvoid m V s j) : j < N := by
  induction h with
  | refl => exact hs
  | @tail b c _ hbc ih => exact ((edge_iff hm ih c).mp hbc.1).2.1

theorem reachAvoid_shift (hA : A.Canonical (n + 1)) (hB : B.Canonical n)
    (hr : ∀ a b, a < n → b < n → B.entry a b = A.entry (a + 1) (b + 1))
    {V W : List Bool} (hVW : ShiftedMarks V W) {i : Nat} (hi : i < n) (j : Nat) :
    ReachAvoid A V (i + 1) (j + 1) ↔ ReachAvoid B W i j := by
  constructor
  · intro h
    have key : ∀ x, ReachAvoid A V (i + 1) x → ∃ y, x = y + 1 ∧ ReachAvoid B W i y := by
      intro x hx
      induction hx with
      | refl => exact ⟨i, rfl, Relation.ReflTransGen.refl⟩
      | @tail b c _ hbc ih =>
        obtain ⟨y, rfl, hy⟩ := ih
        have hyn : y < n := reachAvoid_lt hB hi hy
        cases c with
        | zero => exact absurd hVW.1 hbc.2
        | succ c =>
          refine ⟨c, rfl, Relation.ReflTransGen.tail hy ⟨?_, ?_⟩⟩
          · exact (edge_shift hA hB hr hyn c).mpr hbc.1
          · intro hv
            exact hbc.2 ((hVW.2 c).mpr hv)
    obtain ⟨y, hy, hry⟩ := key _ h
    have : j = y := by omega
    exact this ▸ hry
  · intro h
    induction h with
    | refl => exact Relation.ReflTransGen.refl
    | @tail b c hib hbc ih =>
      have hbn : b < n := reachAvoid_lt hB hi hib
      refine Relation.ReflTransGen.tail ih ⟨(edge_shift hA hB hr hbn c).mp hbc.1, ?_⟩
      intro hv
      exact hbc.2 ((hVW.2 c).mp hv)

theorem outerLoop_shift (hA : A.Canonical (n + 1)) (hB : B.Canonical n)
    (hr : ∀ a b, a < n → b < n → B.entry a b = A.entry (a + 1) (b + 1)) :
    ∀ (is : List Nat), (∀ i ∈ is, i < n) → ∀ (V W : List Bool) (c d : Nat),
    V.length = n + 1 → W.length = n → ShiftedMarks V W →
    ∃ V1 W1 k, outerLoop (n + 1) A (is.map Nat.succ) V c = some (V1, c + k) ∧
      outerLoop n B is W d = some (W1, d + k)
  | [], _, V, W, c, d, _, _, _ => ⟨V, W, 0, by simp [outerLoop], by simp [outerLoop]⟩
  | i :: is, his, V, W, c, d, hV, hW, hVW => by
    have hi : i < n := his i (by simp)
    have his2 : ∀ k ∈ is, k < n := fun k hk => his k (by simp [hk])
    rw [List.map_cons]
    rcases outerLoop_step hA.1 V hV (i + 1) (by omega) (is.map Nat.succ) c with
      ⟨hv, heq⟩ | ⟨hnv, V1, hl1, hm1, heq⟩
    · rcases outerLoop_step hB.1 W hW i hi is d with ⟨_, heq2⟩ | ⟨hnw, _⟩
      · obtain ⟨V2, W2, k, h1, h2⟩ := outerLoop_shift hA hB hr is his2 V W c d hV hW hVW
        exact ⟨V2, W2, k, by rw [Nat.succ_eq_add_one, heq, h1], by rw [heq2, h2]⟩
      · exact absurd ((hVW.2 i).mp hv) hnw
    · rcases outerLoop_step hB.1 W hW i hi is d with ⟨hw, _⟩ | ⟨_, W1, hl2, hm2, heq2⟩
      · exact absurd ((hVW.2 i).mpr hw) hnv
      · have hrel : ShiftedMarks V1 W1 := by
          refine ⟨(hm1 0).mpr (Or.inl hVW.1), fun j => ?_⟩
          rw [hm1 (j + 1), hm2 j, hVW.2 j, hr i i hi hi]
          by_cases hd : 0 < A.entry (i + 1) (i + 1)
          · simp only [hd, if_true]
            constructor
            · rintro (h | h)
              · exact Or.inl h
              · exact Or.inr (by omega)
            · rintro (h | h)
              · exact Or.inl h
              · exact Or.inr (by omega)
          · simp only [hd, if_false, reachAvoid_shift hA hB hr hVW hi j]
        obtain ⟨V2, W2, k, h1, h2⟩ :=
          outerLoop_shift hA hB hr is his2 V1 W1 (c + 1) (d + 1) hl1 hl2 hrel
        refine ⟨V2, W2, k + 1, ?_, ?_⟩
        · rw [Nat.succ_eq_add_one, heq, h1]; congr 2; omega
        · rw [heq2, h2]; congr 2; omega

theorem countLoops_shift (hA : A.Canonical (n + 1)) (hB : B.Canonical n)
    (h0 : 0 < A.entry 0 0)
    (hr : ∀ a b, a < n → b < n → B.entry a b = A.entry (a + 1) (b + 1)) :
    ∃ c, countLoops n B = some c ∧ countLoops (n + 1) A = some (1 + c) := by
  have hrange : List.range (n + 1) = 0 :: List.map Nat.succ (List.range n) :=
    List.range_succ_eq_map n
  rcases outerLoop_step hA.1 (List.replicate (n + 1) false) (by simp) 0 (by omega)
    (List.map Nat.succ (List.range n)) 0 with ⟨hv, _⟩ | ⟨_, V1, hl1, hm1, heq⟩
  · exact absurd hv (replicate_not_vis _ _)
  · have hrel : ShiftedMarks V1 (List.replicate n false) := by
      refine ⟨(hm1 0).mpr (Or.inr (by simp [h0])), fun j => ?_⟩
      rw [hm1 (j + 1)]
      simp only [h0, if_true]
      constructor
      · rintro (h | h)
        · exact absurd h (replicate_not_vis _ _)
        · omega
      · intro h
        exact absurd h (replicate_not_vis _ _)
    obtain ⟨V2, W2, k, h1, h2⟩ := outerLoop_shift hA hB hr (List.range n)
      (fun i hi => List.mem_range.mp hi) V1 (List.replicate n false) (0 + 1) 0 hl1 (by simp) hrel
    refine ⟨k, ?_, ?_⟩
    · simp [countLoops, h2]
    · simp [countLoops, hrange, heq, h1]

end Restrict

/-! ## Relabelling the nodes -/

theorem degree_fin (N : Nat) (A : CSR) (i : Nat) :
    degree N A i =
      2 * A.entry i i + ∑ j : Fin N, if (j : Nat) = i then 0 else A.entry i j := by
  unfold degree
  rw [Finset.sum_filter, Finset.sum_range]
  congr 1
  apply Finset.sum_congr rfl
  intro j _
  by_cases h : (j : Nat) = i <;> simp [h]

theorem relabel_isMatching {N : Nat} {A B : CSR} (p : Equiv.Perm (Fin N))
    (hA : A.IsMatching N) (hB : B.Canonical N)
    (hp : ∀ i j : Fin N, B.entry (p i) (p j) = A.entry i j) : B.IsMatching N := by
  have hq : ∀ i j : Fin N, B.entry i j = A.entry (p.symm i) (p.symm j) := by
    intro i j
    rw [← hp (p.symm i) (p.symm j)]
    simp
  refine ⟨hB, ?_, ?_⟩
  · intro i hi j hj
    have h1 := hq ⟨i, hi⟩ ⟨j, hj⟩
    have h2 := hq ⟨j, hj⟩ ⟨i, hi⟩
    simp only at h1 h2
    rw [h1, h2]
    exact hA.2.1 _ (Fin.isLt _) _ (Fin.isLt _)
  · intro i hi
    obtain ⟨k, hk⟩ : ∃ k : Fin N, p k = ⟨i, hi⟩ := ⟨p.symm ⟨i, hi⟩, by simp⟩
    have hki : ((p k : Fin N) : Nat) = i := by rw [hk]
    have hdeg := hA.2.2 k k.isLt
    rw [degree_fin] at hdeg ⊢
    have hsum : (∑ j : Fin N, if (j : Nat) = i then 0 else B.entry i j)
        = ∑ j : Fin N, if (j : Nat) = k then 0 else A.entry k j := by
      rw [← Equiv.sum_comp p]
      apply Finset.sum_congr rfl
      intro j _
      rw [← hki, hp k j]
      by_cases h : j = k
      · subst h; simp
      · have h1 : ¬ ((p j : Fin N) : Nat) = ((p k : Fin N) : Nat) := by
          intro e
          exact h (p.injective (Fin.ext e))
        have h2 : ¬ (j : Nat) = (k : Nat) := fun e => h (Fin.ext e)
        simp [h1, h2]
    have hd : B.entry i i = A.entry k k := by rw [← hki, hp k k]
    rw [hsum, hd]
    exact hdeg

theorem relabel_card {N : Nat} {A B : CSR} (p : Equiv.Perm (Fin N))
    (hp : ∀ i j : Fin N, B.entry (p i) (p j) = A.entry i j) :
    Nat.card (loopGraph N B).ConnectedComponent = Nat.card (loopGraph N A).ConnectedComponent := by
  have iso : loopGraph N A ≃g loopGraph N B :=
    { toEquiv := p
      map_rel_iff' := by
        intro a b
        simp only [loopGraph, SimpleGraph.fromRel_adj, hp, ne_eq, EmbeddingLike.apply_eq_iff_eq] }
  exact (Nat.card_congr iso.connectedComponentEquiv).symm

theorem countLoops_relabel {N : Nat} {A B : CSR} (p : Equiv.Perm (Fin N))
    (hA : A.IsMatching N) (hB : B.Canonical N)
    (hp : ∀ i j : Fin N, B.entry (p i) (p j) = A.entry i j) :
    countLoops N B = countLoops N A := by
  rw [countLoops_components hA, countLoops_components (relabel_isMatching p hA hB hp),
    relabel_card p hp]

/-! ## The sampling loop -/

/-- The sampling loop when every trial returns: the total grows by the sum of
the trial counts and entry `i` of the list becomes the quotient of trial
`i`'s count by `numSamples`. -/
theorem sampleLoop_spec (shuffles : Nat → List Nat → List Nat) (numSamples noodles : Nat)
    (f : Nat → Nat) : ∀ (is : List Nat),
    (∀ i ∈ is, noodling (shuffles i) noodles = some (f i)) →
    ∀ (counts : Nat) (countsList : List Nat),
    ∃ l, sampleLoop shuffles numSamples noodles is counts countsList
        = some (counts + (is.map f).sum, l) ∧
      l.length = countsList.length ∧
      ∀ j, l[j]? = if j ∈ is ∧ j < countsList.length then some (f j / numSamples)
        else countsList[j]?
  | [], _, counts, countsList => ⟨countsList, by simp [sampleLoop], rfl, by simp⟩
  | i :: is, h, counts, countsList => by
    have hi := h i (by simp)
    obtain ⟨l, h1, h2, h3⟩ := sampleLoop_spec shuffles numSamples noodles f is
      (fun k hk => h k (by simp [hk])) (counts + f i) (countsList.set i (f i / numSamples))
    refine ⟨l, ?_, by simpa using h2, fun j => ?_⟩
    · simp only [sampleLoop, hi, h1, List.map_cons, List.sum_cons]
      congr 2
      omega
    · rw [h3 j]
      simp only [List.length_set, List.mem_cons, List.getElem?_set]
      by_cases hj : j ∈ is ∧ j < countsList.length
      · simp [hj]
      · by_cases hij : i = j
        · subst hij
          by_cases hl : i < countsList.length
          · simp [hj, hl]
          · simp [hl, List.getElem?_eq_none (Nat.le_of_not_lt hl)]
        · have hji : ¬ j = i := fun e => hij e.symm
          simp [hj, hij, hji]

theorem noodling_unshuffled (N : Nat) : noodling id N = some N := by
  obtain ⟨A, h1, h2⟩ := countLoops_unshuffled N
  simp [noodling, h1, h2]

/-! ## Counting the shuffles that produce a perfect matching -/

theorem mem_twoAtATime {α : Type} (ab : α × α) : ∀ (t : List α),
    ab ∈ twoAtATime t ↔ ∃ k, t[2 * k]? = some ab.1 ∧ t[2 * k + 1]? = some ab.2
  | [] => by simp [twoAtATime]
  | [x] => by
    simp only [twoAtATime, List.not_mem_nil, false_iff, not_exists, not_and]
    intro k _
    simp
  | a :: b :: rest => by
    simp only [twoAtATime, List.mem_cons, mem_twoAtATime ab rest]
    constructor
    · rintro (h | ⟨k, h1, h2⟩)
      · exact ⟨0, by simp [h]⟩
      · refine ⟨k + 1, ?_, ?_⟩
        · rw [show 2 * (k + 1) = 2 * k + 1 + 1 by ring]; simpa using h1
        · rw [show 2 * (k + 1) + 1 = 2 * k + 1 + 1 + 1 by ring]; simpa using h2
    · rintro ⟨k, h1, h2⟩
      cases k with
      | zero =>
        left
        simp only [Nat.mul_zero, List.getElem?_cons_zero, Option.some.injEq, Nat.zero_add,
          List.getElem?_cons_succ] at h1 h2
        exact Prod.ext h1.symm h2.symm
      | succ k =>
        right
        refine ⟨k, ?_, ?_⟩
        · rw [show 2 * (k + 1) = 2 * k + 1 + 1 by ring] at h1; simpa using h1
        · rw [show 2 * (k + 1) + 1 = 2 * k + 1 + 1 + 1 by ring] at h2; simpa using h2

theorem tokenSeq_getElem? {N : Nat} (σ : Equiv.Perm (Fin (2 * N))) (p : Nat)
    (hp : p < 2 * N) : (tokenSeq σ)[p]? = some (σ ⟨p, hp⟩) := by
  simp [tokenSeq, List.getElem?_ofFn, List.ofFnNthVal, hp]

theorem slot_false {N : Nat} (k : Fin N) : (slot (k, false)).val = 2 * k.val := by
  simp [slot]

theorem slot_true {N : Nat} (k : Fin N) : (slot (k, true)).val = 2 * k.val + 1 := by
  simp [slot]

/-- The shuffle `σ` produces `m` exactly when, in every pair, the partner of
the first token is the second token. -/
theorem produces_iff_pairs {N : Nat} (σ m : Equiv.Perm (Fin (2 * N))) :
    Produces σ m ↔ ∀ k : Fin N, m (σ (slot (k, false))) = σ (slot (k, true)) := by
  unfold Produces
  constructor
  · intro h k
    have hk := k.isLt
    refine h (σ (slot (k, false)), σ (slot (k, true))) ((mem_twoAtATime _ _).mpr ⟨k.val, ?_, ?_⟩)
    · rw [tokenSeq_getElem? σ _ (by omega)]
      exact congrArg (fun q => some (σ q)) (Fin.ext (slot_false k).symm)
    · rw [tokenSeq_getElem? σ _ (by omega)]
      exact congrArg (fun q => some (σ q)) (Fin.ext (slot_true k).symm)
  · intro h ab hab
    obtain ⟨k, h1, h2⟩ := (mem_twoAtATime _ _).mp hab
    have hk : 2 * k + 1 < 2 * N := by
      by_contra hn
      rw [tokenSeq, List.getElem?_eq_none (by simp; omega)] at h2
      cases h2
    rw [tokenSeq_getElem? σ _ (by omega)] at h1
    rw [tokenSeq_getElem? σ _ hk] at h2
    simp only [Option.some.injEq] at h1 h2
    have hk2 : k < N := by omega
    have e1 : slot ((⟨k, hk2⟩ : Fin N), false) = ⟨2 * k, by omega⟩ :=
      Fin.ext (slot_false _)
    have e2 : slot ((⟨k, hk2⟩ : Fin N), true) = ⟨2 * k + 1, hk⟩ :=
      Fin.ext (slot_true _)
    have := h ⟨k, hk2⟩
    rw [e1, e2, h1, h2] at this
    exact this

theorem produces_iff_flip {N : Nat} {σ m : Equiv.Perm (Fin (2 * N))}
    (hm : IsPerfectMatching m) :
    Produces σ m ↔ ∀ x : Fin N × Bool, m (σ (slot x)) = σ (slot (flipSlot x)) := by
  rw [produces_iff_pairs]
  constructor
  · rintro h ⟨k, b⟩
    cases b
    · exact h k
    · show m (σ (slot (k, true))) = σ (slot (k, false))
      rw [← h k, hm.1]
  · intro h k
    exact h (k, false)

theorem blockPerm_flip {N : Nat} (π : Equiv.Perm (Fin N)) (f : Fin N → Bool)
    (x : Fin N × Bool) : blockPerm π f (flipSlot x) = flipSlot (blockPerm π f x) := by
  obtain ⟨k, b⟩ := x
  cases b <;> cases h : f k <;> simp [blockPerm, flipSlot, h]

theorem blockPerm_injective {N : Nat} :
    Function.Injective fun x : Equiv.Perm (Fin N) × (Fin N → Bool) => blockPerm x.1 x.2 := by
  rintro ⟨π, f⟩ ⟨π2, f2⟩ h
  have key : ∀ k, π k = π2 k ∧ f k = f2 k := by
    intro k
    have := congrArg (fun τ : Equiv.Perm (Fin N × Bool) => τ (k, false)) h
    simp only [blockPerm, Equiv.coe_fn_mk, Bool.xor_false, Prod.mk.injEq] at this
    exact this
  refine Prod.ext (Equiv.ext fun k => (key k).1) (funext fun k => (key k).2)

/-- Two positions of the same pair are equal or each other's flip. -/
theorem same_pair {N : Nat} {x y : Fin N × Bool} (h : x.1 = y.1) : y = x ∨ y = flipSlot x := by
  obtain ⟨k, b⟩ := x
  obtain ⟨k2, b2⟩ := y
  simp only at h
  subst h
  cases b <;> cases b2 <;> simp [flipSlot]

/-- Every permutation of the positions that respects the pairs is a
`blockPerm`. -/
theorem blockPerm_surjective {N : Nat} (τ : Equiv.Perm (Fin N × Bool))
    (hτ : ∀ x, τ (flipSlot x) = flipSlot (τ x)) :
    ∃ (π : Equiv.Perm (Fin N)) (f : Fin N → Bool), blockPerm π f = τ := by
  have hinj : Function.Injective fun k : Fin N => (τ (k, false)).1 := by
    intro k k2 h
    simp only at h
    rcases same_pair h with h2 | h2
    · have := τ.injective h2
      simp only [Prod.mk.injEq, and_true] at this
      exact this.symm
    · rw [← hτ] at h2
      have := τ.injective h2
      simp [flipSlot] at this
  refine ⟨Equiv.ofBijective _ (Finite.injective_iff_bijective.mp hinj),
    fun k => (τ (k, false)).2, ?_⟩
  ext1 x
  obtain ⟨k, b⟩ := x
  cases b
  · simp [blockPerm]
  · have h := hτ (k, false)
    simp only [flipSlot, Equiv.coe_fn_mk, Bool.not_false] at h
    rw [h]
    simp [blockPerm]

/-- The partner of a position: the other position of its pair. -/
theorem slot_partner_isPerfectMatching (N : Nat) :
    IsPerfectMatching (slot.permCongr (flipSlot : Equiv.Perm (Fin N × Bool))) := by
  constructor
  · intro t
    simp [Equiv.permCongr_apply, flipSlot]
  · intro t h
    have := congrArg slot.symm h
    simp only [Equiv.permCongr_apply, Equiv.symm_apply_apply] at this
    have h2 := congrArg Prod.snd this
    simp [flipSlot] at h2

theorem perfectMatching_cycleType {N : Nat} (hN : 1 ≤ N) {g : Equiv.Perm (Fin (2 * N))}
    (hg : IsPerfectMatching g) : g.cycleType = Multiset.replicate N 2 := by
  have hne : g ≠ 1 := by
    intro h
    apply hg.2 ⟨0, by omega⟩
    rw [h]; rfl
  have hsq : g ^ 2 = 1 := by
    ext1 t
    rw [pow_two, Equiv.Perm.mul_apply, hg.1, Equiv.Perm.one_apply]
  have hord : orderOf g = 2 := orderOf_eq_prime hsq hne
  obtain ⟨n, hn⟩ := Equiv.Perm.cycleType_prime_order (by rw [hord]; exact Nat.prime_two)
  rw [hord] at hn
  have hsupp : g.support = Finset.univ := by
    rw [Finset.eq_univ_iff_forall]
    intro t
    rw [Equiv.Perm.mem_support]
    exact hg.2 t
  have hsum := Equiv.Perm.sum_cycleType g
  rw [hn, hsupp, Finset.card_univ, Fintype.card_fin, Multiset.sum_replicate, smul_eq_mul] at hsum
  have : n + 1 = N := by omega
  rw [hn, this]

/-- Every perfect matching is produced by some arrangement of the tokens. -/
theorem exists_arrangement {N : Nat} {m : Equiv.Perm (Fin (2 * N))}
    (hm : IsPerfectMatching m) :
    ∃ g : Equiv.Perm (Fin (2 * N)), ∀ x : Fin N × Bool, m (g (slot x)) = g (slot (flipSlot x)) := by
  by_cases hN : 1 ≤ N
  · have hconj : IsConj (slot.permCongr (flipSlot : Equiv.Perm (Fin N × Bool))) m := by
      rw [Equiv.Perm.isConj_iff_cycleType_eq,
        perfectMatching_cycleType hN (slot_partner_isPerfectMatching N),
        perfectMatching_cycleType hN hm]
    obtain ⟨c, hc⟩ := isConj_iff.mp hconj
    refine ⟨c, fun x => ?_⟩
    rw [← hc]
    simp [Equiv.Perm.mul_apply, Equiv.permCongr_apply]
  · have h0 : N = 0 := by omega
    subst h0
    exact ⟨1, fun x => x.1.elim0⟩

/-- The number of shuffle outcomes that produce a given perfect matching. -/
theorem card_produces {N : Nat} {m : Equiv.Perm (Fin (2 * N))} (hm : IsPerfectMatching m) :
    (Finset.univ.filter fun σ : Equiv.Perm (Fin (2 * N)) => Produces σ m).card
      = N.factorial * 2 ^ N := by
  rw [← Fintype.card_subtype]
  obtain ⟨g, hg⟩ := exists_arrangement hm
  have hmem : ∀ x : Equiv.Perm (Fin N) × (Fin N → Bool),
      Produces (slot.symm.trans ((blockPerm x.1 x.2).trans (slot.trans g))) m := by
    intro x
    rw [produces_iff_flip hm]
    intro y
    simp only [Equiv.trans_apply, Equiv.symm_apply_apply]
    rw [blockPerm_flip]
    exact hg _
  have hbij : Function.Bijective
      (fun x : Equiv.Perm (Fin N) × (Fin N → Bool) =>
        (⟨slot.symm.trans ((blockPerm x.1 x.2).trans (slot.trans g)), hmem x⟩ :
          { σ : Equiv.Perm (Fin (2 * N)) // Produces σ m })) := by
    constructor
    · intro a b hab
      apply blockPerm_injective
      simp only [Subtype.mk.injEq] at hab
      ext1 y
      have := congrArg (fun σ : Equiv.Perm (Fin (2 * N)) => σ (slot y)) hab
      simp only [Equiv.trans_apply, Equiv.symm_apply_apply] at this
      exact slot.injective (g.injective this)
    · rintro ⟨σ, hσ⟩
      rw [produces_iff_flip hm] at hσ
      have hτ : ∀ x, (slot.trans (σ.trans (g.symm.trans slot.symm))) (flipSlot x)
          = flipSlot ((slot.trans (σ.trans (g.symm.trans slot.symm))) x) := by
        intro x
        simp only [Equiv.trans_apply]
        rw [← hσ x]
        have h := hg (slot.symm (g.symm (σ (slot x))))
        simp only [Equiv.apply_symm_apply] at h
        rw [h]
        simp
      obtain ⟨π, f, hπ⟩ := blockPerm_surjective _ hτ
      refine ⟨(π, f), ?_⟩
      simp only [Subtype.mk.injEq, hπ]
      ext1 p
      simp
  rw [← Fintype.card_of_bijective hbij]
  simp [Fintype.card_perm]

/-! ## From the shuffle outcome to the matrix -/

theorem tokenLabels_getElem? {N : Nat} (σ : Equiv.Perm (Fin (2 * N))) (p : Nat)
    (hp : p < 2 * N) : (tokenLabels σ)[p]? = some ((σ ⟨p, hp⟩).val / 2) := by
  simp [tokenLabels, List.getElem?_map, tokenSeq_getElem? σ p hp]

theorem tokenLabels_slot_false {N : Nat} (σ : Equiv.Perm (Fin (2 * N))) (k : Fin N) :
    (tokenLabels σ)[2 * k.val]? = some ((σ (slot (k, false))).val / 2) := by
  have hk := k.isLt
  rw [tokenLabels_getElem? σ (2 * k.val) (by omega)]
  exact congrArg (fun q => some ((σ q).val / 2)) (Fin.ext (slot_false k).symm)

theorem tokenLabels_slot_true {N : Nat} (σ : Equiv.Perm (Fin (2 * N))) (k : Fin N) :
    (tokenLabels σ)[2 * k.val + 1]? = some ((σ (slot (k, true))).val / 2) := by
  have hk := k.isLt
  rw [tokenLabels_getElem? σ (2 * k.val + 1) (by omega)]
  exact congrArg (fun q => some ((σ q).val / 2)) (Fin.ext (slot_true k).symm)

theorem tokenLabels_perm {N : Nat} (σ : Equiv.Perm (Fin (2 * N))) :
    (tokenLabels σ).Perm (buildEnds N) := by
  have h1 : tokenLabels σ = List.ofFn ((fun t : Fin (2 * N) => t.val / 2) ∘ σ) := by
    simp [tokenLabels, tokenSeq, List.map_ofFn]
  have h2 : List.ofFn (fun t : Fin (2 * N) => t.val / 2) = buildEnds N := by
    apply List.ext_getElem?
    intro p
    by_cases hp : p < 2 * N
    · rw [buildEnds_getElem? N p hp]
      simp [List.getElem?_ofFn, List.ofFnNthVal, hp]
    · rw [List.getElem?_eq_none (by simp; omega),
        List.getElem?_eq_none (by rw [buildEnds_length]; omega)]
  rw [h1, ← h2]
  exact Equiv.Perm.ofFn_comp_perm σ _

/-- Every shuffle outcome produces exactly one perfect matching. -/
theorem produces_unique {N : Nat} (σ : Equiv.Perm (Fin (2 * N))) :
    ∃ m, IsPerfectMatching m ∧ Produces σ m ∧
      ∀ m2, IsPerfectMatching m2 → Produces σ m2 → m2 = m := by
  have hι := slot_partner_isPerfectMatching N
  have hm : IsPerfectMatching
      (σ.symm.trans ((slot.permCongr (flipSlot : Equiv.Perm (Fin N × Bool))).trans σ)) := by
    constructor
    · intro t
      simp only [Equiv.trans_apply, Equiv.symm_apply_apply]
      rw [hι.1]
      simp
    · intro t h
      simp only [Equiv.trans_apply] at h
      have := congrArg σ.symm h
      simp only [Equiv.symm_apply_apply] at this
      exact hι.2 _ this
  have hp : ∀ x : Fin N × Bool,
      (σ.symm.trans ((slot.permCongr (flipSlot : Equiv.Perm (Fin N × Bool))).trans σ))
        (σ (slot x)) = σ (slot (flipSlot x)) := by
    intro x
    simp [Equiv.permCongr_apply]
  refine ⟨_, hm, (produces_iff_flip hm).mpr hp, ?_⟩
  intro m2 hm2 hp2
  rw [produces_iff_flip hm2] at hp2
  ext1 t
  obtain ⟨x, rfl⟩ : ∃ x, σ (slot x) = t := ⟨slot.symm (σ.symm t), by simp⟩
  rw [hp2 x, hp x]

theorem countP_range_eq_sum (p : Nat → Bool) (n : Nat) :
    (List.range n).countP p = ∑ k : Fin n, if p k then 1 else 0 := by
  rw [← Finset.sum_range fun k => if p k then 1 else 0]
  induction n with
  | zero => simp
  | succ n ih =>
    rw [List.range_succ, List.countP_append, ih, Finset.sum_range_succ]
    simp [List.countP_cons]

/-- The matrix entries are determined by the perfect matching alone. -/
theorem pairCount_linkCount {N : Nat} {σ m : Equiv.Perm (Fin (2 * N))}
    (hm : IsPerfectMatching m) (hp : Produces σ m) (i j : Nat) :
    (if i = j then 2 else 1) * pairCount (tokenLabels σ) i j = linkCount m i j := by
  rw [produces_iff_flip hm] at hp
  have hlen : (tokenLabels σ).length = 2 * N := by
    rw [(tokenLabels_perm σ).length_eq, buildEnds_length]
  -- the pair count as a sum over the pairs
  have h1 : pairCount (tokenLabels σ) i j = ∑ k : Fin N,
      if ((σ (slot (k, false))).val / 2 = i ∧ (σ (slot (k, true))).val / 2 = j) ∨
        ((σ (slot (k, false))).val / 2 = j ∧ (σ (slot (k, true))).val / 2 = i)
      then 1 else 0 := by
    unfold pairCount
    rw [hlen, Nat.mul_div_cancel_left N (by omega : 0 < 2), countP_range_eq_sum]
    apply Finset.sum_congr rfl
    intro k _
    rw [tokenLabels_slot_false σ k, tokenLabels_slot_true σ k]
    simp only [Option.some.injEq, decide_eq_true_eq]
  -- the link count as a sum over the positions
  have h2 : linkCount m i j = ∑ x : Fin N × Bool,
      if (σ (slot x)).val / 2 = i ∧ (σ (slot (flipSlot x))).val / 2 = j then 1 else 0 := by
    unfold linkCount
    rw [Finset.card_filter]
    refine (Equiv.sum_comp (slot.trans σ)
      (fun t : Fin (2 * N) => if t.val / 2 = i ∧ (m t).val / 2 = j then 1 else 0)).symm.trans ?_
    apply Finset.sum_congr rfl
    intro x _
    simp only [Equiv.trans_apply, hp x]
  rw [h1, h2, Fintype.sum_prod_type, Finset.mul_sum]
  apply Finset.sum_congr rfl
  intro k _
  rw [Fintype.sum_bool]
  simp only [flipSlot, Equiv.coe_fn_mk, Bool.not_true, Bool.not_false]
  generalize (σ (slot (k, false))).val / 2 = a
  generalize (σ (slot (k, true))).val / 2 = b
  split_ifs <;> omega

/-! ## Totals of the sampling loop -/

theorem noodling_returns_bounded {shuffle : List Nat → List Nat} {N : Nat} (hN : 1 ≤ N)
    (hs : (shuffle (buildEnds N)).Perm (buildEnds N)) :
    ∃ c, noodling shuffle N = some c ∧ 1 ≤ c ∧ c ≤ N := by
  obtain ⟨B, hB, _, _⟩ := randomMatching_perm hs
  obtain ⟨c, hc, h1, h2⟩ := countLoops_returns_bounded hN (randomMatching_canonical hs hB).1
  exact ⟨c, by simp [noodling, hB, hc], h1, h2⟩

theorem sum_map_bounds (f : Nat → Nat) (lo hi : Nat) : ∀ (is : List Nat),
    (∀ i ∈ is, lo ≤ f i ∧ f i ≤ hi) →
    lo * is.length ≤ (is.map f).sum ∧ (is.map f).sum ≤ hi * is.length
  | [], _ => by simp
  | i :: is, h => by
    have h1 := h i (by simp)
    have h2 := sum_map_bounds f lo hi is (fun k hk => h k (by simp [hk]))
    simp only [List.map_cons, List.sum_cons, List.length_cons, Nat.mul_succ]
    omega

/-- The sampling loop over `T` trials of `N ≥ 1` nodes, every shuffle a
rearrangement: it returns, the total is the sum of the trial counts `f i`,
each between `1` and `N`, and entry `j` of the list is `f j / T`. -/
theorem mainSamples_spec (shuffles : Nat → List Nat → List Nat) (T N : Nat) (hN : 1 ≤ N)
    (hs : ∀ i, i < T → (shuffles i (buildEnds N)).Perm (buildEnds N)) :
    ∃ (f : Nat → Nat) (l : List Nat),
      (∀ i, i < T → noodling (shuffles i) N = some (f i) ∧ 1 ≤ f i ∧ f i ≤ N) ∧
      mainSamples shuffles T N = some (((List.range T).map f).sum, l) ∧
      l.length = T ∧ ∀ j, j < T → l[j]? = some (f j / T) := by
  have hf : ∀ i, i < T → noodling (shuffles i) N
      = some ((noodling (shuffles i) N).getD 0) ∧
      1 ≤ (noodling (shuffles i) N).getD 0 ∧ (noodling (shuffles i) N).getD 0 ≤ N := by
    intro i hi
    obtain ⟨c, hc, h1, h2⟩ := noodling_returns_bounded hN (hs i hi)
    rw [hc]
    exact ⟨rfl, h1, h2⟩
  obtain ⟨l, h1, h2, h3⟩ := sampleLoop_spec shuffles T N
    (fun i => (noodling (shuffles i) N).getD 0) (List.range T)
    (fun i hi => (hf i (List.mem_range.mp hi)).1) 0 (List.replicate T 0)
  refine ⟨_, l, hf, ?_, by rw [h2, List.length_replicate], fun j hj => ?_⟩
  · rw [mainSamples, h1, Nat.zero_add]
  · rw [h3 j, if_pos ⟨List.mem_range.mpr hj, by rw [List.length_replicate]; exact hj⟩]

/-! ## Without the short-circuit -/

theorem outerLoopPlain_step {m : CSR} {N : Nat} (hm : m.InRange N) (visited : List Bool)
    (hlen : visited.length = N) (i : Nat) (hi : i < N) (is : List Nat) (count : Nat) :
    (vis visited i ∧
      outerLoopPlain N m (i :: is) visited count = outerLoopPlain N m is visited count) ∨
    (¬ vis visited i ∧ ∃ visited1, visited1.length = N ∧
      (∀ j, vis visited1 j ↔ vis visited j ∨ ReachAvoid m visited i j) ∧
      outerLoopPlain N m (i :: is) visited count
        = outerLoopPlain N m is visited1 (count + 1)) := by
  have hil : i < visited.length := by omega
  cases hb : visited[i] with
  | true =>
    have hb2 : visited[i]? = some true := by rw [List.getElem?_eq_getElem hil, hb]
    left
    exact ⟨hb2, by simp [outerLoopPlain, hb2]⟩
  | false =>
    have hb2 : visited[i]? = some false := by rw [List.getElem?_eq_getElem hil, hb]
    right
    refine ⟨by unfold vis; rw [hb2]; simp, ?_⟩
    obtain ⟨v1, h1, h2, h3⟩ := bfsLoop_start hm visited i hlen hb2
    exact ⟨v1, h2, h3, by simp [outerLoopPlain, hb2, h1]⟩

theorem outerLoopPlain_components {N : Nat} {A : CSR} (hA : A.IsMatching N) :
    ∀ (is : List Nat), (∀ i ∈ is, i < N) → ∀ (visited : List Bool) (count : Nat),
    visited.length = N → Closed (loopGraph N A) visited →
    count = (markedComponents (loopGraph N A) visited).ncard →
    ∃ v c, outerLoopPlain N A is visited count = some (v, c) ∧ v.length = N ∧
      Closed (loopGraph N A) v ∧ c = (markedComponents (loopGraph N A) v).ncard ∧
      (∀ j, vis visited j → vis v j) ∧ (∀ i ∈ is, vis v i)
  | [], _, visited, count, hlen, hc, hn => by
    exact ⟨visited, count, by simp [outerLoopPlain], hlen, hc, hn, fun _ h => h, by simp⟩
  | i :: is, his, visited, count, hlen, hc, hn => by
    have hi : i < N := his i (by simp)
    have his2 : ∀ k ∈ is, k < N := fun k hk => his k (by simp [hk])
    rcases outerLoopPlain_step hA.1.1 visited hlen i hi is count with
      ⟨hv, heq⟩ | ⟨hnv, v1, hl1, hm1, heq⟩
    · obtain ⟨v, c, h1, h2, h3, h4, h5, h6⟩ :=
        outerLoopPlain_components hA is his2 visited count hlen hc hn
      refine ⟨v, c, by rw [heq, h1], h2, h3, h4, h5, ?_⟩
      intro k hk
      simp only [List.mem_cons] at hk
      rcases hk with rfl | hk
      · exact h5 _ hv
      · exact h6 k hk
    · have hchar : ∀ a : Fin N, vis v1 a ↔
          vis visited a ∨ (loopGraph N A).Reachable ⟨i, hi⟩ a := by
        intro a
        rw [hm1 a]
        constructor
        · rintro (h | h)
          · exact Or.inl h
          · obtain ⟨_, hr⟩ := reachAvoid_reachable hA visited ⟨i, hi⟩ h
            exact Or.inr hr
        · rintro (h | h)
          · exact Or.inl h
          · exact Or.inr (reachable_reachAvoid hA hc ⟨i, hi⟩ hnv h)
      obtain ⟨hc1, hn1⟩ := markedComponents_step hc ⟨i, hi⟩ hnv hchar
      obtain ⟨v, c, h1, h2, h3, h4, h5, h6⟩ :=
        outerLoopPlain_components hA is his2 v1 (count + 1) hl1 hc1 (by rw [hn1, hn])
      have hvi : vis v1 i := (hchar ⟨i, hi⟩).mpr (Or.inr (SimpleGraph.Reachable.refl _))
      refine ⟨v, c, by rw [heq, h1], h2, h3, h4, ?_, ?_⟩
      · intro j hj
        exact h5 j ((hm1 j).mpr (Or.inl hj))
      · intro k hk
        simp only [List.mem_cons] at hk
        rcases hk with rfl | hk
        · exact h5 _ hvi
        · exact h6 k hk

theorem countLoopsPlain_components {N : Nat} {A : CSR} (hA : A.IsMatching N) :
    countLoopsPlain N A = some (Nat.card (loopGraph N A).ConnectedComponent) := by
  have h0 : markedComponents (loopGraph N A) (List.replicate N false) = ∅ := by
    ext c
    simp only [markedComponents, Set.mem_image, Set.mem_setOf_eq, Set.mem_empty_iff_false,
      iff_false]
    rintro ⟨a, ha, _⟩
    exact replicate_not_vis _ _ ha
  obtain ⟨v, c, h1, _, _, h4, _, h6⟩ := outerLoopPlain_components hA (List.range N)
    (fun i hi => List.mem_range.mp hi) (List.replicate N false) 0 (by simp)
    (fun a b _ ha => absurd ha (replicate_not_vis _ _)) (by rw [h0]; simp)
  have huniv : markedComponents (loopGraph N A) v = Set.univ := by
    ext c
    simp only [markedComponents, Set.mem_image, Set.mem_setOf_eq, Set.mem_univ, iff_true]
    induction c using SimpleGraph.ConnectedComponent.ind with
    | _ a => exact ⟨a, h6 a (List.mem_range.mpr a.isLt), rfl⟩
  rw [huniv, Set.ncard_univ] at h4
  simp [countLoopsPlain, h1, h4]

theorem selfPaired_entries_zero {N : Nat} {A : CSR} (hA : A.IsMatching N) {i : Nat}
    (hi : i < N) (hd : 0 < A.entry i i) {j : Nat} (hj : j < N) (hne : j ≠ i) :
    A.entry i j = 0 ∧ A.entry j i = 0 := by
  have h1 := (selfPaired_isolated hA hi hd j).1
  rw [edge_iff hA.1 hi] at h1
  have h2 : A.entry i j = 0 := by
    by_contra h
    exact h1 ⟨hne, hj, Nat.pos_of_ne_zero h⟩
  exact ⟨h2, by rw [hA.2.1 j hj i hi]; exact h2⟩

/-! ## Self-paired nodes on matrices outside the degree invariant -/

theorem outerLoop_append (N : Nat) (m : CSR) : ∀ (l1 l2 : List Nat) (v : List Bool) (c : Nat),
    outerLoop N m (l1 ++ l2) v c
      = (outerLoop N m l1 v c).bind fun s => outerLoop N m l2 s.1 s.2
  | [], l2, v, c => by simp [outerLoop]
  | i :: l1, l2, v, c => by
    simp only [List.cons_append, outerLoop]
    cases h1 : v[i]? with
    | none => simp
    | some b =>
      cases b with
      | true => exact outerLoop_append N m l1 l2 _ _
      | false =>
        simp only
        cases h2 : m.At i i with
        | none => simp
        | some d =>
          simp only
          by_cases hd : d > 0
          · simp only [hd, if_true]
            exact outerLoop_append N m l1 l2 _ _
          · simp only [hd, if_false]
            cases h3 : bfsLoop m N 0 [i] (v.set i true) with
            | none => simp
            | some v1 => exact outerLoop_append N m l1 l2 _ _

/-- The state in which the outer loop reaches node `i`, and what the
iteration at `i` does to it when `i` is marked, or is unmarked and
self-paired. -/
theorem outerLoop_reaches {m : CSR} {N : Nat} (hm : m.InRange N) (i : Nat) (hi : i < N) :
    ∃ v c, outerLoop N m (List.range i) (List.replicate N false) 0 = some (v, c) ∧
      (vis v i →
        outerLoop N m (List.range (i + 1)) (List.replicate N false) 0 = some (v, c)) ∧
      (¬ vis v i → 0 < m.entry i i →
        outerLoop N m (List.range (i + 1)) (List.replicate N false) 0
          = some (v.set i true, c + 1)) := by
  obtain ⟨v, c, h1, h2, _, _, _, _⟩ := outerLoop_bounds hm (List.range i)
    (fun k hk => by have := List.mem_range.mp hk; omega) (List.replicate N false) 0 (by simp)
  have hil : i < v.length := by omega
  have hAt := At_of_square hm.1 hi hi
  refine ⟨v, c, h1, ?_, ?_⟩
  · intro hv
    rw [List.range_succ, outerLoop_append, h1]
    unfold vis at hv
    simp [outerLoop, hv]
  · intro hv hd
    have hb : v[i]? = some false := by
      unfold vis at hv
      rw [List.getElem?_eq_getElem hil] at hv ⊢
      cases hvi : v[i] with
      | true => rw [hvi] at hv; exact absurd rfl hv
      | false => rfl
    rw [List.range_succ, outerLoop_append, h1]
    simp [outerLoop, hb, hAt, hd]

theorem restGraph_adj_iff {N : Nat} {A : CSR} (hs : A.Symmetric N) (a b : Fin N) :
    (restGraph N A).Adj a b ↔
      a ≠ b ∧ 0 < A.entry a b ∧ A.entry a a = 0 ∧ A.entry b b = 0 := by
  rw [restGraph, SimpleGraph.fromRel_adj]
  have h := hs a a.isLt b b.isLt
  constructor
  · rintro ⟨hne, h1 | h1⟩
    · exact ⟨hne, h1⟩
    · exact ⟨hne, by rw [h]; exact h1.1, h1.2.2, h1.2.1⟩
  · rintro ⟨hne, h1⟩
    exact ⟨hne, Or.inl h1⟩

theorem restGraph_selfPaired_alone {N : Nat} {A : CSR} (hs : A.Symmetric N) (i : Fin N)
    (hd : 0 < A.entry i i) (a : Fin N) : (restGraph N A).Reachable i a ↔ a = i := by
  constructor
  · intro h
    rw [SimpleGraph.reachable_iff_reflTransGen] at h
    rcases Relation.ReflTransGen.cases_head h with h | ⟨c, hic, _⟩
    · exact h.symm
    · have := ((restGraph_adj_iff hs i c).mp hic).2.2.1
      omega
  · rintro rfl
    exact SimpleGraph.Reachable.refl _

theorem reachAvoid_rest {N : Nat} {A : CSR} (hA : A.Canonical N) (hs : A.Symmetric N)
    (hH : A.SelfPairedApart N) (v : List Bool) (i : Fin N) (hi0 : A.entry i i = 0) {j : Nat}
    (h : ReachAvoid A v i j) :
    ∃ hj : j < N, A.entry j j = 0 ∧ (restGraph N A).Reachable i ⟨j, hj⟩ := by
  induction h with
  | refl => exact ⟨i.isLt, hi0, SimpleGraph.Reachable.refl _⟩
  | @tail b c _ hbc ih =>
    obtain ⟨hb, hb0, hr⟩ := ih
    obtain ⟨hne, hcN, hpos⟩ := (edge_iff hA hb c).mp hbc.1
    have hc0 : A.entry c c = 0 := by
      by_contra hc
      have := hH c hcN b hb (Nat.pos_of_ne_zero hc) hb0
      rw [hs c hcN b hb] at this
      omega
    refine ⟨hcN, hc0, hr.trans (SimpleGraph.Adj.reachable ?_)⟩
    exact (restGraph_adj_iff hs ⟨b, hb⟩ ⟨c, hcN⟩).mpr
      ⟨fun e => hne (congrArg Fin.val e).symm, hpos, hb0, hc0⟩

theorem rest_reachAvoid {N : Nat} {A : CSR} (hA : A.Canonical N) (hs : A.Symmetric N)
    {v : List Bool} (hc : Closed (restGraph N A) v) (i : Fin N) (hi : ¬ vis v i) {a : Fin N}
    (h : (restGraph N A).Reachable i a) : ReachAvoid A v i a := by
  have h0 := h
  rw [SimpleGraph.reachable_iff_reflTransGen] at h
  induction h with
  | refl => exact Relation.ReflTransGen.refl
  | @tail b c hib hbc ih =>
    have hrb : (restGraph N A).Reachable i b :=
      (SimpleGraph.reachable_iff_reflTransGen _ _).mpr hib
    obtain ⟨hne, hpos, _, _⟩ := (restGraph_adj_iff hs b c).mp hbc
    have hE : Edge A b c :=
      (edge_iff hA b.isLt c).mpr ⟨fun e => hne (Fin.ext e.symm), c.isLt, hpos⟩
    refine Relation.ReflTransGen.tail (ih hrb) ⟨hE, ?_⟩
    intro hvc
    exact hi (closed_reachable hc (hrb.trans hbc.reachable).symm hvc)

theorem outerLoop_rest {N : Nat} {A : CSR} (hA : A.Canonical N) (hs : A.Symmetric N)
    (hH : A.SelfPairedApart N) :
    ∀ (is : List Nat), (∀ i ∈ is, i < N) → ∀ (visited : List Bool) (count : Nat),
    visited.length = N → Closed (restGraph N A) visited →
    count = (markedComponents (restGraph N A) visited).ncard →
    ∃ v c, outerLoop N A is visited count = some (v, c) ∧ v.length = N ∧
      Closed (restGraph N A) v ∧ c = (markedComponents (restGraph N A) v).ncard ∧
      (∀ j, vis visited j → vis v j) ∧ (∀ i ∈ is, vis v i)
  | [], _, visited, count, hlen, hc, hn => by
    exact ⟨visited, count, by simp [outerLoop], hlen, hc, hn, fun _ h => h, by simp⟩
  | i :: is, his, visited, count, hlen, hc, hn => by
    have hi : i < N := his i (by simp)
    have his2 : ∀ k ∈ is, k < N := fun k hk => his k (by simp [hk])
    rcases outerLoop_step hA.1 visited hlen i hi is count with
      ⟨hv, heq⟩ | ⟨hnv, v1, hl1, hm1, heq⟩
    · obtain ⟨v, c, h1, h2, h3, h4, h5, h6⟩ :=
        outerLoop_rest hA hs hH is his2 visited count hlen hc hn
      refine ⟨v, c, by rw [heq, h1], h2, h3, h4, h5, ?_⟩
      intro k hk
      simp only [List.mem_cons] at hk
      rcases hk with rfl | hk
      · exact h5 _ hv
      · exact h6 k hk
    · have hchar : ∀ a : Fin N, vis v1 a ↔
          vis visited a ∨ (restGraph N A).Reachable ⟨i, hi⟩ a := by
        intro a
        rw [hm1 a]
        by_cases hd : 0 < A.entry i i
        · simp only [hd, if_true]
          rw [restGraph_selfPaired_alone hs ⟨i, hi⟩ hd a, Fin.ext_iff]
        · simp only [hd, if_false]
          have hd0 : A.entry i i = 0 := by omega
          constructor
          · rintro (h | h)
            · exact Or.inl h
            · obtain ⟨_, _, hr⟩ := reachAvoid_rest hA hs hH visited ⟨i, hi⟩ hd0 h
              exact Or.inr hr
          · rintro (h | h)
            · exact Or.inl h
            · exact Or.inr (rest_reachAvoid hA hs hc ⟨i, hi⟩ hnv h)
      obtain ⟨hc1, hn1⟩ := markedComponents_step hc ⟨i, hi⟩ hnv hchar
      obtain ⟨v, c, h1, h2, h3, h4, h5, h6⟩ :=
        outerLoop_rest hA hs hH is his2 v1 (count + 1) hl1 hc1 (by rw [hn1, hn])
      have hvi : vis v1 i := (hchar ⟨i, hi⟩).mpr (Or.inr (SimpleGraph.Reachable.refl _))
      refine ⟨v, c, by rw [heq, h1], h2, h3, h4, ?_, ?_⟩
      · intro j hj
        exact h5 j ((hm1 j).mpr (Or.inl hj))
      · intro k hk
        simp only [List.mem_cons] at hk
        rcases hk with rfl | hk
        · exact h5 _ hvi
        · exact h6 k hk

theorem countLoops_rest {N : Nat} {A : CSR} (hA : A.Canonical N) (hs : A.Symmetric N)
    (hH : A.SelfPairedApart N) :
    countLoops N A = some (Nat.card (restGraph N A).ConnectedComponent) := by
  have h0 : markedComponents (restGraph N A) (List.replicate N false) = ∅ := by
    ext c
    simp only [markedComponents, Set.mem_image, Set.mem_setOf_eq, Set.mem_empty_iff_false,
      iff_false]
    rintro ⟨a, ha, _⟩
    exact replicate_not_vis _ _ ha
  obtain ⟨v, c, h1, _, _, h4, _, h6⟩ := outerLoop_rest hA hs hH (List.range N)
    (fun i hi => List.mem_range.mp hi) (List.replicate N false) 0 (by simp)
    (fun a b _ ha => absurd ha (replicate_not_vis _ _)) (by rw [h0]; simp)
  have huniv : markedComponents (restGraph N A) v = Set.univ := by
    ext c
    simp only [markedComponents, Set.mem_image, Set.mem_setOf_eq, Set.mem_univ, iff_true]
    induction c using SimpleGraph.ConnectedComponent.ind with
    | _ a => exact ⟨a, h6 a (List.mem_range.mpr a.isLt), rfl⟩
  rw [huniv, Set.ncard_univ] at h4
  simp [countLoops, h1, h4]

theorem selfPaired_le_components {N : Nat} {A : CSR} (hs : A.Symmetric N) :
    (Finset.univ.filter fun i : Fin N => 0 < A.entry i i).card
      ≤ Nat.card (restGraph N A).ConnectedComponent := by
  classical
  rw [← Fintype.card_subtype, ← Nat.card_eq_fintype_card]
  apply Nat.card_le_card_of_injective
    (fun i : { i : Fin N // 0 < A.entry i i } => (restGraph N A).connectedComponentMk i.1)
  intro a b hab
  have := (restGraph_selfPaired_alone hs a.1 a.2 b.1).mp
    (SimpleGraph.ConnectedComponent.eq.mp hab)
  exact Subtype.ext this.symm

/-! ## Every node is marked exactly once -/

theorem bfsLoop_eq_queue (m : CSR) : ∀ (fuel head : Nat) (queue : List Nat)
    (visited : List Bool),
    bfsLoop m fuel head queue visited = (bfsLoopQueue m fuel head queue visited).map Prod.fst := by
  intro fuel
  induction fuel with
  | zero =>
    intro head queue visited
    unfold bfsLoop bfsLoopQueue
    cases queue[head]? <;> simp
  | succ fuel ih =>
    intro head queue visited
    rw [bfsLoop, bfsLoopQueue]
    cases queue[head]? with
    | none => simp
    | some u =>
      simp only
      cases m.RowView u with
      | none => simp
      | some row =>
        simp only
        cases visitRow u row visited queue with
        | none => simp
        | some s => exact ih _ _ _

theorem outerLoop_eq_groups (N : Nat) (m : CSR) : ∀ (is : List Nat) (v : List Bool) (c : Nat)
    (g : List (List Nat)),
    outerLoop N m is v c = (outerLoopGroups N m is v c g).map fun s => (s.1, s.2.1)
  | [], v, c, g => by simp [outerLoop, outerLoopGroups]
  | i :: is, v, c, g => by
    simp only [outerLoop, outerLoopGroups]
    cases v[i]? with
    | none => simp
    | some b =>
      cases b with
      | true => exact outerLoop_eq_groups N m is _ _ _
      | false =>
        simp only
        cases m.At i i with
        | none => simp
        | some d =>
          simp only
          by_cases hd : d > 0
          · simp only [hd, if_true]
            exact outerLoop_eq_groups N m is _ _ _
          · simp only [hd, if_false, bfsLoop_eq_queue]
            cases bfsLoopQueue m N 0 [i] (v.set i true) with
            | none => simp
            | some s => exact outerLoop_eq_groups N m is _ _ _

/-- What one row adds to the queue: distinct nodes, none of them marked
before, and exactly they become marked. -/
theorem visitRow_fresh (u : Nat) : ∀ (row : List (Nat × Nat)) (visited : List Bool)
    (queue : List Nat) (v1 : List Bool) (q1 : List Nat),
    visitRow u row visited queue = some (v1, q1) →
    ∃ added, q1 = queue ++ added ∧ added.Nodup ∧ (∀ j ∈ added, ¬ vis visited j) ∧
      ∀ k, vis v1 k ↔ vis visited k ∨ k ∈ added
  | [], visited, queue, v1, q1, h => by
    simp only [visitRow, Option.some.injEq, Prod.mk.injEq] at h
    obtain ⟨rfl, rfl⟩ := h
    exact ⟨[], by simp, List.nodup_nil, by simp, by simp⟩
  | (j, x) :: es, visited, queue, v1, q1, h => by
    rw [visitRow] at h
    by_cases hju : j = u
    · simp only [hju, if_true] at h
      exact visitRow_fresh u es visited queue v1 q1 h
    · simp only [hju, if_false] at h
      cases hb : visited[j]? with
      | none => simp [hb] at h
      | some b =>
        cases b with
        | true =>
          simp only [hb] at h
          exact visitRow_fresh u es visited queue v1 q1 h
        | false =>
          simp only [hb] at h
          have hjl : j < visited.length := by
            by_contra hn
            rw [List.getElem?_eq_none (by omega)] at hb
            cases hb
          obtain ⟨added, h1, h2, h3, h4⟩ :=
            visitRow_fresh u es (visited.set j true) (queue ++ [j]) v1 q1 h
          have hjv : ¬ vis visited j := by unfold vis; rw [hb]; simp
          refine ⟨j :: added, by simp [h1], ?_, ?_, ?_⟩
          · rw [List.nodup_cons]
            refine ⟨fun hmem => ?_, h2⟩
            exact h3 j hmem ((vis_set _ _ _ hjl).mpr (Or.inr rfl))
          · intro k hk
            simp only [List.mem_cons] at hk
            rcases hk with rfl | hk
            · exact hjv
            · exact fun hv => h3 k hk ((vis_set _ _ _ hjl).mpr (Or.inl hv))
          · intro k
            rw [h4 k, vis_set _ _ _ hjl, List.mem_cons]
            tauto

/-- The queue of one traversal never holds a node twice, holds only nodes
that were unmarked when the traversal started, and on exit exactly the old
marks and the queue are marked. -/
theorem bfsLoopQueue_fresh (m : CSR) (V0 : List Bool) : ∀ (fuel head : Nat)
    (queue : List Nat) (visited v1 : List Bool) (q1 : List Nat),
    bfsLoopQueue m fuel head queue visited = some (v1, q1) →
    queue.Nodup → (∀ x ∈ queue, ¬ vis V0 x) → (∀ j, vis visited j ↔ vis V0 j ∨ j ∈ queue) →
    q1.Nodup ∧ (∀ x ∈ q1, ¬ vis V0 x) ∧ (∀ j, vis v1 j ↔ vis V0 j ∨ j ∈ q1) := by
  intro fuel
  induction fuel with
  | zero =>
    intro head queue visited v1 q1 h hn hf hmk
    rw [bfsLoopQueue] at h
    cases hq : queue[head]? with
    | none =>
      simp only [hq, Option.some.injEq, Prod.mk.injEq] at h
      obtain ⟨rfl, rfl⟩ := h
      exact ⟨hn, hf, hmk⟩
    | some u => simp [hq] at h
  | succ fuel ih =>
    intro head queue visited v1 q1 h hn hf hmk
    rw [bfsLoopQueue] at h
    cases hq : queue[head]? with
    | none =>
      simp only [hq, Option.some.injEq, Prod.mk.injEq] at h
      obtain ⟨rfl, rfl⟩ := h
      exact ⟨hn, hf, hmk⟩
    | some u =>
      simp only [hq] at h
      cases hr : m.RowView u with
      | none => simp [hr] at h
      | some row =>
        simp only [hr] at h
        cases hv : visitRow u row visited queue with
        | none => simp [hv] at h
        | some s =>
          obtain ⟨v2, q2⟩ := s
          simp only [hv] at h
          obtain ⟨added, h1, h2, h3, h4⟩ := visitRow_fresh u row visited queue v2 q2 hv
          subst h1
          refine ih (head + 1) (queue ++ added) v2 v1 q1 h ?_ ?_ ?_
          · rw [List.nodup_append]
            refine ⟨hn, h2, fun x hx hx2 => ?_⟩
            exact h3 x hx2 ((hmk x).mpr (Or.inr hx))
          · intro x hx
            rcases List.mem_append.mp hx with hx | hx
            · exact hf x hx
            · exact fun hv0 => h3 x hx ((hmk x).mpr (Or.inl hv0))
          · intro j
            rw [h4 j, hmk j, List.mem_append]
            tauto

theorem outerLoopGroups_spec (N : Nat) (m : CSR) : ∀ (is : List Nat) (v : List Bool)
    (c : Nat) (g : List (List Nat)) (v1 : List Bool) (c1 : Nat) (g1 : List (List Nat)),
    outerLoopGroups N m is v c g = some (v1, c1, g1) →
    g.flatten.Nodup → (∀ j, vis v j ↔ j ∈ g.flatten) → c = g.length →
    g1.flatten.Nodup ∧ (∀ j, vis v1 j ↔ j ∈ g1.flatten) ∧ c1 = g1.length
  | [], v, c, g, v1, c1, g1, h, hn, hmk, hc => by
    simp only [outerLoopGroups, Option.some.injEq, Prod.mk.injEq] at h
    obtain ⟨rfl, rfl, rfl⟩ := h
    exact ⟨hn, hmk, hc⟩
  | i :: is, v, c, g, v1, c1, g1, h, hn, hmk, hc => by
    rw [outerLoopGroups] at h
    cases hb : v[i]? with
    | none => simp [hb] at h
    | some b =>
      cases b with
      | true =>
        simp only [hb] at h
        exact outerLoopGroups_spec N m is v c g v1 c1 g1 h hn hmk hc
      | false =>
        simp only [hb] at h
        have hil : i < v.length := by
          by_contra hn2
          rw [List.getElem?_eq_none (by omega)] at hb
          cases hb
        have hiv : ¬ vis v i := by unfold vis; rw [hb]; simp
        cases ha : m.At i i with
        | none => simp [ha] at h
        | some d =>
          simp only [ha] at h
          by_cases hd : d > 0
          · simp only [hd, if_true] at h
            refine outerLoopGroups_spec N m is _ _ _ v1 c1 g1 h ?_ ?_ ?_
            · rw [List.flatten_append, List.nodup_append]
              refine ⟨hn, by simp, fun x hx hx2 => ?_⟩
              simp only [List.flatten_cons, List.flatten_nil, List.append_nil,
                List.mem_singleton] at hx2
              subst hx2
              exact hiv ((hmk x).mpr hx)
            · intro j
              rw [vis_set _ _ _ hil, hmk j, List.flatten_append]
              simp
            · simp [hc]
          · simp only [hd, if_false] at h
            cases hq : bfsLoopQueue m N 0 [i] (v.set i true) with
            | none => simp [hq] at h
            | some s =>
              obtain ⟨v2, q2⟩ := s
              simp only [hq] at h
              obtain ⟨k1, k2, k3⟩ := bfsLoopQueue_fresh m v N 0 [i] (v.set i true) v2 q2 hq
                (List.nodup_singleton i) (by simpa using hiv) (by
                  intro j
                  rw [vis_set _ _ _ hil]; simp)
              refine outerLoopGroups_spec N m is _ _ _ v1 c1 g1 h ?_ ?_ ?_
              · rw [List.flatten_append, List.nodup_append]
                refine ⟨hn, by simpa using k1, fun x hx hx2 => ?_⟩
                simp only [List.flatten_cons, List.flatten_nil, List.append_nil] at hx2
                exact k2 x hx2 ((hmk x).mpr hx)
              · intro j
                rw [k3 j, hmk j, List.flatten_append]
                simp
              · simp [hc]

/-- The run of `countLoops` on an `N × N` matrix: it returns, the count is
the number of groups, every node below `N` is in exactly one group, and all
nodes are marked on return. -/
theorem countLoops_groups {m : CSR} {N : Nat} (hm : m.InRange N) :
    ∃ v c groups,
      outerLoopGroups N m (List.range N) (List.replicate N false) 0 [] = some (v, c, groups) ∧
      countLoops N m = some c ∧ c = groups.length ∧
      groups.flatten.Perm (List.range N) ∧ (∀ g ∈ groups, g.Nodup ∧ g.length ≤ N) ∧
      ∀ i, i < N → vis v i := by
  obtain ⟨v, c, h1, h2, _, _, _, h6⟩ := outerLoop_bounds hm (List.range N)
    (fun i hi => List.mem_range.mp hi) (List.replicate N false) 0 (by simp)
  have h7 := outerLoop_eq_groups N m (List.range N) (List.replicate N false) 0 []
  rw [h1] at h7
  obtain ⟨s, hs1, hs2⟩ := Option.map_eq_some'.mp h7.symm
  obtain ⟨v2, c2, g⟩ := s
  simp only [Prod.mk.injEq] at hs2
  obtain ⟨rfl, rfl⟩ := hs2
  obtain ⟨k1, k2, k3⟩ := outerLoopGroups_spec N m (List.range N) (List.replicate N false) 0 []
    v2 c2 g hs1 (by simp) (fun j => by simpa using replicate_not_vis N j) (by simp)
  have hperm : g.flatten.Perm (List.range N) := by
    rw [List.perm_ext_iff_of_nodup k1 (List.nodup_range N)]
    intro a
    rw [← k2 a, List.mem_range]
    constructor
    · intro ha
      have := vis_lt ha
      omega
    · intro ha
      exact h6 a (List.mem_range.mpr ha)
  refine ⟨v2, c2, g, hs1, by simp [countLoops, h1], k3, hperm, ?_, fun i hi =>
    h6 i (List.mem_range.mpr hi)⟩
  intro grp hg
  have hsub := List.sublist_flatten_of_mem hg
  refine ⟨hsub.nodup k1, ?_⟩
  have := hsub.length_le
  rw [hperm.length_eq, List.length_range] at this
  exact this

/-! ## The frequency table of `plotHistogram` -/

theorem rowSet_keys (row : List (Nat × Nat)) (n v : Nat) :
    (rowSet row n v).map Prod.fst =
      if n ∈ row.map Prod.fst then row.map Prod.fst else row.map Prod.fst ++ [n] := by
  induction row with
  | nil => simp [rowSet]
  | cons e es ih =>
    obtain ⟨c, x⟩ := e
    by_cases hc : c = n
    · subst hc
      simp [rowSet]
    · have hnc : ¬ n = c := fun h => hc h.symm
      simp only [rowSet, hc, if_false, List.map_cons, ih, List.mem_cons, hnc, false_or]
      split_ifs <;> simp

theorem rowAt_of_mem {es : List (Nat × Nat)} (hn : (es.map Prod.fst).Nodup) {k v : Nat}
    (h : (k, v) ∈ es) : rowAt es k = v := by
  induction es with
  | nil => simp at h
  | cons e es ih =>
    obtain ⟨c, x⟩ := e
    simp only [List.map_cons, List.nodup_cons] at hn
    simp only [List.mem_cons, Prod.mk.injEq] at h
    rcases h with ⟨rfl, rfl⟩ | h
    · simp [rowAt]
    · have hck : ¬ c = k := by
        rintro rfl
        exact hn.1 (List.mem_map.mpr ⟨(c, v), h, rfl⟩)
      simp only [rowAt, hck, if_false]
      exact ih hn.2 h

theorem mem_of_key {es : List (Nat × Nat)} {k : Nat} (h : k ∈ es.map Prod.fst) :
    (k, rowAt es k) ∈ es := by
  induction es with
  | nil => simp at h
  | cons e es ih =>
    obtain ⟨c, x⟩ := e
    by_cases hc : c = k
    · subst hc; simp [rowAt]
    · have hkc : ¬ k = c := fun e => hc e.symm
      simp only [List.map_cons, List.mem_cons, hkc, false_or] at h
      simp only [rowAt, hc, if_false, List.mem_cons, Prod.mk.injEq, hkc, false_and, false_or]
      exact ih h

theorem rowAt_perm {es fs : List (Nat × Nat)} (hp : es.Perm fs)
    (hn : (fs.map Prod.fst).Nodup) (k : Nat) : rowAt es k = rowAt fs k := by
  have hn2 : (es.map Prod.fst).Nodup := (hp.map Prod.fst).nodup_iff.mpr hn
  by_cases hk : k ∈ es.map Prod.fst
  · exact (rowAt_of_mem hn (hp.mem_iff.mp (mem_of_key hk))).symm
  · have hk2 : k ∉ fs.map Prod.fst := fun h => hk ((hp.map Prod.fst).mem_iff.mpr h)
    have key : ∀ (l : List (Nat × Nat)), k ∉ l.map Prod.fst → rowAt l k = 0 := by
      intro l hl
      induction l with
      | nil => rfl
      | cons e l ih =>
        obtain ⟨c, x⟩ := e
        simp only [List.map_cons, List.mem_cons, not_or] at hl
        have : ¬ c = k := fun e => hl.1 e.symm
        simp only [rowAt, this, if_false]
        exact ih hl.2
    rw [key es hk, key fs hk2]

theorem countFreq_spec : ∀ (data : List Nat) (freq : List (Nat × Nat)) (mv : Nat),
    (∀ k, mapGet (countFreq data freq mv).1 k
      = mapGet freq k + if k = 0 then 0 else data.count k) ∧
    (countFreq data freq mv).2 = max mv (data.foldr max 0) ∧
    ((freq.map Prod.fst).Nodup → ((countFreq data freq mv).1.map Prod.fst).Nodup) ∧
    ∀ k, k ∈ (countFreq data freq mv).1.map Prod.fst ↔
      k ∈ freq.map Prod.fst ∨ (k ≠ 0 ∧ k ∈ data)
  | [], freq, mv => by simp [countFreq]
  | v :: data, freq, mv => by
    by_cases hv : v = 0
    · subst hv
      obtain ⟨h1, h2, h3, h4⟩ := countFreq_spec data freq mv
      simp only [countFreq, if_true]
      refine ⟨fun k => ?_, ?_, h3, fun k => ?_⟩
      · rw [h1 k]
        by_cases hk : k = 0
        · simp [hk]
        · have : ¬ 0 = k := fun e => hk e.symm
          simp [hk, List.count_cons, this]
      · rw [h2]; simp
      · rw [h4 k]
        constructor
        · rintro (h | ⟨ha, hb⟩)
          · exact Or.inl h
          · exact Or.inr ⟨ha, List.mem_cons_of_mem _ hb⟩
        · rintro (h | ⟨ha, hb⟩)
          · exact Or.inl h
          · rcases List.mem_cons.mp hb with hb | hb
            · exact absurd hb ha
            · exact Or.inr ⟨ha, hb⟩
    · obtain ⟨h1, h2, h3, h4⟩ :=
        countFreq_spec data (mapIncr freq v) (if v > mv then v else mv)
      simp only [countFreq, hv, if_false]
      have hkeys := rowSet_keys freq v (mapGet freq v + 1)
      refine ⟨fun k => ?_, ?_, fun hn => h3 ?_, fun k => ?_⟩
      · rw [h1 k]
        simp only [mapGet, mapIncr, rowAt_rowSet]
        by_cases hk : k = v
        · subst hk
          simp [hv, List.count_cons]
          omega
        · have hvk : ¬ v = k := fun e => hk e.symm
          simp [hk, List.count_cons, hvk]
      · rw [h2]
        simp only [List.foldr_cons]
        split_ifs <;> omega
      · unfold mapIncr
        rw [hkeys]
        split_ifs with hm
        · exact hn
        · rw [List.nodup_append]
          refine ⟨hn, List.nodup_singleton v, fun x hx hx2 => ?_⟩
          simp only [List.mem_singleton] at hx2
          subst hx2
          exact hm hx
      · rw [h4 k]
        unfold mapIncr
        rw [hkeys]
        constructor
        · rintro (h | ⟨ha, hb⟩)
          · split_ifs at h with hm
            · exact Or.inl h
            · rcases List.mem_append.mp h with h | h
              · exact Or.inl h
              · simp only [List.mem_singleton] at h
                subst h
                exact Or.inr ⟨hv, List.mem_cons_self _ _⟩
          · exact Or.inr ⟨ha, List.mem_cons_of_mem _ hb⟩
        · rintro (h | ⟨ha, hb⟩)
          · left
            split_ifs
            · exact h
            · exact List.mem_append.mpr (Or.inl h)
          · rcases List.mem_cons.mp hb with hb | hb
            · subst hb
              left
              split_ifs with hm
              · exact hm
              · simp
            · exact Or.inr ⟨ha, hb⟩

theorem fillHist_spec : ∀ (es : List (Nat × Nat)) (hist : List Nat),
    (∀ e ∈ es, e.1 < hist.length) → (es.map Prod.fst).Nodup →
    ∃ h1, fillHist es hist = some h1 ∧ h1.length = hist.length ∧
      ∀ k, h1[k]? = if k ∈ es.map Prod.fst then some (rowAt es k) else hist[k]?
  | [], hist, _, _ => ⟨hist, rfl, rfl, by simp⟩
  | (k0, v0) :: es, hist, hb, hn => by
    have hk0 : k0 < hist.length := hb (k0, v0) (by simp)
    simp only [List.map_cons, List.nodup_cons] at hn
    obtain ⟨h1, e1, e2, e3⟩ := fillHist_spec es (hist.set k0 v0)
      (fun e he => by simpa using hb e (by simp [he])) hn.2
    refine ⟨h1, by simp [fillHist, hk0, e1], by simpa using e2, fun k => ?_⟩
    rw [e3 k]
    by_cases hk : k = k0
    · subst hk
      simp [hn.1, rowAt, List.getElem?_set, hk0]
    · have hk2 : ¬ k0 = k := fun e => hk e.symm
      simp only [List.map_cons, List.mem_cons, hk, false_or, rowAt, hk2, if_false,
        List.getElem?_set]

theorem le_foldr_max {data : List Nat} {k : Nat} (h : k ∈ data) : k ≤ data.foldr max 0 := by
  induction data with
  | nil => simp at h
  | cons v d ih =>
    simp only [List.foldr_cons]
    rcases List.mem_cons.mp h with h | h
    · subst h; exact le_max_left _ _
    · exact le_trans (ih h) (le_max_right _ _)

theorem foldr_max_pos (data : List Nat) : 1 ≤ data.foldr max 0 ↔ ∃ v ∈ data, 0 < v := by
  induction data with
  | nil => simp
  | cons v d ih =>
    simp only [List.foldr_cons, List.mem_cons, exists_eq_or_imp]
    rw [← ih]
    omega

/-- The table built by `plotHistogram`, whatever the order in which the map
is visited: length `maxVal + 1`, and entry `k` is the number of entries of
`data` equal to `k`, except entry `0`, which stays `0`. -/
theorem histogram_spec (order : List (Nat × Nat) → List (Nat × Nat))
    (ho : ∀ l, (order l).Perm l) (data : List Nat) :
    ∃ hist, histogram order data = some hist ∧
      (countFreq data [] 0).2 = data.foldr max 0 ∧
      hist.length = data.foldr max 0 + 1 ∧
      ∀ k, k ≤ data.foldr max 0 → hist[k]? = some (if k = 0 then 0 else data.count k) := by
  obtain ⟨c1, c2, c3, c4⟩ := countFreq_spec data [] 0
  have hmv : (countFreq data [] 0).2 = data.foldr max 0 := by rw [c2]; simp
  have hnd := c3 (by simp)
  have hp := ho (countFreq data [] 0).1
  have hnd2 : ((order (countFreq data [] 0).1).map Prod.fst).Nodup :=
    (hp.map Prod.fst).nodup_iff.mpr hnd
  have hkey : ∀ k, k ∈ (order (countFreq data [] 0).1).map Prod.fst ↔ k ≠ 0 ∧ k ∈ data := by
    intro k
    rw [(hp.map Prod.fst).mem_iff, c4 k]
    simp
  obtain ⟨h1, e1, e2, e3⟩ := fillHist_spec (order (countFreq data [] 0).1)
    (List.replicate ((countFreq data [] 0).2 + 1) 0) (by
      intro e he
      have hk : e.1 ∈ (order (countFreq data [] 0).1).map Prod.fst :=
        List.mem_map.mpr ⟨e, he, rfl⟩
      have := le_foldr_max ((hkey e.1).mp hk).2
      rw [List.length_replicate, hmv]
      omega) hnd2
  refine ⟨h1, by simp only [histogram]; exact e1, hmv, by
    rw [e2, List.length_replicate, hmv], fun k hk => ?_⟩
  rw [e3 k, rowAt_perm hp hnd k]
  have hget := c1 k
  simp only [mapGet, rowAt, Nat.zero_add] at hget
  by_cases h0 : k = 0
  · subst h0
    have : ¬ (0 ∈ (order (countFreq data [] 0).1).map Prod.fst) := fun h => ((hkey 0).mp h).1 rfl
    simp [this, List.getElem?_replicate]
  · by_cases hmem : k ∈ data
    · rw [if_pos ((hkey k).mpr ⟨h0, hmem⟩), hget]
    · have : ¬ (k ∈ (order (countFreq data [] 0).1).map Prod.fst) := fun h => hmem ((hkey k).mp h).2
      rw [if_neg this, List.getElem?_replicate, hmv, if_pos (by omega), if_neg h0,
        List.count_eq_zero_of_not_mem hmem]

theorem sum_map_range (f : Nat → Nat) (n : Nat) :
    ((List.range n).map f).sum = ∑ k ∈ Finset.range n, f k := by
  induction n with
  | zero => simp
  | succ n ih => rw [List.range_succ, List.map_append, List.sum_append, ih,
      Finset.sum_range_succ]; simp

theorem sum_counts (M : Nat) : ∀ (data : List Nat), (∀ v ∈ data, v ≤ M) →
    ∑ k ∈ Finset.range (M + 1), (if k = 0 then 0 else data.count k)
      = (data.filter fun v => decide (v ≠ 0)).length
  | [], _ => by simp
  | v :: data, h => by
    have ih := sum_counts M data (fun x hx => h x (by simp [hx]))
    have hv : v ≤ M := h v (by simp)
    have hsplit : ∀ k, (if k = 0 then 0 else (v :: data).count k)
        = (if k = 0 then 0 else data.count k) + (if v = k then (if v = 0 then 0 else 1) else 0) := by
      intro k
      by_cases hk : k = 0
      · subst hk
        by_cases hv0 : v = 0 <;> simp [hv0]
      · by_cases hvk : v = k
        · subst hvk
          simp [hk, List.count_cons]
        · simp [hk, hvk, List.count_cons]
    rw [Finset.sum_congr rfl (fun k _ => hsplit k), Finset.sum_add_distrib, ih,
      Finset.sum_ite_eq]
    have hmem : v ∈ Finset.range (M + 1) := Finset.mem_range.mpr (by omega)
    by_cases hv0 : v = 0
    · simp [hv0]
    · simp [hmem, hv0, List.filter_cons]

theorem histogram_sum (order : List (Nat × Nat) → List (Nat × Nat))
    (ho : ∀ l, (order l).Perm l) (data : List Nat) {hist : List Nat}
    (h : histogram order data = some hist) :
    hist.sum = (data.filter fun v => decide (v ≠ 0)).length := by
  obtain ⟨h1, e1, _, e3, e4⟩ := histogram_spec order ho data
  rw [h] at e1
  cases e1
  have heq : hist = (List.range (data.foldr max 0 + 1)).map
      fun k => if k = 0 then 0 else data.count k := by
    apply List.ext_getElem?
    intro k
    by_cases hk : k ≤ data.foldr max 0
    · rw [e4 k hk, List.getElem?_map, List.getElem?_range (by omega)]
      rfl
    · rw [List.getElem?_eq_none (by omega), List.getElem?_eq_none (by simp; omega)]
  rw [heq, sum_map_range]
  exact sum_counts _ data (fun v hv => le_foldr_max hv)

/-! ## `makeXLabels` and the slices of `plotHistogram` -/

theorem labelLoop_spec : ∀ (is : List Nat) (labels : List String),
    (labelLoop is labels).length = labels.length ∧
    ∀ k, (labelLoop is labels)[k]? =
      if k ∈ is ∧ k < labels.length then some (Nat.repr k) else labels[k]?
  | [], labels => by simp [labelLoop]
  | i :: is, labels => by
    obtain ⟨h1, h2⟩ := labelLoop_spec is (labels.set i (Nat.repr i))
    refine ⟨by simpa [labelLoop] using h1, fun k => ?_⟩
    simp only [labelLoop]
    rw [h2 k]
    simp only [List.length_set, List.mem_cons, List.getElem?_set]
    by_cases hk : k ∈ is ∧ k < labels.length
    · simp [hk]
    · by_cases hik : i = k
      · subst hik
        by_cases hl : i < labels.length
        · simp [hk, hl]
        · simp [hl, List.getElem?_eq_none (Nat.le_of_not_lt hl)]
      · have hki : ¬ k = i := fun e => hik e.symm
        simp [hk, hik, hki]

theorem makeXLabels_eq (n : Nat) : makeXLabels n = (List.range n).map Nat.repr := by
  obtain ⟨h1, h2⟩ := labelLoop_spec (List.range n) (List.replicate n "")
  apply List.ext_getElem?
  intro k
  unfold makeXLabels
  rw [h2 k]
  by_cases hk : k < n
  · simp [hk, List.getElem?_range]
  · rw [if_neg (fun h => hk (List.mem_range.mp h.1)),
      List.getElem?_eq_none (by simp; omega), List.getElem?_eq_none (by simp; omega)]

theorem plotHistogram_isSome (order : List (Nat × Nat) → List (Nat × Nat))
    (ho : ∀ l, (order l).Perm l) (data : List Nat) :
    (plotHistogram order data).isSome ↔ ∃ v ∈ data, 0 < v := by
  obtain ⟨hist, e1, _, e3, _⟩ := histogram_spec order ho data
  rw [← foldr_max_pos]
  have hb : sliceFromOne hist = some (hist.drop 1) := by
    simp [sliceFromOne, e3]
  simp only [plotHistogram, e1, Option.some_bind, hb, e3, Nat.add_sub_cancel]
  by_cases hm : 1 ≤ data.foldr max 0
  · simp [sliceFromOne, makeXLabels_eq, hm]
  · simp [sliceFromOne, makeXLabels_eq, hm]

/-! ## Adding one edge to a graph -/

theorem reachable_add_edge {V : Type} {G G1 : SimpleGraph V} {u v : V}
    (hadj : ∀ p q, G1.Adj p q ↔ G.Adj p q ∨ (p ≠ q ∧ ((p = u ∧ q = v) ∨ (p = v ∧ q = u))))
    (x y : V) :
    G1.Reachable x y ↔ G.Reachable x y ∨ (G.Reachable x u ∧ G.Reachable v y) ∨
      (G.Reachable x v ∧ G.Reachable u y) := by
  have hle : ∀ p q, G.Reachable p q → G1.Reachable p q := by
    intro p q h
    rw [SimpleGraph.reachable_iff_reflTransGen] at h ⊢
    exact Relation.ReflTransGen.mono (fun a b hab => (hadj a b).mpr (Or.inl hab)) h
  have huv : G1.Reachable u v := by
    by_cases h : u = v
    · rw [h]
    · exact SimpleGraph.Adj.reachable ((hadj u v).mpr (Or.inr ⟨h, Or.inl ⟨rfl, rfl⟩⟩))
  constructor
  · intro h
    rw [SimpleGraph.reachable_iff_reflTransGen] at h
    induction h with
    | refl => exact Or.inl (SimpleGraph.Reachable.refl _)
    | @tail b c _ hbc ih =>
      rcases (hadj b c).mp hbc with hG | ⟨_, ⟨rfl, rfl⟩ | ⟨rfl, rfl⟩⟩
      · rcases ih with h1 | ⟨h1, h2⟩ | ⟨h1, h2⟩
        · exact Or.inl (h1.trans hG.reachable)
        · exact Or.inr (Or.inl ⟨h1, h2.trans hG.reachable⟩)
        · exact Or.inr (Or.inr ⟨h1, h2.trans hG.reachable⟩)
      · rcases ih with h1 | ⟨h1, _⟩ | ⟨h1, _⟩
        · exact Or.inr (Or.inl ⟨h1, SimpleGraph.Reachable.refl _⟩)
        · exact Or.inr (Or.inl ⟨h1, SimpleGraph.Reachable.refl _⟩)
        · exact Or.inl h1
      · rcases ih with h1 | ⟨h1, _⟩ | ⟨h1, _⟩
        · exact Or.inr (Or.inr ⟨h1, SimpleGraph.Reachable.refl _⟩)
        · exact Or.inl h1
        · exact Or.inr (Or.inr ⟨h1, SimpleGraph.Reachable.refl _⟩)
  · rintro (h | ⟨h1, h2⟩ | ⟨h1, h2⟩)
    · exact hle _ _ h
    · exact ((hle _ _ h1).trans huv).trans (hle _ _ h2)
    · exact ((hle _ _ h1).trans huv.symm).trans (hle _ _ h2)

theorem card_components_add_edge_of_reachable {V : Type} {G G1 : SimpleGraph V} {u v : V}
    (hadj : ∀ p q, G1.Adj p q ↔ G.Adj p q ∨ (p ≠ q ∧ ((p = u ∧ q = v) ∨ (p = v ∧ q = u))))
    (h : G.Reachable u v) :
    Nat.card G1.ConnectedComponent = Nat.card G.ConnectedComponent := by
  have hrel : G1.Reachable = G.Reachable := by
    funext x y
    apply propext
    rw [reachable_add_edge hadj]
    constructor
    · rintro (h1 | ⟨h1, h2⟩ | ⟨h1, h2⟩)
      · exact h1
      · exact (h1.trans h).trans h2
      · exact (h1.trans h.symm).trans h2
    · exact fun h1 => Or.inl h1
  show Nat.card (Quot G1.Reachable) = Nat.card (Quot G.Reachable)
  rw [hrel]

theorem card_components_add_edge_of_not_reachable {V : Type} [Finite V]
    {G G1 : SimpleGraph V} {u v : V}
    (hadj : ∀ p q, G1.Adj p q ↔ G.Adj p q ∨ (p ≠ q ∧ ((p = u ∧ q = v) ∨ (p = v ∧ q = u))))
    (h : ¬ G.Reachable u v) :
    Nat.card G1.ConnectedComponent + 1 = Nat.card G.ConnectedComponent := by
  have hR := reachable_add_edge hadj
  have hwd : ∀ a b, G.Reachable a b →
      G1.connectedComponentMk a = G1.connectedComponentMk b := by
    intro a b hab
    exact SimpleGraph.ConnectedComponent.eq.mpr ((hR a b).mpr (Or.inl hab))
  have hinj : Set.InjOn (Quot.lift G1.connectedComponentMk hwd)
      (Set.univ \ {G.connectedComponentMk v}) := by
    intro c hc d hd hcd
    induction c using SimpleGraph.ConnectedComponent.ind with
    | _ x =>
      induction d using SimpleGraph.ConnectedComponent.ind with
      | _ y =>
        have hxy : G1.Reachable x y := SimpleGraph.ConnectedComponent.eq.mp hcd
        simp only [Set.mem_diff, Set.mem_univ, Set.mem_singleton_iff, true_and] at hc hd
        rcases (hR x y).mp hxy with h1 | ⟨_, h2⟩ | ⟨h1, _⟩
        · exact SimpleGraph.ConnectedComponent.eq.mpr h1
        · exact absurd (SimpleGraph.ConnectedComponent.eq.mpr h2.symm) hd
        · exact absurd (SimpleGraph.ConnectedComponent.eq.mpr h1) hc
  have himg : Quot.lift G1.connectedComponentMk hwd ''
      (Set.univ \ {G.connectedComponentMk v}) = Set.univ := by
    ext c
    simp only [Set.mem_image, Set.mem_diff, Set.mem_univ, Set.mem_singleton_iff, true_and,
      iff_true]
    induction c using SimpleGraph.ConnectedComponent.ind with
    | _ y =>
      by_cases hy : G.Reachable y v
      · refine ⟨G.connectedComponentMk u, ?_, ?_⟩
        · rw [SimpleGraph.ConnectedComponent.eq]; exact h
        · show G1.connectedComponentMk u = G1.connectedComponentMk y
          rw [SimpleGraph.ConnectedComponent.eq]
          exact (hR u y).mpr (Or.inr (Or.inl ⟨SimpleGraph.Reachable.refl _, hy.symm⟩))
      · refine ⟨G.connectedComponentMk y, ?_, rfl⟩
        rw [SimpleGraph.ConnectedComponent.eq]; exact hy
  have h1 := Set.ncard_image_of_injOn hinj
  rw [himg, Set.ncard_univ] at h1
  rw [h1, Set.ncard_diff_singleton_add_one (Set.mem_univ _) (Set.toFinite _), Set.ncard_univ]
  rfl

/-! ## Counting permutations with one value prescribed by the earlier ones -/

theorem card_fin_ge {n : Nat} (j : Fin n) :
    Fintype.card { q : Fin n // j ≤ q } = n - j := by
  rw [Fintype.card_subtype]
  have : (Finset.univ.filter fun q : Fin n => j ≤ q) = Finset.Ici j := by
    ext q; simp
  rw [this, Fin.card_Ici]

theorem card_swap_front {n : Nat} (j : Fin n) (g : Equiv.Perm (Fin n) → Fin n)
    (hpos : ∀ σ : Equiv.Perm (Fin n), j ≤ σ.symm (g σ))
    (hdep : ∀ (σ : Equiv.Perm (Fin n)) (q : Fin n), j ≤ q → g (σ * Equiv.swap j q) = g σ) :
    (Finset.univ.filter fun σ : Equiv.Perm (Fin n) => σ j = g σ).card * (n - j)
      = n.factorial := by
  have e : Equiv.Perm (Fin n) ≃
      { σ : Equiv.Perm (Fin n) // σ j = g σ } × { q : Fin n // j ≤ q } :=
    { toFun := fun σ =>
        (⟨σ * Equiv.swap j (σ.symm (g σ)), by
            rw [hdep σ _ (hpos σ), Equiv.Perm.mul_apply, Equiv.swap_apply_left,
              Equiv.apply_symm_apply]⟩,
          ⟨σ.symm (g σ), hpos σ⟩)
      invFun := fun x => x.1.1 * Equiv.swap j x.2.1
      left_inv := by
        intro σ
        simp only
        rw [mul_assoc, Equiv.swap_mul_self, mul_one]
      right_inv := by
        rintro ⟨⟨σ, hσ⟩, ⟨q, hq⟩⟩
        have h1 : g (σ * Equiv.swap j q) = σ j := by rw [hdep σ q hq, hσ]
        have h2 : (σ * Equiv.swap j q).symm (σ j) = q := by
          rw [Equiv.symm_apply_eq, Equiv.Perm.mul_apply, Equiv.swap_apply_right]
        simp only [h1, h2, mul_assoc, Equiv.swap_mul_self, mul_one] }
  have hc := Fintype.card_congr e
  rw [Fintype.card_prod, Fintype.card_perm, Fintype.card_fin, card_fin_ge,
    Fintype.card_subtype] at hc
  exact hc.symm

/-! ## The free ends of the chains -/

theorem chainStep_apply {α : Type} [DecidableEq α] (e : α → α) (a b : α) (hm : e a ≠ b)
    (x : α) : chainStep e a b x = if x = e b then e a else if x = e a then e b else e x := by
  simp only [chainStep, hm, if_false, Function.update_apply]

theorem chainStep_closed {α : Type} [DecidableEq α] (e : α → α) (a b : α) (hm : e a = b) :
    chainStep e a b = e := by
  simp only [chainStep, hm, if_true]

/-- The free-end map stays an involution without fixed point on the tokens
still unused. -/
theorem chainStep_involution {α : Type} [DecidableEq α] {U : α → Prop} {e : α → α}
    (H : ∀ x, U x → U (e x) ∧ e (e x) = x ∧ e x ≠ x) {a b : α} (ha : U a) (hb : U b)
    (hab : a ≠ b) (x : α) (hx : U x) (hxa : x ≠ a) (hxb : x ≠ b) :
    (U (chainStep e a b x) ∧ chainStep e a b x ≠ a ∧ chainStep e a b x ≠ b) ∧
      chainStep e a b (chainStep e a b x) = x ∧ chainStep e a b x ≠ x := by
  obtain ⟨hx1, hx2, hx3⟩ := H x hx
  obtain ⟨ha1, ha2, ha3⟩ := H a ha
  obtain ⟨hb1, hb2, hb3⟩ := H b hb
  by_cases hm : e a = b
  · have hba : e b = a := by rw [← hm, ha2]
    rw [chainStep_closed e a b hm]
    refine ⟨⟨hx1, ?_, ?_⟩, hx2, hx3⟩
    · intro h
      apply hxb
      rw [← hx2, h, hm]
    · intro h
      apply hxa
      rw [← hx2, h, hba]
  · have hne : e a ≠ e b := by
      intro h
      apply hab
      rw [← ha2, h, hb2]
    have hba : e b ≠ a := by
      intro h
      apply hm
      rw [← h, hb2]
    by_cases h1 : x = e b
    · subst h1
      have e1 : chainStep e a b (e b) = e a := by
        rw [chainStep_apply e a b hm]; simp
      have e2 : chainStep e a b (e a) = e b := by
        rw [chainStep_apply e a b hm]; simp [hne]
      rw [e1, e2]
      exact ⟨⟨ha1, ha3, hm⟩, rfl, hne⟩
    · by_cases h2 : x = e a
      · subst h2
        have e1 : chainStep e a b (e b) = e a := by
          rw [chainStep_apply e a b hm]; simp
        have e2 : chainStep e a b (e a) = e b := by
          rw [chainStep_apply e a b hm]; simp [hne]
        rw [e2, e1]
        exact ⟨⟨hb1, hba, hb3⟩, rfl, fun h => hne h.symm⟩
      · have e1 : chainStep e a b x = e x := by
          rw [chainStep_apply e a b hm]; simp [h1, h2]
        have n1 : e x ≠ e b := by
          intro h
          apply hxb
          rw [← hx2, h, hb2]
        have n2 : e x ≠ e a := by
          intro h
          apply hxa
          rw [← hx2, h, ha2]
        have e2 : chainStep e a b (e x) = e (e x) := by
          rw [chainStep_apply e a b hm]; simp [n1, n2]
        rw [e1, e2]
        refine ⟨⟨hx1, ?_, ?_⟩, hx2, hx3⟩
        · intro h
          apply h2
          rw [← hx2, h]
        · intro h
          apply h1
          rw [← hx2, h]

/-- Two unused tokens are connected exactly when they are the two free ends
of one chain, also after one more pair has been consumed. -/
theorem chainStep_reach {α β : Type} [DecidableEq α] {U : α → Prop} {e : α → α}
    (H : ∀ x, U x → U (e x) ∧ e (e x) = x ∧ e x ≠ x) {a b : α} (ha : U a) (hb : U b)
    (node : α → β) (R R1 : β → β → Prop)
    (hR1 : ∀ p q, R1 p q ↔ R p q ∨ (R p (node a) ∧ R (node b) q) ∨
      (R p (node b) ∧ R (node a) q))
    (H2 : ∀ x y, U x → U y → (R (node x) (node y) ↔ y = x ∨ y = e x))
    (x y : α) (hx : U x) (hxa : x ≠ a) (hxb : x ≠ b) (hy : U y) (hya : y ≠ a) (hyb : y ≠ b) :
    R1 (node x) (node y) ↔ y = x ∨ y = chainStep e a b x := by
  obtain ⟨hx1, hx2, hx3⟩ := H x hx
  obtain ⟨ha1, ha2, ha3⟩ := H a ha
  obtain ⟨hb1, hb2, hb3⟩ := H b hb
  have r1 : R (node x) (node a) ↔ x = e a := by
    rw [H2 x a hx ha]
    constructor
    · rintro (h | h)
      · exact absurd h.symm hxa
      · rw [h, hx2]
    · intro h
      right
      rw [h, ha2]
  have r2 : R (node b) (node y) ↔ y = e b := by
    rw [H2 b y hb hy]
    constructor
    · rintro (h | h)
      · exact absurd h hyb
      · exact h
    · exact fun h => Or.inr h
  have r3 : R (node x) (node b) ↔ x = e b := by
    rw [H2 x b hx hb]
    constructor
    · rintro (h | h)
      · exact absurd h.symm hxb
      · rw [h, hx2]
    · intro h
      right
      rw [h, hb2]
  have r4 : R (node a) (node y) ↔ y = e a := by
    rw [H2 a y ha hy]
    constructor
    · rintro (h | h)
      · exact absurd h hya
      · exact h
    · exact fun h => Or.inr h
  rw [hR1, r1, r2, r3, r4, H2 x y hx hy]
  by_cases hm : e a = b
  · have hba : e b = a := by rw [← hm, ha2]
    rw [chainStep_closed e a b hm]
    constructor
    · rintro (h | ⟨h, _⟩ | ⟨h, _⟩)
      · exact h
      · exact absurd (h.trans hm) hxb
      · exact absurd (h.trans hba) hxa
    · exact fun h => Or.inl h
  · rw [chainStep_apply e a b hm]
    by_cases h1 : x = e b
    · have hex : e x = b := by rw [h1, hb2]
      rw [if_pos h1]
      constructor
      · rintro (h | ⟨_, h⟩ | ⟨_, h⟩)
        · rcases h with h | h
          · exact Or.inl h
          · exact absurd (h.trans hex) hyb
        · exact Or.inl (h.trans h1.symm)
        · exact Or.inr h
      · rintro (h | h)
        · exact Or.inl (Or.inl h)
        · exact Or.inr (Or.inr ⟨h1, h⟩)
    · by_cases h2 : x = e a
      · have hex : e x = a := by rw [h2, ha2]
        rw [if_neg h1, if_pos h2]
        constructor
        · rintro (h | ⟨_, h⟩ | ⟨h3, _⟩)
          · rcases h with h | h
            · exact Or.inl h
            · exact absurd (h.trans hex) hya
          · exact Or.inr h
          · exact absurd h3 h1
        · rintro (h | h)
          · exact Or.inl (Or.inl h)
          · exact Or.inr (Or.inl ⟨h2, h⟩)
      · rw [if_neg h1, if_neg h2]
        constructor
        · rintro (h | ⟨h, _⟩ | ⟨h, _⟩)
          · exact h
          · exact absurd h h2
          · exact absurd h h1
        · exact fun h => Or.inl h

/-! ## The chains of a shuffle outcome -/

theorem pairIndex_slot {N : Nat} (σ : Equiv.Perm (Fin (2 * N))) (k : Fin N) (b : Bool) :
    pairIndex σ (σ (slot (k, b))) = k.val := by
  simp [pairIndex]

theorem eq_of_pairIndex {N : Nat} (σ : Equiv.Perm (Fin (2 * N))) (k : Fin N)
    (x : Fin (2 * N)) (h : pairIndex σ x = k.val) :
    x = σ (slot (k, false)) ∨ x = σ (slot (k, true)) := by
  have h1 : (slot.symm (σ.symm x)).1 = k := Fin.ext h
  have h2 : slot.symm (σ.symm x) = (k, (slot.symm (σ.symm x)).2) := by
    rw [← h1]
  have h3 : x = σ (slot (k, (slot.symm (σ.symm x)).2)) := by
    rw [← h2]; simp
  cases hb : (slot.symm (σ.symm x)).2
  · left; rw [hb] at h3; exact h3
  · right; rw [hb] at h3; exact h3

theorem tokenNode_eq_iff {N : Nat} (x y : Fin (2 * N)) :
    tokenNode x = tokenNode y ↔ y = x ∨ y = otherEnd x := by
  unfold tokenNode otherEnd
  constructor
  · intro h
    rcases same_pair h with h1 | h1
    · left
      exact slot.symm.injective h1
    · right
      rw [Equiv.permCongr_apply, ← h1]
      simp
  · rintro (h | h)
    · rw [h]
    · rw [h, Equiv.permCongr_apply]
      simp [flipSlot]

theorem pairGraph_zero_reachable {N : Nat} (σ : Equiv.Perm (Fin (2 * N))) (p q : Fin N) :
    (pairGraph σ 0).Reachable p q ↔ p = q := by
  constructor
  · intro h
    rw [SimpleGraph.reachable_iff_reflTransGen] at h
    induction h with
    | refl => rfl
    | tail _ hbc _ =>
      rw [pairGraph, SimpleGraph.fromRel_adj] at hbc
      rcases hbc.2 with ⟨k1, h1, _⟩ | ⟨k1, h1, _⟩ <;> exact absurd h1 (Nat.not_lt_zero _)
  · rintro rfl
    exact SimpleGraph.Reachable.refl _

theorem pairGraph_succ_adj {N : Nat} (σ : Equiv.Perm (Fin (2 * N))) (k : Nat) (h : k < N)
    (p q : Fin N) :
    (pairGraph σ (k + 1)).Adj p q ↔ (pairGraph σ k).Adj p q ∨
      (p ≠ q ∧ ((p = tokenNode (σ (slot (⟨k, h⟩, false))) ∧
          q = tokenNode (σ (slot (⟨k, h⟩, true)))) ∨
        (p = tokenNode (σ (slot (⟨k, h⟩, true))) ∧
          q = tokenNode (σ (slot (⟨k, h⟩, false)))))) := by
  simp only [pairGraph, SimpleGraph.fromRel_adj]
  constructor
  · rintro ⟨hne, ⟨k1, h1, h2, h3⟩ | ⟨k1, h1, h2, h3⟩⟩
    · by_cases hk : k1.val < k
      · exact Or.inl ⟨hne, Or.inl ⟨k1, hk, h2, h3⟩⟩
      · have : k1 = ⟨k, h⟩ := Fin.ext (by show k1.val = k; omega)
        subst this
        exact Or.inr ⟨hne, Or.inl ⟨h2.symm, h3.symm⟩⟩
    · by_cases hk : k1.val < k
      · exact Or.inl ⟨hne, Or.inr ⟨k1, hk, h2, h3⟩⟩
      · have : k1 = ⟨k, h⟩ := Fin.ext (by show k1.val = k; omega)
        subst this
        exact Or.inr ⟨hne, Or.inr ⟨h3.symm, h2.symm⟩⟩
  · rintro (⟨hne, ⟨k1, h1, h2, h3⟩ | ⟨k1, h1, h2, h3⟩⟩ | ⟨hne, ⟨h2, h3⟩ | ⟨h2, h3⟩⟩)
    · exact ⟨hne, Or.inl ⟨k1, by omega, h2, h3⟩⟩
    · exact ⟨hne, Or.inr ⟨k1, by omega, h2, h3⟩⟩
    · exact ⟨hne, Or.inl ⟨⟨k, h⟩, by simp, h2.symm, h3.symm⟩⟩
    · exact ⟨hne, Or.inr ⟨⟨k, h⟩, by simp, h3.symm, h2.symm⟩⟩

/-- The invariant of the chains: after `k` pairs the map `chainEnds σ k` is an
involution without fixed point on the tokens still unused, and two unused
tokens lie on connected nodes exactly when they are equal or the two free
ends of one chain. -/
theorem chainEnds_invariant {N : Nat} (σ : Equiv.Perm (Fin (2 * N))) : ∀ k, k ≤ N →
    (∀ x, k ≤ pairIndex σ x →
      k ≤ pairIndex σ (chainEnds σ k x) ∧ chainEnds σ k (chainEnds σ k x) = x ∧
        chainEnds σ k x ≠ x) ∧
    ∀ x y, k ≤ pairIndex σ x → k ≤ pairIndex σ y →
      ((pairGraph σ k).Reachable (tokenNode x) (tokenNode y) ↔ y = x ∨ y = chainEnds σ k x) := by
  intro k
  induction k with
  | zero =>
    intro _
    have hp := slot_partner_isPerfectMatching N
    refine ⟨fun x _ => ⟨Nat.zero_le _, hp.1 x, hp.2 x⟩, fun x y _ _ => ?_⟩
    rw [pairGraph_zero_reachable, tokenNode_eq_iff]
    rfl
  | succ k ih =>
    intro hk
    have hkN : k < N := by omega
    obtain ⟨I1, I2⟩ := ih (by omega)
    have hstep : chainEnds σ (k + 1) = chainStep (chainEnds σ k)
        (σ (slot (⟨k, hkN⟩, false))) (σ (slot (⟨k, hkN⟩, true))) := by
      simp only [chainEnds, hkN, dif_pos]
    have ha : k ≤ pairIndex σ (σ (slot (⟨k, hkN⟩, false))) := by
      rw [pairIndex_slot]
    have hb : k ≤ pairIndex σ (σ (slot (⟨k, hkN⟩, true))) := by
      rw [pairIndex_slot]
    have hab : σ (slot (⟨k, hkN⟩, false)) ≠ σ (slot (⟨k, hkN⟩, true)) := by
      intro h
      have := slot.injective (σ.injective h)
      simp at this
    have hsplit : ∀ x, k + 1 ≤ pairIndex σ x →
        k ≤ pairIndex σ x ∧ x ≠ σ (slot (⟨k, hkN⟩, false)) ∧
          x ≠ σ (slot (⟨k, hkN⟩, true)) := by
      intro x hx
      refine ⟨by omega, ?_, ?_⟩
      · rintro rfl
        rw [pairIndex_slot] at hx
        simp at hx
      · rintro rfl
        rw [pairIndex_slot] at hx
        simp at hx
    have hjoin : ∀ x, k ≤ pairIndex σ x → x ≠ σ (slot (⟨k, hkN⟩, false)) →
        x ≠ σ (slot (⟨k, hkN⟩, true)) → k + 1 ≤ pairIndex σ x := by
      intro x hx h1 h2
      by_contra hn
      have : pairIndex σ x = (⟨k, hkN⟩ : Fin N).val := by simp only; omega
      rcases eq_of_pairIndex σ ⟨k, hkN⟩ x this with h | h
      · exact h1 h
      · exact h2 h
    constructor
    · intro x hx
      obtain ⟨hx0, hxa, hxb⟩ := hsplit x hx
      obtain ⟨⟨h1, h2, h3⟩, h4, h5⟩ := chainStep_involution I1 ha hb hab x hx0 hxa hxb
      rw [hstep]
      exact ⟨hjoin _ h1 h2 h3, h4, h5⟩
    · intro x y hx hy
      obtain ⟨hx0, hxa, hxb⟩ := hsplit x hx
      obtain ⟨hy0, hya, hyb⟩ := hsplit y hy
      rw [hstep]
      exact chainStep_reach I1 ha hb tokenNode (pairGraph σ k).Reachable
        (pairGraph σ (k + 1)).Reachable
        (fun p q => reachable_add_edge (pairGraph_succ_adj σ k hkN) p q)
        I2 x y hx0 hxa hxb hy0 hya hyb

/-! ## How many shuffle outcomes close a loop at pair `k` -/

theorem chainEnds_congr {N : Nat} (σ τ : Equiv.Perm (Fin (2 * N))) : ∀ k,
    (∀ (k1 : Fin N) (b : Bool), k1.val < k → σ (slot (k1, b)) = τ (slot (k1, b))) →
    chainEnds σ k = chainEnds τ k := by
  intro k
  induction k with
  | zero => intro _; rfl
  | succ k ih =>
    intro h
    have ih2 := ih (fun k1 b hk => h k1 b (by omega))
    by_cases hk : k < N
    · simp only [chainEnds, hk, dif_pos, ih2, h ⟨k, hk⟩ false (by simp),
        h ⟨k, hk⟩ true (by simp)]
    · simp only [chainEnds, hk, dif_neg, not_false_eq_true, ih2]

theorem slot_val {N : Nat} (k : Fin N) (b : Bool) :
    (slot (k, b)).val = 2 * k.val + if b then 1 else 0 := by
  cases b
  · simp [slot_false]
  · simp [slot_true]

theorem card_closes {N : Nat} (k : Fin N) :
    (Finset.univ.filter fun σ : Equiv.Perm (Fin (2 * N)) => Closes σ k).card
      * (2 * N - (2 * k.val + 1)) = (2 * N).factorial := by
  have hj : (slot (k, true)).val = 2 * k.val + 1 := slot_true k
  have hfix : ∀ (q p : Fin (2 * N)), slot (k, true) ≤ q → p.val < 2 * k.val + 1 →
      Equiv.swap (slot (k, true)) q p = p := by
    intro q p hq hp
    apply Equiv.swap_apply_of_ne_of_ne
    · intro h; rw [h, hj] at hp; omega
    · intro h
      have : (slot (k, true)).val ≤ q.val := hq
      rw [h] at hp; omega
  have key := card_swap_front (slot (k, true))
    (fun σ : Equiv.Perm (Fin (2 * N)) => chainEnds σ k.val (σ (slot (k, false))))
    (by
      intro σ
      obtain ⟨I1, _⟩ := chainEnds_invariant σ k.val (le_of_lt k.isLt)
      obtain ⟨h1, _, h3⟩ := I1 (σ (slot (k, false))) (by rw [pairIndex_slot])
      show (slot (k, true)).val ≤ (σ.symm (chainEnds σ k.val (σ (slot (k, false))))).val
      rw [hj]
      by_contra hn
      have hle : pairIndex σ (chainEnds σ k.val (σ (slot (k, false)))) = k.val := by
        have h4 : (slot (slot.symm (σ.symm (chainEnds σ k.val (σ (slot (k, false))))))).val
            = (σ.symm (chainEnds σ k.val (σ (slot (k, false))))).val := by simp
        rw [slot_val] at h4
        unfold pairIndex at h1 ⊢
        split_ifs at h4 <;> omega
      rcases eq_of_pairIndex σ k _ hle with h | h
      · exact h3 h
      · rw [h] at hn
        simp only [Equiv.symm_apply_apply] at hn
        omega)
    (by
      intro σ q hq
      simp only
      have e1 : (σ * Equiv.swap (slot (k, true)) q) (slot (k, false)) = σ (slot (k, false)) := by
        rw [Equiv.Perm.mul_apply, hfix q _ hq (by rw [slot_false]; omega)]
      rw [e1, chainEnds_congr (σ * Equiv.swap (slot (k, true)) q) σ k.val (by
        intro k1 b hk1
        rw [Equiv.Perm.mul_apply, hfix q _ hq (by rw [slot_val]; split_ifs <;> omega)])])
  rw [hj] at key
  have hset : (Finset.univ.filter fun σ : Equiv.Perm (Fin (2 * N)) => Closes σ k)
      = Finset.univ.filter fun σ : Equiv.Perm (Fin (2 * N)) =>
        σ (slot (k, true)) = chainEnds σ k.val (σ (slot (k, false))) := by
    ext σ
    simp only [Finset.mem_filter, Finset.mem_univ, true_and, Closes]
    exact eq_comm
  rw [hset]
  exact key

/-! ## The loops of a shuffle outcome are its closing pairs -/

theorem card_pairGraph_zero {N : Nat} (σ : Equiv.Perm (Fin (2 * N))) :
    Nat.card (pairGraph σ 0).ConnectedComponent = N := by
  have hbij : Function.Bijective (pairGraph σ 0).connectedComponentMk := by
    constructor
    · intro p q h
      exact (pairGraph_zero_reachable σ p q).mp (SimpleGraph.ConnectedComponent.eq.mp h)
    · intro c
      induction c using SimpleGraph.ConnectedComponent.ind with
      | _ p => exact ⟨p, rfl⟩
  rw [← Nat.card_congr (Equiv.ofBijective _ hbij), Nat.card_eq_fintype_card, Fintype.card_fin]

theorem closes_iff_reachable {N : Nat} (σ : Equiv.Perm (Fin (2 * N))) (k : Fin N) :
    Closes σ k ↔ (pairGraph σ k.val).Reachable (tokenNode (σ (slot (k, false))))
      (tokenNode (σ (slot (k, true)))) := by
  obtain ⟨_, I2⟩ := chainEnds_invariant σ k.val (le_of_lt k.isLt)
  rw [I2 _ _ (by rw [pairIndex_slot]) (by rw [pairIndex_slot])]
  unfold Closes
  constructor
  · intro h
    exact Or.inr h.symm
  · rintro (h | h)
    · have := slot.injective (σ.injective h)
      simp at this
    · exact h.symm

theorem card_pairGraph_succ {N : Nat} (σ : Equiv.Perm (Fin (2 * N))) (k : Nat) (h : k < N) :
    Nat.card (pairGraph σ (k + 1)).ConnectedComponent
      + (if Closes σ ⟨k, h⟩ then 0 else 1) = Nat.card (pairGraph σ k).ConnectedComponent := by
  by_cases hc : Closes σ ⟨k, h⟩
  · rw [if_pos hc, Nat.add_zero]
    exact card_components_add_edge_of_reachable (pairGraph_succ_adj σ k h)
      ((closes_iff_reachable σ ⟨k, h⟩).mp hc)
  · rw [if_neg hc]
    exact card_components_add_edge_of_not_reachable (pairGraph_succ_adj σ k h)
      (fun hr => hc ((closes_iff_reachable σ ⟨k, h⟩).mpr hr))

theorem card_pairGraph {N : Nat} (σ : Equiv.Perm (Fin (2 * N))) : ∀ k, k ≤ N →
    Nat.card (pairGraph σ k).ConnectedComponent
      + (Finset.univ.filter fun k1 : Fin N => k1.val < k ∧ ¬ Closes σ k1).card = N := by
  intro k
  induction k with
  | zero =>
    intro _
    rw [card_pairGraph_zero]
    simp
  | succ k ih =>
    intro hk
    have hkN : k < N := by omega
    have h1 := ih (by omega)
    have h2 := card_pairGraph_succ σ k hkN
    have hsplit : (Finset.univ.filter fun k1 : Fin N => k1.val < k + 1 ∧ ¬ Closes σ k1)
        = (Finset.univ.filter fun k1 : Fin N => k1.val < k ∧ ¬ Closes σ k1) ∪
          (if Closes σ ⟨k, hkN⟩ then ∅ else {⟨k, hkN⟩}) := by
      ext k1
      simp only [Finset.mem_filter, Finset.mem_univ, true_and, Finset.mem_union]
      constructor
      · rintro ⟨h3, h4⟩
        by_cases h5 : k1.val < k
        · exact Or.inl ⟨h5, h4⟩
        · have : k1 = ⟨k, hkN⟩ := Fin.ext (by show k1.val = k; omega)
          subst this
          right
          rw [if_neg h4]
          exact Finset.mem_singleton_self _
      · rintro (⟨h3, h4⟩ | h3)
        · exact ⟨by omega, h4⟩
        · by_cases h5 : Closes σ ⟨k, hkN⟩
          · rw [if_pos h5] at h3
            exact absurd h3 (Finset.not_mem_empty _)
          · rw [if_neg h5, Finset.mem_singleton] at h3
            subst h3
            exact ⟨by simp, h5⟩
    have hdisj : Disjoint (Finset.univ.filter fun k1 : Fin N => k1.val < k ∧ ¬ Closes σ k1)
        (if Closes σ ⟨k, hkN⟩ then ∅ else {⟨k, hkN⟩}) := by
      rw [Finset.disjoint_left]
      intro k1 h3 h4
      simp only [Finset.mem_filter, Finset.mem_univ, true_and] at h3
      by_cases h5 : Closes σ ⟨k, hkN⟩
      · rw [if_pos h5] at h4
        exact absurd h4 (Finset.not_mem_empty _)
      · rw [if_neg h5, Finset.mem_singleton] at h4
        subst h4
        simp at h3
    rw [hsplit, Finset.card_union_of_disjoint hdisj]
    by_cases h5 : Closes σ ⟨k, hkN⟩
    · rw [if_pos h5] at h2 ⊢
      rw [Finset.card_empty]
      omega
    · rw [if_neg h5] at h2 ⊢
      rw [Finset.card_singleton]
      omega

theorem card_pairGraph_full {N : Nat} (σ : Equiv.Perm (Fin (2 * N))) :
    Nat.card (pairGraph σ N).ConnectedComponent
      = (Finset.univ.filter fun k : Fin N => Closes σ k).card := by
  have h1 := card_pairGraph σ N (le_refl N)
  have h2 : (Finset.univ.filter fun k1 : Fin N => k1.val < N ∧ ¬ Closes σ k1)
      = Finset.univ.filter fun k1 : Fin N => ¬ Closes σ k1 := by
    ext k1
    simp [k1.isLt]
  have h3 := Finset.filter_card_add_filter_neg_card_eq_card (s := (Finset.univ : Finset (Fin N)))
    (fun k : Fin N => Closes σ k)
  rw [Finset.card_univ, Fintype.card_fin] at h3
  rw [h2] at h1
  omega

/-! ## The loop count of a shuffle outcome, and its total over all outcomes -/

theorem tokenNode_val {N : Nat} (t : Fin (2 * N)) : (tokenNode t).val = t.val / 2 := rfl

theorem pairCount_tokenLabels {N : Nat} (σ : Equiv.Perm (Fin (2 * N))) (i j : Nat) :
    pairCount (tokenLabels σ) i j = ∑ k : Fin N,
      if ((σ (slot (k, false))).val / 2 = i ∧ (σ (slot (k, true))).val / 2 = j) ∨
        ((σ (slot (k, false))).val / 2 = j ∧ (σ (slot (k, true))).val / 2 = i)
      then 1 else 0 := by
  have hlen : (tokenLabels σ).length = 2 * N := by
    rw [(tokenLabels_perm σ).length_eq, buildEnds_length]
  unfold pairCount
  rw [hlen, Nat.mul_div_cancel_left N (by omega : 0 < 2), countP_range_eq_sum]
  apply Finset.sum_congr rfl
  intro k _
  rw [tokenLabels_slot_false σ k, tokenLabels_slot_true σ k]
  simp only [Option.some.injEq, decide_eq_true_eq]

theorem pairCount_tokenLabels_pos {N : Nat} (σ : Equiv.Perm (Fin (2 * N))) (i j : Fin N) :
    0 < pairCount (tokenLabels σ) i.val j.val ↔ ∃ k : Fin N,
      (tokenNode (σ (slot (k, false))) = i ∧ tokenNode (σ (slot (k, true))) = j) ∨
      (tokenNode (σ (slot (k, false))) = j ∧ tokenNode (σ (slot (k, true))) = i) := by
  rw [pairCount_tokenLabels, ← Finset.card_filter, Finset.card_pos, Finset.filter_nonempty_iff]
  constructor
  · rintro ⟨k, _, h⟩
    refine ⟨k, ?_⟩
    rcases h with ⟨h1, h2⟩ | ⟨h1, h2⟩
    · exact Or.inl ⟨Fin.ext h1, Fin.ext h2⟩
    · exact Or.inr ⟨Fin.ext h1, Fin.ext h2⟩
  · rintro ⟨k, h⟩
    refine ⟨k, Finset.mem_univ _, ?_⟩
    rcases h with ⟨h1, h2⟩ | ⟨h1, h2⟩
    · exact Or.inl ⟨congrArg Fin.val h1, congrArg Fin.val h2⟩
    · exact Or.inr ⟨congrArg Fin.val h1, congrArg Fin.val h2⟩

/-- The graph of the matrix built from the shuffle outcome `σ` is the graph
of its `N` pairs. -/
theorem loopGraph_eq_pairGraph {N : Nat} (σ : Equiv.Perm (Fin (2 * N))) {A : CSR}
    (hA : randomMatching (fun _ => tokenLabels σ) N = some A) :
    loopGraph N A = pairGraph σ N := by
  obtain ⟨B, hB, _, he⟩ := @randomMatching_perm (fun _ => tokenLabels σ) N (tokenLabels_perm σ)
  rw [hA] at hB
  cases hB
  ext i j
  unfold loopGraph pairGraph
  rw [SimpleGraph.fromRel_adj, SimpleGraph.fromRel_adj, he i.val j.val i.isLt j.isLt,
    he j.val i.val j.isLt i.isLt, pairCount_tokenLabels_pos, pairCount_tokenLabels_pos]
  constructor
  · rintro ⟨hne, h⟩
    refine ⟨hne, ?_⟩
    rcases h with ⟨k, h | h⟩ | ⟨k, h | h⟩
    · exact Or.inl ⟨k, k.isLt, h.1, h.2⟩
    · exact Or.inr ⟨k, k.isLt, h.1, h.2⟩
    · exact Or.inr ⟨k, k.isLt, h.1, h.2⟩
    · exact Or.inl ⟨k, k.isLt, h.1, h.2⟩
  · rintro ⟨hne, h⟩
    refine ⟨hne, ?_⟩
    rcases h with ⟨k, _, h1, h2⟩ | ⟨k, _, h1, h2⟩
    · exact Or.inl ⟨k, Or.inl ⟨h1, h2⟩⟩
    · exact Or.inl ⟨k, Or.inr ⟨h1, h2⟩⟩

/-- The trial on the shuffle outcome `σ` returns, and its loop count is the
number of pairs that close a loop. -/
theorem noodling_tokenLabels {N : Nat} (σ : Equiv.Perm (Fin (2 * N))) :
    ∃ A, randomMatching (fun _ => tokenLabels σ) N = some A ∧
      countLoops N A = some (loopsOf σ) ∧
      loopsOf σ = (Finset.univ.filter fun k : Fin N => Closes σ k).card := by
  obtain ⟨A, hA, _, _⟩ := @randomMatching_perm (fun _ => tokenLabels σ) N (tokenLabels_perm σ)
  have hM : A.IsMatching N :=
    @randomMatching_isMatching (fun _ => tokenLabels σ) N (tokenLabels_perm σ) A hA
  have hc := countLoops_components hM
  rw [loopGraph_eq_pairGraph σ hA, card_pairGraph_full] at hc
  have hl : loopsOf σ = (Finset.univ.filter fun k : Fin N => Closes σ k).card := by
    simp [loopsOf, noodling, hA, hc]
  exact ⟨A, hA, by rw [hl]; exact hc, hl⟩

theorem sum_loopsOf (N : Nat) :
    ∑ σ : Equiv.Perm (Fin (2 * N)), loopsOf σ
      = ∑ k : Fin N, (Finset.univ.filter fun σ : Equiv.Perm (Fin (2 * N)) => Closes σ k).card := by
  have h1 : ∀ σ : Equiv.Perm (Fin (2 * N)),
      loopsOf σ = ∑ k : Fin N, if Closes σ k then 1 else 0 := by
    intro σ
    obtain ⟨_, _, _, h⟩ := noodling_tokenLabels σ
    rw [h, Finset.card_filter]
  simp only [h1, Finset.card_filter]
  exact Finset.sum_comm

theorem sum_odd_reciprocals (N : Nat) :
    ∑ k : Fin N, 1 / (((2 * N - (2 * k.val + 1) : Nat) : ℚ))
      = ∑ k ∈ Finset.Icc 1 N, 1 / (2 * (k : ℚ) - 1) := by
  rw [Finset.sum_fin_eq_sum_range]
  have h1 : ∀ n : Nat, ∑ k ∈ Finset.Icc 1 n, 1 / (2 * (k : ℚ) - 1)
      = ∑ j ∈ Finset.range n, 1 / (2 * (j : ℚ) + 1) := by
    intro n
    induction n with
    | zero => simp
    | succ n ih =>
      rw [Finset.sum_Icc_succ_top (by omega), ih, Finset.sum_range_succ]
      congr 2
      push_cast
      ring
  rw [h1, ← Finset.sum_range_reflect]
  apply Finset.sum_congr rfl
  intro j hj
  have hj1 := Finset.mem_range.mp hj
  rw [dif_pos (by omega : N - 1 - j < N)]
  have h2 : 2 * N - (2 * (N - 1 - j) + 1) = 2 * j + 1 := by omega
  simp only [h2]
  push_cast
  ring

/-- The total of the loop counts over all `(2N)!` shuffle outcomes, divided
by `(2N)!`. -/
theorem mean_loopsOf (N : Nat) :
    (∑ σ : Equiv.Perm (Fin (2 * N)), (loopsOf σ : ℚ)) / ((2 * N).factorial : ℚ)
      = ∑ k ∈ Finset.Icc 1 N, 1 / (2 * (k : ℚ) - 1) := by
  have hF : ((2 * N).factorial : ℚ) ≠ 0 := by
    exact_mod_cast (Nat.factorial_pos (2 * N)).ne.symm
  rw [← Nat.cast_sum, sum_loopsOf, Nat.cast_sum, Finset.sum_div, ← sum_odd_reciprocals]
  apply Finset.sum_congr rfl
  intro k _
  have hc := card_closes k
  have hk := k.isLt
  have hd : (((2 * N - (2 * k.val + 1) : Nat) : ℚ)) ≠ 0 := by
    have : 2 * N - (2 * k.val + 1) ≠ 0 := by omega
    exact_mod_cast this
  rw [div_eq_div_iff hF hd, one_mul, ← hc]
  push_cast
  ring

/-! ## The claims about `randomMatching` -/

/-- C1 (degree invariant): for every `N` and every rearrangement of the label
sequence `[0,0,1,1,...,N-1,N-1]` left by the shuffle, `randomMatching`
returns a matrix `A` with `2*A[i][i] + Σ_{j≠i} A[i][j] = 2` for every node
`i < N`. -/
theorem randomMatching_degree (shuffle : List Nat → List Nat) (N : Nat)
    (hs : (shuffle (buildEnds N)).Perm (buildEnds N)) :
    ∃ A, randomMatching shuffle N = some A ∧ ∀ i, i < N → degree N A i = 2 := by
  obtain ⟨A, hA, _, he⟩ := randomMatching_perm hs
  exact ⟨A, hA, fun i hi => degree_of_pairCount hs he i hi⟩

theorem randomMatching_degree_witness :
    ([0, 1, 0, 1] : List Nat).Perm (buildEnds 2) ∧
      ∃ A, randomMatching (fun _ => [0, 1, 0, 1]) 2 = some A ∧ ∀ i, i < 2 → degree 2 A i = 2 :=
  ⟨by decide, randomMatching_degree (fun _ => [0, 1, 0, 1]) 2 (by decide)⟩

/-- C2 (symmetry): for every `N` and every rearrangement of the label sequence
left by the shuffle, the matrix `A` returned by `randomMatching` has
`A[i][j] = A[j][i]` for all `i, j < N`. -/
theorem randomMatching_symmetric (shuffle : List Nat → List Nat) (N : Nat)
    (hs : (shuffle (buildEnds N)).Perm (buildEnds N)) :
    ∃ A, randomMatching shuffle N = some A ∧
      ∀ i j, i < N → j < N → A.entry i j = A.entry j i := by
  obtain ⟨A, hA, _, he⟩ := randomMatching_perm hs
  refine ⟨A, hA, fun i j hi hj => ?_⟩
  rw [he i j hi hj, he j i hj hi, pairCount_comm]

theorem randomMatching_symmetric_witness :
    ([1, 2, 0, 0, 2, 1] : List Nat).Perm (buildEnds 3) ∧
      ∃ A, randomMatching (fun _ => [1, 2, 0, 0, 2, 1]) 3 = some A ∧
        ∀ i j, i < 3 → j < 3 → A.entry i j = A.entry j i :=
  ⟨by decide, randomMatching_symmetric (fun _ => [1, 2, 0, 0, 2, 1]) 3 (by decide)⟩

/-- C3 (pair-count matrix): for every rearrangement `ends` of the label
sequence left by the shuffle, `randomMatching` returns the `N × N` matrix
whose entry `A[i][j]` is the number of pairs `(ends[2k], ends[2k+1])` with
labels `i` and `j` in either order (for `i = j`: with both labels `i`); the
generator of the specification, which increments `A[u][u]` where the code
sets it to `1`, returns the same matrix; and the ordering `[0,1,0,1]` for
`N = 2` gives `A[0][1] = A[1][0] = 2`. -/
theorem randomMatching_pairCount (shuffle : List Nat → List Nat) (N : Nat)
    (hs : (shuffle (buildEnds N)).Perm (buildEnds N)) :
    (∃ A, randomMatching shuffle N = some A ∧ A.Square N ∧
      ∀ i j, i < N → j < N → A.entry i j = pairCount (shuffle (buildEnds N)) i j) ∧
    specRandomMatching shuffle N = randomMatching shuffle N ∧
    (randomMatching (fun _ => [0, 1, 0, 1]) 2).map (fun A => (A.entry 0 1, A.entry 1 0))
      = some (2, 2) :=
  ⟨randomMatching_perm hs, specRandomMatching_eq hs, by decide⟩

theorem randomMatching_pairCount_witness :
    ([0, 1, 1, 0] : List Nat).Perm (buildEnds 2) ∧
    ((∃ A, randomMatching (fun _ => [0, 1, 1, 0]) 2 = some A ∧ A.Square 2 ∧
      ∀ i j, i < 2 → j < 2 → A.entry i j = pairCount [0, 1, 1, 0] i j) ∧
    specRandomMatching (fun _ => [0, 1, 1, 0]) 2 = randomMatching (fun _ => [0, 1, 1, 0]) 2 ∧
    (randomMatching (fun _ => [0, 1, 0, 1]) 2).map (fun A => (A.entry 0 1, A.entry 1 0))
      = some (2, 2)) :=
  ⟨by decide, randomMatching_pairCount (fun _ => [0, 1, 1, 0]) 2 (by decide)⟩

/-! ## The claims about `countLoops` -/

/-- C5 (loop count bounds): for every `N ≥ 1` and every `N × N` matrix `A`,
`countLoops(N, A)` returns a count `c` with `1 ≤ c ≤ N`; hence for every
rearrangement left by the shuffle the trial `noodling(N)` returns such a
count. -/
theorem countLoops_bounds (N : Nat) (A : CSR) (hN : 1 ≤ N) (hA : A.InRange N) :
    (∃ c, countLoops N A = some c ∧ 1 ≤ c ∧ c ≤ N) ∧
    ∀ shuffle : List Nat → List Nat, (shuffle (buildEnds N)).Perm (buildEnds N) →
      ∃ c, noodling shuffle N = some c ∧ 1 ≤ c ∧ c ≤ N := by
  refine ⟨countLoops_returns_bounded hN hA, fun shuffle hs => ?_⟩
  obtain ⟨B, hB, _, _⟩ := randomMatching_perm hs
  obtain ⟨c, hc, h1, h2⟩ := countLoops_returns_bounded hN (randomMatching_canonical hs hB).1
  exact ⟨c, by simp [noodling, hB, hc], h1, h2⟩

theorem countLoops_bounds_witness :
    1 ≤ 3 ∧ CSR.InRange 3 ⟨3, [[(1, 1), (2, 1)], [(0, 1)], []]⟩ ∧
    ((∃ c, countLoops 3 ⟨3, [[(1, 1), (2, 1)], [(0, 1)], []]⟩ = some c ∧ 1 ≤ c ∧ c ≤ 3) ∧
    ∀ shuffle : List Nat → List Nat, (shuffle (buildEnds 3)).Perm (buildEnds 3) →
      ∃ c, noodling shuffle 3 = some c ∧ 1 ≤ c ∧ c ≤ 3) :=
  ⟨by decide, by decide,
    countLoops_bounds 3 ⟨3, [[(1, 1), (2, 1)], [(0, 1)], []]⟩ (by decide) (by decide)⟩

/-- C4 (loops are connected components): for every Matching `A` over `N`
nodes (symmetric, every degree equal to 2), `countLoops(N, A)` returns the
number of connected components of the undirected graph on the nodes
`0..N-1` whose edges are the pairs `i ≠ j` with `A[i][j] > 0`; for `N = 4`
with self-pairs at nodes 0 and 1 and a double edge between nodes 2 and 3 the
count is 3. -/
theorem countLoops_eq_components (N : Nat) (A : CSR) (hA : A.IsMatching N) :
    countLoops N A = some (Nat.card (loopGraph N A).ConnectedComponent) ∧
    countLoops 4 ⟨4, [[(0, 1)], [(1, 1)], [(3, 2)], [(2, 2)]]⟩ = some 3 :=
  ⟨countLoops_components hA, by decide⟩

theorem countLoops_eq_components_witness :
    CSR.IsMatching 4 ⟨4, [[(0, 1)], [(1, 1)], [(3, 2)], [(2, 2)]]⟩ ∧
    (countLoops 4 ⟨4, [[(0, 1)], [(1, 1)], [(3, 2)], [(2, 2)]]⟩ =
      some (Nat.card (loopGraph 4 ⟨4, [[(0, 1)], [(1, 1)], [(3, 2)], [(2, 2)]]⟩).ConnectedComponent) ∧
    countLoops 4 ⟨4, [[(0, 1)], [(1, 1)], [(3, 2)], [(2, 2)]]⟩ = some 3) :=
  ⟨by decide, countLoops_eq_components 4 ⟨4, [[(0, 1)], [(1, 1)], [(3, 2)], [(2, 2)]]⟩ (by decide)⟩

/-- C6 (the bounds are attained): for every `N ≥ 1` the matching built from
the unshuffled sequence `[0,0,1,1,...,N-1,N-1]` has `countLoops = N` (1 for
`N = 1`, 2 for `N = 2`), and some rearrangement of the sequence gives a
matching with `countLoops = 1`. -/
theorem countLoops_extremes (N : Nat) (hN : 1 ≤ N) :
    (∃ A, randomMatching id N = some A ∧ countLoops N A = some N) ∧
    noodling id 1 = some 1 ∧ noodling id 2 = some 2 ∧
    ∃ shuffle : List Nat → List Nat, (shuffle (buildEnds N)).Perm (buildEnds N) ∧
      ∃ B, randomMatching shuffle N = some B ∧ countLoops N B = some 1 :=
  ⟨countLoops_unshuffled N, by decide, by decide, rotateOne, countLoops_chain N hN⟩

theorem countLoops_extremes_witness :
    1 ≤ 2 ∧
    ((∃ A, randomMatching id 2 = some A ∧ countLoops 2 A = some 2) ∧
    noodling id 1 = some 1 ∧ noodling id 2 = some 2 ∧
    ∃ shuffle : List Nat → List Nat, (shuffle (buildEnds 2)).Perm (buildEnds 2) ∧
      ∃ B, randomMatching shuffle 2 = some B ∧ countLoops 2 B = some 1) :=
  ⟨by decide, countLoops_extremes 2 (by decide)⟩

/-- C7 (self-loop isolation): for every `N ≥ 1` and every `N × N` matrix `A`
with `A[0][0] > 0` and `A[0][j] = A[j][0] = 0` for all `j ≠ 0`, and for `A'`
the restriction of `A` to the nodes `1..N-1` re-indexed by subtracting one,
`countLoops(N, A) = 1 + countLoops(N-1, A')`. -/
theorem countLoops_selfLoop_isolation (N : Nat) (A A' : CSR) (hN : 1 ≤ N)
    (hA : A.Canonical N) (hA' : A'.Canonical (N - 1)) (h0 : 0 < A.entry 0 0)
    (_hz : ∀ j, j < N → 0 < j → A.entry 0 j = 0 ∧ A.entry j 0 = 0)
    (hr : ∀ a, a < N - 1 → ∀ b, b < N - 1 → A'.entry a b = A.entry (a + 1) (b + 1)) :
    ∃ c, countLoops (N - 1) A' = some c ∧ countLoops N A = some (1 + c) := by
  obtain ⟨n, rfl⟩ : ∃ n, N = n + 1 := ⟨N - 1, by omega⟩
  exact countLoops_shift hA hA' h0 (fun a b ha hb => hr a ha b hb)

theorem countLoops_selfLoop_isolation_witness :
    1 ≤ 4 ∧
    CSR.Canonical 4 ⟨4, [[(0, 1)], [(2, 1), (3, 1)], [(1, 1), (3, 1)], [(2, 1), (1, 1)]]⟩ ∧
    CSR.Canonical (4 - 1)
      (restrict ⟨4, [[(0, 1)], [(2, 1), (3, 1)], [(1, 1), (3, 1)], [(2, 1), (1, 1)]]⟩) ∧
    ∃ c, countLoops (4 - 1)
        (restrict ⟨4, [[(0, 1)], [(2, 1), (3, 1)], [(1, 1), (3, 1)], [(2, 1), (1, 1)]]⟩) = some c ∧
      countLoops 4 ⟨4, [[(0, 1)], [(2, 1), (3, 1)], [(1, 1), (3, 1)], [(2, 1), (1, 1)]]⟩
        = some (1 + c) :=
  ⟨by decide, by decide, by decide,
    countLoops_selfLoop_isolation 4
      ⟨4, [[(0, 1)], [(2, 1), (3, 1)], [(1, 1), (3, 1)], [(2, 1), (1, 1)]]⟩
      (restrict ⟨4, [[(0, 1)], [(2, 1), (3, 1)], [(1, 1), (3, 1)], [(2, 1), (1, 1)]]⟩)
      (by decide) (by decide) (by decide) (by decide) (by decide) (by decide)⟩

/-- C8 (the count does not depend on the labelling of the nodes): for every
Matching `A` over `N` nodes, every permutation `p` of the node indices and
every matrix `B` with `B[p(i)][p(j)] = A[i][j]`, `countLoops` returns on `B`
the count it returns on `A`; `countLoops` is a function of `N` and the
matrix, so two runs on the same `A` return the same count. -/
theorem countLoops_relabel_invariant (N : Nat) (A B : CSR) (p : Equiv.Perm (Fin N))
    (hA : A.IsMatching N) (hB : B.Canonical N)
    (hp : ∀ i j : Fin N, B.entry (p i) (p j) = A.entry i j) :
    ∃ c, countLoops N A = some c ∧ countLoops N B = some c :=
  ⟨_, countLoops_components hA, by rw [countLoops_relabel p hA hB hp, countLoops_components hA]⟩

theorem countLoops_relabel_invariant_witness :
    CSR.IsMatching 3 ⟨3, [[(0, 1)], [(2, 2)], [(1, 2)]]⟩ ∧
    CSR.Canonical 3 ⟨3, [[(2, 2)], [(1, 1)], [(0, 2)]]⟩ ∧
    ∃ c, countLoops 3 ⟨3, [[(0, 1)], [(2, 2)], [(1, 2)]]⟩ = some c ∧
      countLoops 3 ⟨3, [[(2, 2)], [(1, 1)], [(0, 2)]]⟩ = some c :=
  ⟨by decide, by decide,
    countLoops_relabel_invariant 3 ⟨3, [[(0, 1)], [(2, 2)], [(1, 2)]]⟩
      ⟨3, [[(2, 2)], [(1, 1)], [(0, 2)]]⟩ (Equiv.swap 0 1) (by decide) (by decide) (by decide)⟩

/-! ## The claims about the driver -/

/-- C9 (per-trial sequence), evaluated on the code: in the run of `main` in
which no shuffle moves an end, trial 0 has the loop count `100`, yet entry 0
of the per-trial list is `0`: the loop stores `count / numSamples`, not the
raw count. -/
theorem main_entry_is_quotient :
    noodling id 100 = some 100 ∧
    ∃ counts countsList, main (fun _ => id) = some (counts, countsList) ∧
      countsList[0]? = some 0 := by
  refine ⟨noodling_unshuffled 100, ?_⟩
  obtain ⟨l, h1, _, h3⟩ := sampleLoop_spec (fun _ => id) 1000000 100 (fun _ => 100)
    (List.range 1000000) (fun _ _ => noodling_unshuffled 100) 0 (List.replicate 1000000 0)
  refine ⟨_, l, h1, ?_⟩
  rw [h3 0]
  have hm : 0 ∈ List.range 1000000 := List.mem_range.mpr (by omega)
  have hl : 0 < (List.replicate 1000000 0).length := by
    rw [List.length_replicate]; omega
  rw [if_pos ⟨hm, hl⟩]

/-! ## The claim about the shuffle -/

/-- C10 (uniformity): with the shuffle modelled as a permutation `σ` of the
`2N` endpoint tokens (tokens `2i` and `2i+1` owned by node `i`), every perfect
matching `m` of the endpoints is produced, by consuming the permuted sequence
two at a time, by exactly `N! * 2^N` of the `(2N)!` permutations; every
permutation produces exactly one perfect matching; and for a permutation that
produces `m` the slice `ends` is a rearrangement of the label sequence on
which `randomMatching` returns the matrix determined by `m` alone
(`A[i][j]`, doubled on the diagonal, is the number of tokens of node `i`
whose partner belongs to node `j`). A uniformly random permutation therefore
gives a uniformly random perfect matching. -/
theorem shuffle_uniform (N : Nat) (m : Equiv.Perm (Fin (2 * N))) (hm : IsPerfectMatching m) :
    (Finset.univ.filter fun σ : Equiv.Perm (Fin (2 * N)) => Produces σ m).card
      = N.factorial * 2 ^ N ∧
    Fintype.card (Equiv.Perm (Fin (2 * N))) = (2 * N).factorial ∧
    (∀ σ : Equiv.Perm (Fin (2 * N)), ∃ m1, IsPerfectMatching m1 ∧ Produces σ m1 ∧
      ∀ m2, IsPerfectMatching m2 → Produces σ m2 → m2 = m1) ∧
    ∀ σ : Equiv.Perm (Fin (2 * N)), Produces σ m →
      (tokenLabels σ).Perm (buildEnds N) ∧
      ∃ A, randomMatching (fun _ => tokenLabels σ) N = some A ∧
        ∀ i j, i < N → j < N → (if i = j then 2 else 1) * A.entry i j = linkCount m i j := by
  refine ⟨card_produces hm, by simp [Fintype.card_perm], produces_unique, fun σ hp => ?_⟩
  have hs : ((fun _ : List Nat => tokenLabels σ) (buildEnds N)).Perm (buildEnds N) :=
    tokenLabels_perm σ
  obtain ⟨A, hA, _, he⟩ := @randomMatching_perm (fun _ => tokenLabels σ) N hs
  refine ⟨tokenLabels_perm σ, A, hA, fun i j hi hj => ?_⟩
  rw [he i j hi hj]
  exact pairCount_linkCount hm hp i j

theorem shuffle_uniform_witness :
    IsPerfectMatching (Equiv.swap (0 : Fin (2 * 2)) 2 * Equiv.swap 1 3) ∧
    (Finset.univ.filter fun σ : Equiv.Perm (Fin (2 * 2)) =>
      Produces σ (Equiv.swap (0 : Fin (2 * 2)) 2 * Equiv.swap 1 3)).card
      = Nat.factorial 2 * 2 ^ 2 :=
  ⟨by decide, (shuffle_uniform 2 (Equiv.swap (0 : Fin (2 * 2)) 2 * Equiv.swap 1 3)
    (by decide)).1⟩

/-- C12 (total and expectation): for every `N ≥ 1`, `T ≥ 1` and every
sequence of `T` shuffle outcomes, the loop of `main` returns with the total
`counts` equal to the sum of the `T` raw trial counts, so
`T ≤ counts ≤ N * T`, and the expectation `counts / T`, as an exact rational,
lies between `1` and `N`. -/
theorem main_total_bounds (shuffles : Nat → List Nat → List Nat) (T N : Nat) (hT : 1 ≤ T)
    (hN : 1 ≤ N) (hs : ∀ i, i < T → (shuffles i (buildEnds N)).Perm (buildEnds N)) :
    ∃ (f : Nat → Nat) (counts : Nat) (countsList : List Nat),
      (∀ i, i < T → noodling (shuffles i) N = some (f i)) ∧
      mainSamples shuffles T N = some (counts, countsList) ∧
      counts = ((List.range T).map f).sum ∧ T ≤ counts ∧ counts ≤ N * T ∧
      (1 : ℚ) ≤ (counts : ℚ) / (T : ℚ) ∧ (counts : ℚ) / (T : ℚ) ≤ (N : ℚ) := by
  obtain ⟨f, l, hf, hm, _, _⟩ := mainSamples_spec shuffles T N hN hs
  have hb := sum_map_bounds f 1 N (List.range T)
    (fun i hi => (hf i (List.mem_range.mp hi)).2)
  rw [List.length_range, Nat.one_mul] at hb
  have hTq : (0 : ℚ) < (T : ℚ) := by exact_mod_cast hT
  refine ⟨f, _, l, fun i hi => (hf i hi).1, hm, rfl, hb.1, hb.2, ?_, ?_⟩
  · rw [le_div_iff₀ hTq, one_mul]
    exact_mod_cast hb.1
  · rw [div_le_iff₀ hTq]
    exact_mod_cast hb.2

theorem main_total_bounds_witness :
    1 ≤ 3 ∧ 1 ≤ 2 ∧
    ∃ (f : Nat → Nat) (counts : Nat) (countsList : List Nat),
      (∀ i, i < 3 → noodling ((fun _ => id) i) 2 = some (f i)) ∧
      mainSamples (fun _ => id) 3 2 = some (counts, countsList) ∧
      counts = ((List.range 3).map f).sum ∧ 3 ≤ counts ∧ counts ≤ 2 * 3 ∧
      (1 : ℚ) ≤ (counts : ℚ) / ((3 : Nat) : ℚ) ∧ (counts : ℚ) / ((3 : Nat) : ℚ) ≤ ((2 : Nat) : ℚ) :=
  ⟨by decide, by decide,
    main_total_bounds (fun _ => id) 3 2 (by decide) (by decide) (fun _ _ => List.Perm.refl _)⟩

/-- C18 (the stored quotients are zero): `main` stores `count / numSamples`
for each trial, so whenever the node count, which bounds every trial count,
is smaller than the trial count every stored entry is `0`; with the
constants of the program, `noodles = 100` and `numSamples = 1000000`, every
entry of `countsList` is `0` for every sequence of shuffles. -/
theorem main_entries_zero (shuffles : Nat → List Nat → List Nat) (T N : Nat) (hN : 1 ≤ N)
    (hNT : N < T) (hs : ∀ i, i < T → (shuffles i (buildEnds N)).Perm (buildEnds N)) :
    (∃ counts countsList, mainSamples shuffles T N = some (counts, countsList) ∧
      countsList.length = T ∧ ∀ j, j < T → countsList[j]? = some 0) ∧
    ∀ shuffles2 : Nat → List Nat → List Nat,
      (∀ i, i < 1000000 → (shuffles2 i (buildEnds 100)).Perm (buildEnds 100)) →
      ∃ counts countsList, main shuffles2 = some (counts, countsList) ∧
        countsList.length = 1000000 ∧ ∀ j, j < 1000000 → countsList[j]? = some 0 := by
  have key : ∀ (sh : Nat → List Nat → List Nat) (T N : Nat), 1 ≤ N → N < T →
      (∀ i, i < T → (sh i (buildEnds N)).Perm (buildEnds N)) →
      ∃ counts countsList, mainSamples sh T N = some (counts, countsList) ∧
        countsList.length = T ∧ ∀ j, j < T → countsList[j]? = some 0 := by
    intro sh T N hN hNT hs
    obtain ⟨f, l, hf, hm, hl, he⟩ := mainSamples_spec sh T N hN hs
    refine ⟨_, l, hm, hl, fun j hj => ?_⟩
    rw [he j hj, Nat.div_eq_of_lt (by have := (hf j hj).2.2; omega)]
  exact ⟨key shuffles T N hN hNT hs,
    fun sh hs2 => key sh 1000000 100 (by omega) (by omega) hs2⟩

theorem main_entries_zero_witness :
    1 ≤ 2 ∧ 2 < 3 ∧
    (∃ counts countsList, mainSamples (fun _ => id) 3 2 = some (counts, countsList) ∧
      countsList.length = 3 ∧ ∀ j, j < 3 → countsList[j]? = some 0) :=
  ⟨by decide, by decide,
    (main_entries_zero (fun _ => id) 3 2 (by decide) (by decide)
      (fun _ _ => List.Perm.refl _)).1⟩

/-! ## The claims about degenerate node counts -/

/-- The node count `0` is below `1`, and the pipeline does not fail there: it
returns the loop count `0`. -/
theorem noodlingInt_zero_returns :
    (0 : Int) < 1 ∧ noodlingInt id 0 = some 0 ∧ noodlingInt id 0 ≠ none := by
  decide

/-- C13 (amended): for every negative node count `N` the per-trial pipeline
`noodling` fails (the slice allocation panics) whatever the shuffle does; for
`N = 0` it does not fail but returns the loop count `0`. -/
theorem noodlingInt_invalid (shuffle : List Nat → List Nat) (N : Int) (hN : N < 0) :
    noodlingInt shuffle N = none ∧
    (shuffle [] = [] → noodlingInt shuffle 0 = some 0) := by
  constructor
  · unfold noodlingInt randomMatchingInt
    by_cases h1 : N + 1 < 0
    · simp [h1]
    · have h2 : 2 * N < 0 := by omega
      simp [h1, h2]
  · intro hs
    simp [noodlingInt, randomMatchingInt, countLoopsInt, randomMatching, buildEnds, hs,
      pairLoop, countLoops, outerLoop]

theorem noodlingInt_invalid_witness :
    (-3 : Int) < 0 ∧ noodlingInt id (-3) = none ∧ (id ([] : List Nat) = [] →
      noodlingInt id 0 = some 0) :=
  ⟨by decide, noodlingInt_invalid id (-3) (by decide)⟩

/-- C14 (`N = 0`): for every shuffle of the empty slice `randomMatching(0)`
returns the empty `0 × 0` matrix without error and `countLoops(0, ·)` returns
`0` loops on it. -/
theorem randomMatching_zero (shuffle : List Nat → List Nat)
    (hs : (shuffle (buildEnds 0)).Perm (buildEnds 0)) :
    randomMatching shuffle 0 = some { cols := 0, rows := [] } ∧
    countLoops 0 { cols := 0, rows := [] } = some 0 ∧
    noodling shuffle 0 = some 0 := by
  have h0 : shuffle [] = [] := List.Perm.eq_nil hs
  have h1 : randomMatching shuffle 0 = some { cols := 0, rows := [] } := by
    simp [randomMatching, buildEnds, h0, pairLoop, initialization]
  have h2 : countLoops 0 { cols := 0, rows := [] } = some 0 := by decide
  exact ⟨h1, h2, by simp [noodling, h1, h2]⟩

theorem randomMatching_zero_witness :
    (id (buildEnds 0)).Perm (buildEnds 0) ∧
    randomMatching id 0 = some { cols := 0, rows := [] } ∧
    countLoops 0 { cols := 0, rows := [] } = some 0 ∧
    noodling id 0 = some 0 :=
  ⟨List.Perm.refl _, randomMatching_zero id (List.Perm.refl _)⟩

/-! ## The claims about the self-loop short-circuit -/

/-- C15 (the short-circuit is consistent under the degree invariant): for
every Matching `A`, a node `i` with `A[i][i] > 0` has `A[i][j] = A[j][i] = 0`
for all `j ≠ i`, and `countLoops(N, A)` returns the count that the same
procedure returns with the short-circuit branch removed. -/
theorem countLoops_shortCircuit_consistent (N : Nat) (A : CSR) (hA : A.IsMatching N) :
    (∀ i, i < N → 0 < A.entry i i → ∀ j, j < N → j ≠ i →
      A.entry i j = 0 ∧ A.entry j i = 0) ∧
    ∃ c, countLoops N A = some c ∧ countLoopsPlain N A = some c :=
  ⟨fun _ hi hd _ hj hne => selfPaired_entries_zero hA hi hd hj hne,
    _, countLoops_components hA, countLoopsPlain_components hA⟩

theorem countLoops_shortCircuit_consistent_witness :
    CSR.IsMatching 4 ⟨4, [[(0, 1)], [(2, 1), (3, 1)], [(1, 1), (3, 1)], [(2, 1), (1, 1)]]⟩ ∧
    ∃ c, countLoops 4 ⟨4, [[(0, 1)], [(2, 1), (3, 1)], [(1, 1), (3, 1)], [(2, 1), (1, 1)]]⟩
        = some c ∧
      countLoopsPlain 4 ⟨4, [[(0, 1)], [(2, 1), (3, 1)], [(1, 1), (3, 1)], [(2, 1), (1, 1)]]⟩
        = some c :=
  ⟨by decide, (countLoops_shortCircuit_consistent 4
    ⟨4, [[(0, 1)], [(2, 1), (3, 1)], [(1, 1), (3, 1)], [(2, 1), (1, 1)]]⟩ (by decide)).2⟩

/-- A symmetric matrix with two self-paired nodes, 1 and 2, both joined to
node 0, which is not self-paired: the traversal from node 0 marks them, and
`countLoops` returns 1, less than the number of self-paired nodes. -/
theorem countLoops_selfPaired_absorbed :
    CSR.Canonical 3 ⟨3, [[(1, 1), (2, 1)], [(0, 1), (1, 1)], [(0, 1), (2, 1)]]⟩ ∧
    CSR.Symmetric 3 ⟨3, [[(1, 1), (2, 1)], [(0, 1), (1, 1)], [(0, 1), (2, 1)]]⟩ ∧
    (Finset.univ.filter fun i : Fin 3 =>
      0 < CSR.entry ⟨3, [[(1, 1), (2, 1)], [(0, 1), (1, 1)], [(0, 1), (2, 1)]]⟩ i i).card = 2 ∧
    countLoops 3 ⟨3, [[(1, 1), (2, 1)], [(0, 1), (1, 1)], [(0, 1), (2, 1)]]⟩ = some 1 := by
  decide

/-- C16 (amended): on every symmetric `N × N` matrix `A`, a self-paired node
that is unmarked when the outer loop reaches it is counted as exactly one loop
on its own and nothing else is marked, whatever its off-diagonal edges, while
a node that an earlier traversal has marked is skipped; and when no
self-paired node has an edge to a node that is not self-paired,
`countLoops(N, A)` is the number of connected components of the graph that
ignores the edges of the self-paired nodes, in which every self-paired node
is a component on its own, so `countLoops(N, A)` is at least the number of
self-paired nodes. -/
theorem countLoops_selfPaired (N : Nat) (A : CSR) (hA : A.Canonical N) (hs : A.Symmetric N) :
    (∀ i, i < N →
      ∃ v c, outerLoop N A (List.range i) (List.replicate N false) 0 = some (v, c) ∧
        (vis v i →
          outerLoop N A (List.range (i + 1)) (List.replicate N false) 0 = some (v, c)) ∧
        (¬ vis v i → 0 < A.entry i i →
          outerLoop N A (List.range (i + 1)) (List.replicate N false) 0
            = some (v.set i true, c + 1))) ∧
    (A.SelfPairedApart N →
      countLoops N A = some (Nat.card (restGraph N A).ConnectedComponent) ∧
      (∀ i a : Fin N, 0 < A.entry i i → ((restGraph N A).Reachable i a ↔ a = i)) ∧
      ∃ c, countLoops N A = some c ∧
        (Finset.univ.filter fun i : Fin N => 0 < A.entry i i).card ≤ c) :=
  ⟨fun i hi => outerLoop_reaches hA.1 i hi,
    fun hH => ⟨countLoops_rest hA hs hH,
      fun i a hd => restGraph_selfPaired_alone hs i hd a,
      _, countLoops_rest hA hs hH, selfPaired_le_components hs⟩⟩

theorem countLoops_selfPaired_witness :
    CSR.Canonical 3 ⟨3, [[(0, 1), (1, 1)], [(0, 1), (1, 1)], []]⟩ ∧
    CSR.Symmetric 3 ⟨3, [[(0, 1), (1, 1)], [(0, 1), (1, 1)], []]⟩ ∧
    CSR.SelfPairedApart 3 ⟨3, [[(0, 1), (1, 1)], [(0, 1), (1, 1)], []]⟩ ∧
    ∃ c, countLoops 3 ⟨3, [[(0, 1), (1, 1)], [(0, 1), (1, 1)], []]⟩ = some c ∧
      (Finset.univ.filter fun i : Fin 3 =>
        0 < CSR.entry ⟨3, [[(0, 1), (1, 1)], [(0, 1), (1, 1)], []]⟩ i i).card ≤ c :=
  ⟨by decide, by decide, by decide,
    ((countLoops_selfPaired 3 ⟨3, [[(0, 1), (1, 1)], [(0, 1), (1, 1)], []]⟩
      (by decide) (by decide)).2 (by decide)).2.2⟩

/-- C17 (termination, every node visited exactly once): on every `N × N`
matrix `countLoops` returns; over the whole run every node `0..N-1` is marked
exactly once (the nodes marked for the loops counted, taken together, are a
rearrangement of `0..N-1`), so no queue ever holds a node twice or more than
`N` entries, and on return every node is marked. -/
theorem countLoops_visits_once (N : Nat) (A : CSR) (hA : A.InRange N) :
    ∃ v c groups,
      outerLoopGroups N A (List.range N) (List.replicate N false) 0 [] = some (v, c, groups) ∧
      countLoops N A = some c ∧ c = groups.length ∧
      groups.flatten.Perm (List.range N) ∧ (∀ g ∈ groups, g.Nodup ∧ g.length ≤ N) ∧
      ∀ i, i < N → vis v i :=
  countLoops_groups hA

theorem countLoops_visits_once_witness :
    CSR.InRange 4 ⟨4, [[(0, 1)], [(2, 1), (3, 1)], [(1, 1), (3, 1)], [(2, 1), (1, 1)]]⟩ ∧
    ∃ v c groups,
      outerLoopGroups 4 ⟨4, [[(0, 1)], [(2, 1), (3, 1)], [(1, 1), (3, 1)], [(2, 1), (1, 1)]]⟩
        (List.range 4) (List.replicate 4 false) 0 [] = some (v, c, groups) ∧
      countLoops 4 ⟨4, [[(0, 1)], [(2, 1), (3, 1)], [(1, 1), (3, 1)], [(2, 1), (1, 1)]]⟩
        = some c ∧ c = groups.length ∧
      groups.flatten.Perm (List.range 4) ∧ (∀ g ∈ groups, g.Nodup ∧ g.length ≤ 4) ∧
      ∀ i, i < 4 → vis v i :=
  ⟨by decide, countLoops_visits_once 4
    ⟨4, [[(0, 1)], [(2, 1), (3, 1)], [(1, 1), (3, 1)], [(2, 1), (1, 1)]]⟩ (by decide)⟩

/-! ## The claims about `plotHistogram` -/

/-- C19 (frequency table): for every list `data` of non-negative integers and
every order in which the map is visited, `maxVal` is the maximum of `data`
(`0` if no entry is positive), `hist` has length `maxVal + 1`, `hist[0] = 0`,
`hist[k]` is the number of entries of `data` equal to `k` for
`1 ≤ k ≤ maxVal`, and the sum of `hist` is the number of non-zero entries of
`data`. -/
theorem plotHistogram_table (order : List (Nat × Nat) → List (Nat × Nat)) (data : List Nat)
    (ho : ∀ l, (order l).Perm l) :
    ∃ hist, histogram order data = some hist ∧
      (countFreq data [] 0).2 = data.foldr max 0 ∧
      hist.length = (countFreq data [] 0).2 + 1 ∧
      hist[0]? = some 0 ∧
      (∀ k, 1 ≤ k → k ≤ (countFreq data [] 0).2 → hist[k]? = some (data.count k)) ∧
      hist.sum = (data.filter fun v => decide (v ≠ 0)).length := by
  obtain ⟨hist, e1, e2, e3, e4⟩ := histogram_spec order ho data
  refine ⟨hist, e1, e2, by rw [e2, e3], by simpa using e4 0 (Nat.zero_le _), fun k h1 h2 => ?_,
    histogram_sum order ho data e1⟩
  rw [e2] at h2
  rw [e4 k h2, if_neg (by omega)]

theorem plotHistogram_table_witness :
    (∀ l : List (Nat × Nat), (List.reverse l).Perm l) ∧
    ∃ hist, histogram List.reverse [2, 0, 3, 2] = some hist ∧
      (countFreq [2, 0, 3, 2] [] 0).2 = [2, 0, 3, 2].foldr max 0 ∧
      hist.length = (countFreq [2, 0, 3, 2] [] 0).2 + 1 ∧
      hist[0]? = some 0 ∧
      (∀ k, 1 ≤ k → k ≤ (countFreq [2, 0, 3, 2] [] 0).2 →
        hist[k]? = some ([2, 0, 3, 2].count k)) ∧
      hist.sum = ([2, 0, 3, 2].filter fun v => decide (v ≠ 0)).length :=
  ⟨fun l => List.reverse_perm l,
    plotHistogram_table List.reverse [2, 0, 3, 2] (fun l => List.reverse_perm l)⟩

/-- C20 (index and slice bounds): for every list `data` of non-negative
integers, the writes `hist[k]` and the slice `hist[1:]` are always within
bounds, and with them the slice `makeXLabels(len(hist)-1)[1:]` is within
bounds, so that `plotHistogram` passes all of them, exactly when `data` has a
positive entry; `makeXLabels(n)` returns the `n` decimal strings
`"0"`, ..., `"n-1"`. -/
theorem plotHistogram_bounds (order : List (Nat × Nat) → List (Nat × Nat)) (data : List Nat)
    (ho : ∀ l, (order l).Perm l) :
    (∃ hist, histogram order data = some hist ∧ (sliceFromOne hist).isSome ∧
      ((sliceFromOne (makeXLabels (hist.length - 1))).isSome ↔ ∃ v ∈ data, 0 < v)) ∧
    ((plotHistogram order data).isSome ↔ ∃ v ∈ data, 0 < v) ∧
    (∀ n, makeXLabels n = (List.range n).map Nat.repr) ∧
    makeXLabels 3 = ["0", "1", "2"] := by
  obtain ⟨hist, e1, _, e3, _⟩ := histogram_spec order ho data
  refine ⟨⟨hist, e1, by simp [sliceFromOne, e3], ?_⟩, plotHistogram_isSome order ho data,
    makeXLabels_eq, by decide⟩
  rw [← foldr_max_pos, e3, Nat.add_sub_cancel]
  simp [sliceFromOne, makeXLabels_eq]

theorem plotHistogram_bounds_witness :
    (∀ l : List (Nat × Nat), (id l).Perm l) ∧
    ((plotHistogram id [0, 0, 0]).isSome ↔ ∃ v ∈ [0, 0, 0], 0 < v) ∧
    plotHistogram id [0, 0, 0] = none ∧
    plotHistogram id [2, 0, 1, 2] = some ([0, 1, 2], [1, 2], ["1"]) :=
  ⟨fun l => List.Perm.refl l,
    (plotHistogram_bounds id [0, 0, 0] (fun l => List.Perm.refl l)).2.1, by decide, by decide⟩

/-- C11: for every `N ≥ 1` and every one of the `(2N)!` orders `σ` in which
the shuffle can leave the `2N` endpoint tokens, `randomMatching` returns a
matrix on which `countLoops` returns `loopsOf σ`, a number between 1 and
`N`; the mean of that loop count
over all the orders is the sum of `1 / (2k - 1)` for `k` from 1 to `N`, which
is `1` for `N = 1` and `4/3` for `N = 2`. -/
theorem noodling_mean_closed_form (N : Nat) (hN : 1 ≤ N) :
    Fintype.card (Equiv.Perm (Fin (2 * N))) = (2 * N).factorial ∧
    (∀ σ : Equiv.Perm (Fin (2 * N)), ∃ A,
      randomMatching (fun _ => tokenLabels σ) N = some A ∧
      countLoops N A = some (loopsOf σ) ∧
      noodling (fun _ => tokenLabels σ) N = some (loopsOf σ) ∧
      1 ≤ loopsOf σ ∧ loopsOf σ ≤ N) ∧
    (∑ σ : Equiv.Perm (Fin (2 * N)), (loopsOf σ : ℚ)) / ((2 * N).factorial : ℚ)
      = ∑ k ∈ Finset.Icc 1 N, 1 / (2 * (k : ℚ) - 1) ∧
    (N = 1 → (∑ σ : Equiv.Perm (Fin (2 * N)), (loopsOf σ : ℚ)) / ((2 * N).factorial : ℚ) = 1) ∧
    (N = 2 →
      (∑ σ : Equiv.Perm (Fin (2 * N)), (loopsOf σ : ℚ)) / ((2 * N).factorial : ℚ) = 4 / 3) := by
  refine ⟨by rw [Fintype.card_perm, Fintype.card_fin], ?_, mean_loopsOf N, ?_, ?_⟩
  · intro σ
    obtain ⟨A, hA, hc, _⟩ := noodling_tokenLabels σ
    have hn : noodling (fun _ => tokenLabels σ) N = some (loopsOf σ) := by
      simp [noodling, hA, hc]
    obtain ⟨c, h1, h2, h3⟩ :=
      @noodling_returns_bounded (fun _ => tokenLabels σ) N hN (tokenLabels_perm σ)
    rw [hn] at h1
    cases h1
    exact ⟨A, hA, hc, hn, h2, h3⟩
  · intro h
    rw [mean_loopsOf N, h]
    norm_num
  · intro h
    rw [mean_loopsOf N, h]
    have : Finset.Icc 1 2 = {1, 2} := by decide
    rw [this]
    norm_num

theorem noodling_mean_closed_form_witness :
    1 ≤ 2 ∧
    (∑ σ : Equiv.Perm (Fin (2 * 2)), (loopsOf σ : ℚ)) / ((2 * 2).factorial : ℚ) = 4 / 3 :=
  ⟨by decide, (noodling_mean_closed_form 2 (by decide)).2.2.2.2 rfl⟩

end Noodles
